import Mathlib

/-!
The caches of go-mem-cache: LRU caches with and without TTL.

A shallow embedding of `lrucache.go` and `lrucahettl.go`.

* Keys are Go `string`s, values are `any` (a type parameter `V`).
* `sync.Map` and the Go `map` are association lists with `mapLoad`, `mapStore`,
  `mapDelete`.
* `container/list` is a `List Element`, front first.  An `Element` carries the key
  it was pushed with (`Value`) and an `id` that stands for its pointer identity;
  `nextId` is the allocation counter that makes every pushed element fresh.
* `maxSize`, `ttl` and `time.Now().UnixNano()` are integers; the clock reading is
  an argument of the TTL operations.  A reading of the wall clock is an int64 at or
  after the Unix epoch (`ClockReading`).  The one arithmetic operation of the source,
  `time.Now().Add(ttl).UnixNano()`, is the sum modulo 2^64 in two's complement
  (`wrapInt64`), as Go computes an int64.
* `(any, bool)` results are `Option V`: `none` is `(nil, false)`, `some v` is
  `(v, true)`.
* The mutex is held for the whole body of every operation, so an operation is one
  function from state to state.
-/

namespace GoMemCache

/-! ## Maps -/

/-- Lookup of `key`: `m.Load(key)` for `sync.Map`, `m[key]` for a Go map. -/
def mapLoad {β : Type} : List (String × β) → String → Option β
  | [], _ => none
  | (k, v) :: rest, key => if k = key then some v else mapLoad rest key

/-- Removal of `key`: `m.Delete(key)` for `sync.Map`, `delete(m, key)` for a Go map. -/
def mapDelete {β : Type} (m : List (String × β)) (key : String) : List (String × β) :=
  m.filter (fun p => !decide (p.1 = key))

/-- Binding of `key` to `v`: `m.Store(key, v)` for `sync.Map`, `m[key] = v` for a Go map. -/
def mapStore {β : Type} (m : List (String × β)) (key : String) (v : β) : List (String × β) :=
  (key, v) :: mapDelete m key

/-- The keys bound in a map. -/
def mapKeys {β : Type} (m : List (String × β)) : List String :=
  m.map Prod.fst

/-- A list of keys with `key` taken out, the other keys in their order. -/
def keysWithout (l : List String) (key : String) : List String :=
  l.filter (fun j => !decide (j = key))

/-! ## container/list -/

/-- A `*list.Element`: `id` is the identity of the node, `Value` the key stored in it. -/
structure Element where
  id : Nat
  Value : String
deriving DecidableEq, Repr

/-- Go `l.PushFront`: the new element becomes the front. -/
def PushFront (l : List Element) (e : Element) : List Element :=
  e :: l

/-- Go `l.MoveToFront(e)`: nothing happens when `e` is not an element of `l`. -/
def MoveToFront (l : List Element) (e : Element) : List Element :=
  if e ∈ l then e :: l.erase e else l

/-- Go `l.Remove(e)`: nothing happens when `e` is not an element of `l`. -/
def Remove (l : List Element) (e : Element) : List Element :=
  l.erase e

/-- Go `l.Back()`: the last element, `nil` for an empty list. -/
def Back (l : List Element) : Option Element :=
  l.getLast?

/-- The keys met when walking the list from front to back. -/
def listKeys (l : List Element) : List String :=
  l.map Element.Value

/-! ## The plain cache (`lrucache.go`) -/

/-- The struct `LruMemoryCache`. -/
structure LruMemoryCache (V : Type) where
  store : List (String × V)
  keyToElement : List (String × Element)
  order : List Element
  maxSize : Int
  nextId : Nat
deriving DecidableEq

/-- Go `NewLruMemoryCache(maxSize)`. -/
def NewLruMemoryCache {V : Type} (maxSize : Int) : LruMemoryCache V :=
  { store := [], keyToElement := [], order := [], maxSize := maxSize, nextId := 0 }

namespace LruMemoryCache

variable {V : Type}

/-- Go `evictOldest`: drop the back of the list from all three structures. -/
def evictOldest (mc : LruMemoryCache V) : LruMemoryCache V :=
  match Back mc.order with
  | some oldest =>
    { mc with
      store := mapDelete mc.store oldest.Value
      order := Remove mc.order oldest
      keyToElement := mapDelete mc.keyToElement oldest.Value }
  | none => mc

/-- Go `removeKey`: drop `key` from the list and from `keyToElement`. -/
def removeKey (mc : LruMemoryCache V) (key : String) : LruMemoryCache V :=
  match mapLoad mc.keyToElement key with
  | some elem =>
    { mc with
      order := Remove mc.order elem
      keyToElement := mapDelete mc.keyToElement key }
  | none => mc

/-- Go `Set(key, value)`. -/
def Set (mc : LruMemoryCache V) (key : String) (value : V) : LruMemoryCache V :=
  match mapLoad mc.keyToElement key with
  | some elem =>
    { mc with
      store := mapStore mc.store key value
      order := MoveToFront mc.order elem }
  | none =>
    let element : Element := { id := mc.nextId, Value := key }
    let mc1 : LruMemoryCache V :=
      { mc with
        store := mapStore mc.store key value
        order := PushFront mc.order element
        keyToElement := mapStore mc.keyToElement key element
        nextId := mc.nextId + 1 }
    if mc1.maxSize > 0 ∧ (mc1.order.length : Int) > mc1.maxSize then evictOldest mc1 else mc1

/-- Go `Get(key)`: the result and the state after the call. -/
def Get (mc : LruMemoryCache V) (key : String) : Option V × LruMemoryCache V :=
  match mapLoad mc.store key with
  | none => (none, mc)
  | some value =>
    match mapLoad mc.keyToElement key with
    | some elem => (some value, { mc with order := MoveToFront mc.order elem })
    | none => (some value, mc)

/-- Go `Delete(key)`. -/
def Delete (mc : LruMemoryCache V) (key : String) : LruMemoryCache V :=
  match mapLoad mc.store key with
  | some _ => removeKey { mc with store := mapDelete mc.store key } key
  | none => mc

end LruMemoryCache

/-- A call of the public interface of the plain cache. -/
inductive Op (V : Type) where
  | set (key : String) (value : V)
  | get (key : String)
  | delete (key : String)

/-- The state after one call. -/
def Op.apply {V : Type} (mc : LruMemoryCache V) : Op V → LruMemoryCache V
  | Op.set key value => mc.Set key value
  | Op.get key => (mc.Get key).2
  | Op.delete key => mc.Delete key

/-- The state after a sequence of calls, first call first. -/
def runOps {V : Type} (mc : LruMemoryCache V) (ops : List (Op V)) : LruMemoryCache V :=
  ops.foldl Op.apply mc

/-- States of the plain cache that some sequence of calls on a new cache produces. -/
def Reachable {V : Type} (mc : LruMemoryCache V) : Prop :=
  ∃ (maxSize : Int) (ops : List (Op V)), mc = runOps (NewLruMemoryCache maxSize) ops

/-- Consistency of the three structures of a cache state. -/
structure Consistent (storeKeys : List String) (keyToElement : List (String × Element))
    (order : List Element) (nextId : Nat) : Prop where
  keysNodup : (listKeys order).Nodup
  idsNodup : (order.map Element.id).Nodup
  fresh : ∀ e ∈ order, e.id < nextId
  index : ∀ k e, mapLoad keyToElement k = some e ↔ (e ∈ order ∧ e.Value = k)
  stored : ∀ k, k ∈ storeKeys ↔ k ∈ listKeys order
  storeNodup : storeKeys.Nodup
  indexNodup : (mapKeys keyToElement).Nodup

/-- The consistency invariant of the plain cache. -/
def LruMemoryCache.Inv {V : Type} (mc : LruMemoryCache V) : Prop :=
  Consistent (mapKeys mc.store) mc.keyToElement mc.order mc.nextId

/-- The capacity bound: a positive `maxSize` limits the length of the recency list. -/
def LruMemoryCache.Bounded {V : Type} (mc : LruMemoryCache V) : Prop :=
  0 < mc.maxSize → (mc.order.length : Int) ≤ mc.maxSize

/-! ## The TTL cache (`lrucahettl.go`) -/

/-- The int64 that Go arithmetic yields for the integer `x`: `x` modulo 2^64, taken in the
range from -2^63 to 2^63 - 1. -/
def wrapInt64 (x : Int) : Int :=
  (x + 9223372036854775808) % 18446744073709551616 - 9223372036854775808

/-- A value that `time.Now().UnixNano()` can return on a running system: an int64 at or
after the Unix epoch. -/
def ClockReading (t : Int) : Prop :=
  0 ≤ t ∧ t < 9223372036854775808

/-- The struct `CacheEntry`. -/
structure CacheEntry (V : Type) where
  Value : V
  Expiration : Int
deriving DecidableEq

/-- The struct `LruMemoryCacheWithTtl`. -/
structure LruMemoryCacheWithTtl (V : Type) where
  store : List (String × CacheEntry V)
  keyToElement : List (String × Element)
  order : List Element
  maxSize : Int
  ttl : Int
  nextId : Nat
deriving DecidableEq

/-- Go `NewLruMemoryCacheWithTtl(maxSize, ttl)`. -/
def NewLruMemoryCacheWithTtl {V : Type} (maxSize : Int) (ttl : Int) : LruMemoryCacheWithTtl V :=
  { store := [], keyToElement := [], order := [], maxSize := maxSize, ttl := ttl, nextId := 0 }

namespace LruMemoryCacheWithTtl

variable {V : Type}

/-- Go `getExpirationTime`, with the clock reading `now`: `time.Now().Add(mc.ttl).UnixNano()`
is the int64 that the sum `now + ttl` wraps to. -/
def getExpirationTime (mc : LruMemoryCacheWithTtl V) (now : Int) : Int :=
  if mc.ttl > 0 then wrapInt64 (now + mc.ttl) else 0

/-- Go `evictOldest`: drop the back of the list from all three structures. -/
def evictOldest (mc : LruMemoryCacheWithTtl V) : LruMemoryCacheWithTtl V :=
  match Back mc.order with
  | some oldest =>
    { mc with
      store := mapDelete mc.store oldest.Value
      order := Remove mc.order oldest
      keyToElement := mapDelete mc.keyToElement oldest.Value }
  | none => mc

/-- Go `removeKey`: drop `key` from the list and from `keyToElement`. -/
def removeKey (mc : LruMemoryCacheWithTtl V) (key : String) : LruMemoryCacheWithTtl V :=
  match mapLoad mc.keyToElement key with
  | some elem =>
    { mc with
      order := Remove mc.order elem
      keyToElement := mapDelete mc.keyToElement key }
  | none => mc

/-- Go `Set(key, value)` when the clock reads `now`. -/
def Set (mc : LruMemoryCacheWithTtl V) (now : Int) (key : String) (value : V) :
    LruMemoryCacheWithTtl V :=
  match mapLoad mc.keyToElement key with
  | some elem =>
    let entry : CacheEntry V := { Value := value, Expiration := mc.getExpirationTime now }
    { mc with
      store := mapStore mc.store key entry
      order := MoveToFront mc.order elem }
  | none =>
    let entry : CacheEntry V := { Value := value, Expiration := mc.getExpirationTime now }
    let element : Element := { id := mc.nextId, Value := key }
    let mc1 : LruMemoryCacheWithTtl V :=
      { mc with
        store := mapStore mc.store key entry
        order := PushFront mc.order element
        keyToElement := mapStore mc.keyToElement key element
        nextId := mc.nextId + 1 }
    if mc1.maxSize > 0 ∧ (mc1.order.length : Int) > mc1.maxSize then evictOldest mc1 else mc1

/-- Go `Get(key)` when the clock reads `now`: the result and the state after the call. -/
def Get (mc : LruMemoryCacheWithTtl V) (now : Int) (key : String) :
    Option V × LruMemoryCacheWithTtl V :=
  match mapLoad mc.store key with
  | none => (none, mc)
  | some entry =>
    if entry.Expiration > 0 ∧ now > entry.Expiration then
      (none, removeKey { mc with store := mapDelete mc.store key } key)
    else
      match mapLoad mc.keyToElement key with
      | some elem => (some entry.Value, { mc with order := MoveToFront mc.order elem })
      | none => (some entry.Value, mc)

/-- Go `Delete(key)`. -/
def Delete (mc : LruMemoryCacheWithTtl V) (key : String) : LruMemoryCacheWithTtl V :=
  match mapLoad mc.store key with
  | some _ => removeKey { mc with store := mapDelete mc.store key } key
  | none => mc

/-- The consistency invariant of the TTL cache. -/
def Inv (mc : LruMemoryCacheWithTtl V) : Prop :=
  Consistent (mapKeys mc.store) mc.keyToElement mc.order mc.nextId

/-- The fields a TTL cache shares with a plain cache whose values are the cache entries. -/
def toPlain (mc : LruMemoryCacheWithTtl V) : LruMemoryCache (CacheEntry V) :=
  { store := mc.store, keyToElement := mc.keyToElement, order := mc.order,
    maxSize := mc.maxSize, nextId := mc.nextId }

/-- The test of `Get` on a loaded entry: it has an expiration and the clock is past it. -/
def expired (entry : CacheEntry V) (now : Int) : Prop :=
  entry.Expiration > 0 ∧ now > entry.Expiration

instance (entry : CacheEntry V) (now : Int) : Decidable (expired entry now) := by
  unfold expired
  exact inferInstance

end LruMemoryCacheWithTtl

/-- A call of the public interface of the TTL cache, with the clock reading during the call. -/
inductive TtlOp (V : Type) where
  | set (now : Int) (key : String) (value : V)
  | get (now : Int) (key : String)
  | delete (now : Int) (key : String)

/-- The state after one call. -/
def TtlOp.apply {V : Type} (mc : LruMemoryCacheWithTtl V) : TtlOp V → LruMemoryCacheWithTtl V
  | TtlOp.set now key value => mc.Set now key value
  | TtlOp.get now key => (mc.Get now key).2
  | TtlOp.delete _ key => mc.Delete key

/-- The clock reading of a call. -/
def TtlOp.time {V : Type} : TtlOp V → Int
  | TtlOp.set now _ _ => now
  | TtlOp.get now _ => now
  | TtlOp.delete now _ => now

/-- The state after a sequence of calls, first call first. -/
def runTtlOps {V : Type} (mc : LruMemoryCacheWithTtl V) (ops : List (TtlOp V)) :
    LruMemoryCacheWithTtl V :=
  ops.foldl TtlOp.apply mc

/-- States of the TTL cache that some sequence of calls on a new cache produces. -/
def TtlReachable {V : Type} (mc : LruMemoryCacheWithTtl V) : Prop :=
  ∃ (maxSize ttl : Int) (ops : List (TtlOp V)),
    mc = runTtlOps (NewLruMemoryCacheWithTtl maxSize ttl) ops

/-! ## The plain cache behind a TTL cache -/

/-- A cache state with every stored value replaced by its image under `g`; keys, recency
list and key index are kept. -/
def LruMemoryCache.mapValues {V W : Type} (g : V → W) (mc : LruMemoryCache V) :
    LruMemoryCache W :=
  { store := mc.store.map (fun p => (p.1, g p.2)), keyToElement := mc.keyToElement,
    order := mc.order, maxSize := mc.maxSize, nextId := mc.nextId }

/-- The plain cache state that holds the keys of a TTL cache in the same recency order with
the same values, the expirations dropped. -/
def LruMemoryCacheWithTtl.values {V : Type} (mc : LruMemoryCacheWithTtl V) :
    LruMemoryCache V :=
  mc.toPlain.mapValues CacheEntry.Value

/-- The call of the plain cache that corresponds to a call of the TTL cache. -/
def TtlOp.toOp {V : Type} : TtlOp V → Op V
  | TtlOp.set _ key value => Op.set key value
  | TtlOp.get _ key => Op.get key
  | TtlOp.delete _ key => Op.delete key

/-! ## Reference descriptions of the recency order -/

/-- A list of keys cut back to `n` keys by dropping the last one, for a list that is at most
one key too long. -/
def capAt (n : Nat) (l : List String) : List String :=
  if l.length > n then l.dropLast else l

/-- The calls `Set(k1, v1)`, ..., `Set(kn, vn)` for a list of key and value pairs. -/
def setOps {V : Type} (sets : List (String × V)) : List (Op V) :=
  sets.map (fun p => Op.set p.1 p.2)

/-- The distinct keys of a sequence of keys, ordered by their last occurrence, the most
recent first. -/
def recencySpec (keys : List String) : List String :=
  keys.dedup.reverse

/-- A list of keys truncated to its first `maxSize` keys when `maxSize > 0`, untruncated
otherwise. -/
def truncateSpec (maxSize : Int) (l : List String) : List String :=
  if maxSize > 0 then l.take maxSize.toNat else l

/-- The value of the last pair with key `k` in a sequence of key and value pairs. -/
def lastValueSpec {V : Type} (sets : List (String × V)) (k : String) : Option V :=
  mapLoad sets.reverse k

/-- The relation between a cache of capacity `n` and a cache of capacity `n + 1` that have
received the same calls: both are consistent and within their bounds, the keys of the
smaller one occur in the same order among the keys of the larger one and are stored with
the same values, and the larger one holds at most one key more. -/
structure Nested {V : Type} (n : Int) (s l : LruMemoryCache V) : Prop where
  invS : s.Inv
  invL : l.Inv
  boundS : s.Bounded
  boundL : l.Bounded
  maxS : s.maxSize = n
  maxL : l.maxSize = n + 1
  sub : (listKeys s.order).Sublist (listKeys l.order)
  vals : ∀ k ∈ listKeys s.order, mapLoad s.store k = mapLoad l.store k
  len : (listKeys l.order).length ≤ (listKeys s.order).length + 1

/-! ## Concrete states -/

/-- A plain cache of capacity 2 after `Set("a", 1)`, `Set("b", 2)`. -/
def fullPlain : LruMemoryCache Nat :=
  runOps (NewLruMemoryCache 2) [Op.set "a" 1, Op.set "b" 2]

/-- A TTL cache of capacity 2 and ttl 10 after `Set("a", 1)` at time 1 and `Set("b", 2)`
at time 2. -/
def fullTtl : LruMemoryCacheWithTtl Nat :=
  runTtlOps (NewLruMemoryCacheWithTtl 2 10) [TtlOp.set 1 "a" 1, TtlOp.set 2 "b" 2]

end GoMemCache

namespace GoMemCache

/-! ## Maps: lookup after update -/

theorem mapLoad_eq_none_iff {β : Type} (m : List (String × β)) (key : String) :
    mapLoad m key = none ↔ key ∉ mapKeys m := by
  induction m with
  | nil => simp [mapLoad, mapKeys]
  | cons p rest ih =>
    obtain ⟨k, v⟩ := p
    by_cases h : k = key
    · simp [mapLoad, mapKeys, h]
    · simp only [mapLoad, if_neg h, ih, mapKeys, List.map_cons, List.mem_cons, not_or]
      constructor
      · intro h2
        exact ⟨fun h3 => h h3.symm, h2⟩
      · intro h2
        exact h2.2

theorem mapLoad_isSome_iff {β : Type} (m : List (String × β)) (key : String) :
    (mapLoad m key).isSome ↔ key ∈ mapKeys m := by
  rw [← not_iff_not, ← mapLoad_eq_none_iff]
  cases mapLoad m key <;> simp

theorem mapLoad_mapDelete_self {β : Type} (m : List (String × β)) (key : String) :
    mapLoad (mapDelete m key) key = none := by
  rw [mapLoad_eq_none_iff]
  simp [mapKeys, mapDelete]

theorem mapLoad_mapDelete_ne {β : Type} (m : List (String × β)) {key j : String}
    (h : j ≠ key) : mapLoad (mapDelete m key) j = mapLoad m j := by
  induction m with
  | nil => rfl
  | cons p rest ih =>
    obtain ⟨k, v⟩ := p
    simp only [mapDelete] at ih
    by_cases hk : k = key
    · have hj : ¬ key = j := fun h2 => h h2.symm
      simp [mapDelete, mapLoad, hk, hj, ih]
    · simp [mapDelete, mapLoad, hk, ih]

theorem mapLoad_mapStore_self {β : Type} (m : List (String × β)) (key : String) (v : β) :
    mapLoad (mapStore m key v) key = some v := by
  simp [mapStore, mapLoad]

theorem mapLoad_mapStore_ne {β : Type} (m : List (String × β)) {key j : String} (v : β)
    (h : j ≠ key) : mapLoad (mapStore m key v) j = mapLoad m j := by
  have hj : ¬ key = j := fun h2 => h h2.symm
  simp [mapStore, mapLoad, hj, mapLoad_mapDelete_ne m h]

theorem mapKeys_mapDelete {β : Type} (m : List (String × β)) (key : String) :
    mapKeys (mapDelete m key) = keysWithout (mapKeys m) key := by
  induction m with
  | nil => rfl
  | cons p rest ih =>
    obtain ⟨k, v⟩ := p
    simp only [mapKeys, mapDelete, keysWithout] at ih
    by_cases hk : k = key
    · simp [mapKeys, mapDelete, keysWithout, hk, ih]
    · simp [mapKeys, mapDelete, keysWithout, hk, ih]

theorem mapKeys_mapStore {β : Type} (m : List (String × β)) (key : String) (v : β) :
    mapKeys (mapStore m key v) = key :: keysWithout (mapKeys m) key := by
  have h := mapKeys_mapDelete m key
  simp only [mapKeys] at h
  simp [mapStore, mapKeys, h]

theorem mapDelete_eq_self {β : Type} (m : List (String × β)) (key : String)
    (h : mapLoad m key = none) : mapDelete m key = m := by
  rw [mapLoad_eq_none_iff] at h
  simp only [mapDelete, List.filter_eq_self]
  intro p hp
  have : p.1 ≠ key := fun h2 => h (h2 ▸ List.mem_map_of_mem Prod.fst hp)
  simpa using this

theorem mem_keysWithout {l : List String} {key j : String} :
    j ∈ keysWithout l key ↔ j ∈ l ∧ j ≠ key := by
  simp [keysWithout]

theorem keysWithout_nodup {l : List String} (key : String) (h : l.Nodup) :
    (keysWithout l key).Nodup :=
  h.filter _

theorem keysWithout_eq_self {l : List String} {key : String} (h : key ∉ l) :
    keysWithout l key = l := by
  simp only [keysWithout, List.filter_eq_self]
  intro j hj
  have : j ≠ key := fun h2 => h (h2 ▸ hj)
  simpa using this

end GoMemCache

namespace GoMemCache

/-! ## The recency list -/

theorem element_eq_of_value_eq {o : List Element} (hn : (listKeys o).Nodup) {x y : Element}
    (hx : x ∈ o) (hy : y ∈ o) (h : x.Value = y.Value) : x = y :=
  List.inj_on_of_nodup_map hn hx hy h

theorem order_nodup {o : List Element} (hn : (listKeys o).Nodup) : o.Nodup :=
  List.Nodup.of_map Element.Value hn

theorem value_mem_listKeys {o : List Element} {e : Element} (h : e ∈ o) :
    e.Value ∈ listKeys o :=
  List.mem_map_of_mem Element.Value h

theorem listKeys_erase {o : List Element} (hn : (listKeys o).Nodup) {e : Element}
    (he : e ∈ o) : listKeys (o.erase e) = keysWithout (listKeys o) e.Value := by
  induction o with
  | nil => simp at he
  | cons x xs ih =>
    have hn2 : (listKeys xs).Nodup := by
      simp only [listKeys, List.map_cons, List.nodup_cons] at hn
      exact hn.2
    have hx : x.Value ∉ listKeys xs := by
      simp only [listKeys, List.map_cons, List.nodup_cons] at hn
      exact hn.1
    by_cases hxe : x = e
    · subst hxe
      have h1 := keysWithout_eq_self hx
      simp only [keysWithout] at h1
      simp [listKeys, keysWithout]
      simpa [listKeys] using h1.symm
    · have he2 : e ∈ xs := by
        rcases List.mem_cons.mp he with h | h
        · exact absurd h.symm hxe
        · exact h
      have hv : x.Value ≠ e.Value := fun h => hx (h ▸ value_mem_listKeys he2)
      have h1 := ih hn2 he2
      simp only [listKeys, keysWithout] at h1
      have hbeq : (x == e) = false := by simpa using hxe
      simp [listKeys, keysWithout, List.erase_cons, hbeq, hv, h1]

theorem listKeys_MoveToFront {o : List Element} (hn : (listKeys o).Nodup) {e : Element}
    (he : e ∈ o) : listKeys (MoveToFront o e) = e.Value :: keysWithout (listKeys o) e.Value := by
  have h := listKeys_erase hn he
  simp only [listKeys] at h
  simp [MoveToFront, he, listKeys, h]

theorem MoveToFront_perm {o : List Element} {e : Element} (he : e ∈ o) :
    o.Perm (MoveToFront o e) := by
  simp only [MoveToFront, if_pos he]
  exact List.perm_cons_erase he

theorem erase_getLast {o : List Element} (hn : o.Nodup) {e : Element}
    (he : o.getLast? = some e) : o.erase e = o.dropLast := by
  obtain ⟨ys, rfl⟩ := List.getLast?_eq_some_iff.mp he
  have hnot : e ∉ ys := by
    intro h
    have := List.nodup_append.mp hn
    exact this.2.2 h (List.mem_singleton_self e)
  rw [List.erase_append_right _ hnot]
  simp

theorem listKeys_getLast {o : List Element} {e : Element} (he : o.getLast? = some e) :
    (listKeys o).getLast? = some e.Value := by
  obtain ⟨ys, rfl⟩ := List.getLast?_eq_some_iff.mp he
  simp [listKeys]

theorem listKeys_dropLast (o : List Element) :
    listKeys o.dropLast = (listKeys o).dropLast := by
  simp [listKeys, List.map_dropLast]

end GoMemCache

namespace GoMemCache

/-! ## Consistency is kept by the four list updates -/

theorem Consistent.empty : Consistent [] [] [] 0 where
  keysNodup := List.nodup_nil
  idsNodup := List.nodup_nil
  fresh := by simp
  index := by simp [mapLoad]
  stored := by simp [listKeys]
  storeNodup := List.nodup_nil
  indexNodup := List.nodup_nil

theorem Consistent.not_mem_of_index_none {sk : List String} {ix : List (String × Element)}
    {o : List Element} {n : Nat} (h : Consistent sk ix o n) {k : String}
    (hk : mapLoad ix k = none) : k ∉ listKeys o := by
  intro hm
  obtain ⟨e, he, hv⟩ := List.mem_map.mp hm
  have := (h.index k e).mpr ⟨he, hv⟩
  rw [hk] at this
  exact Option.noConfusion this

theorem Consistent.index_some_of_mem {sk : List String} {ix : List (String × Element)}
    {o : List Element} {n : Nat} (h : Consistent sk ix o n) {k : String}
    (hk : k ∈ listKeys o) : ∃ e, mapLoad ix k = some e ∧ e ∈ o ∧ e.Value = k := by
  obtain ⟨e, he, hv⟩ := List.mem_map.mp hk
  exact ⟨e, (h.index k e).mpr ⟨he, hv⟩, he, hv⟩

theorem Consistent.storeKeys_congr {sk sk2 : List String} {ix : List (String × Element)}
    {o : List Element} {n : Nat} (h : Consistent sk ix o n) (hn : sk2.Nodup)
    (hm : ∀ k, k ∈ sk2 ↔ k ∈ sk) : Consistent sk2 ix o n where
  keysNodup := h.keysNodup
  idsNodup := h.idsNodup
  fresh := h.fresh
  index := h.index
  stored := fun k => (hm k).trans (h.stored k)
  storeNodup := hn
  indexNodup := h.indexNodup

theorem Consistent.perm {sk : List String} {ix : List (String × Element)}
    {o o2 : List Element} {n : Nat} (h : Consistent sk ix o n) (hp : o.Perm o2) :
    Consistent sk ix o2 n where
  keysNodup := ((hp.map Element.Value).nodup_iff).mp h.keysNodup
  idsNodup := ((hp.map Element.id).nodup_iff).mp h.idsNodup
  fresh := fun e he => h.fresh e (hp.mem_iff.mpr he)
  index := fun k e => by rw [h.index k e, hp.mem_iff]
  stored := fun k => by rw [h.stored k]; exact (hp.map Element.Value).mem_iff
  storeNodup := h.storeNodup
  indexNodup := h.indexNodup

theorem Consistent.moveToFront {sk : List String} {ix : List (String × Element)}
    {o : List Element} {n : Nat} (h : Consistent sk ix o n) (e : Element) :
    Consistent sk ix (MoveToFront o e) n := by
  by_cases he : e ∈ o
  · exact h.perm (MoveToFront_perm he)
  · simpa [MoveToFront, he] using h

theorem Consistent.store_present {sk : List String} {ix : List (String × Element)}
    {o : List Element} {n : Nat} (h : Consistent sk ix o n) {k : String} (hk : k ∈ sk) :
    Consistent (k :: keysWithout sk k) ix o n := by
  refine h.storeKeys_congr ?_ ?_
  · refine List.nodup_cons.mpr ⟨?_, keysWithout_nodup k h.storeNodup⟩
    simp [mem_keysWithout]
  · intro j
    by_cases hj : j = k
    · subst hj
      simp [hk]
    · simp [mem_keysWithout, hj]

theorem Consistent.pushFront {sk : List String} {ix : List (String × Element)}
    {o : List Element} {n : Nat} (h : Consistent sk ix o n) {k : String}
    (hk : mapLoad ix k = none) :
    Consistent (k :: keysWithout sk k) (mapStore ix k ⟨n, k⟩)
      (PushFront o ⟨n, k⟩) (n + 1) := by
  have hko : k ∉ listKeys o := h.not_mem_of_index_none hk
  refine ⟨?_, ?_, ?_, ?_, ?_, ?_, ?_⟩
  · simpa [PushFront, listKeys] using ⟨by simpa [listKeys] using hko, h.keysNodup⟩
  · simp only [PushFront, List.map_cons, List.nodup_cons]
    refine ⟨?_, h.idsNodup⟩
    intro hm
    obtain ⟨e, he, hid⟩ := List.mem_map.mp hm
    have := h.fresh e he
    omega
  · intro e he
    rcases List.mem_cons.mp he with h1 | h1
    · subst h1
      exact Nat.lt_succ_self _
    · exact Nat.lt_succ_of_lt (h.fresh e h1)
  · intro j e
    by_cases hj : j = k
    · subst hj
      rw [mapLoad_mapStore_self]
      constructor
      · intro h1
        cases h1
        exact ⟨List.mem_cons_self _ _, rfl⟩
      · rintro ⟨h1, h2⟩
        rcases List.mem_cons.mp h1 with h3 | h3
        · rw [h3]
        · exact absurd (h2 ▸ value_mem_listKeys h3) hko
    · rw [mapLoad_mapStore_ne _ _ hj, h.index j e]
      constructor
      · rintro ⟨h1, h2⟩
        exact ⟨List.mem_cons_of_mem _ h1, h2⟩
      · rintro ⟨h1, h2⟩
        rcases List.mem_cons.mp h1 with h3 | h3
        · subst h3
          exact absurd h2.symm hj
        · exact ⟨h3, h2⟩
  · intro j
    by_cases hj : j = k
    · subst hj
      simp [PushFront, listKeys]
    · have := h.stored j
      simp only [listKeys] at this
      simp [PushFront, listKeys, mem_keysWithout, hj, this]
  · refine List.nodup_cons.mpr ⟨?_, keysWithout_nodup k h.storeNodup⟩
    simp [mem_keysWithout]
  · rw [mapKeys_mapStore]
    refine List.nodup_cons.mpr ⟨?_, keysWithout_nodup k h.indexNodup⟩
    simp [mem_keysWithout]

theorem Consistent.remove {sk : List String} {ix : List (String × Element)}
    {o : List Element} {n : Nat} (h : Consistent sk ix o n) {e : Element} (he : e ∈ o) :
    Consistent (keysWithout sk e.Value) (mapDelete ix e.Value) (Remove o e) n := by
  have hno : o.Nodup := order_nodup h.keysNodup
  refine ⟨?_, ?_, ?_, ?_, ?_, ?_, ?_⟩
  · rw [Remove, listKeys_erase h.keysNodup he]
    exact keysWithout_nodup _ h.keysNodup
  · exact List.Nodup.sublist ((List.erase_sublist e o).map Element.id) h.idsNodup
  · intro x hx
    exact h.fresh x (List.mem_of_mem_erase hx)
  · intro j x
    by_cases hj : j = e.Value
    · subst hj
      rw [mapLoad_mapDelete_self]
      constructor
      · intro h1
        exact Option.noConfusion h1
      · rintro ⟨h1, h2⟩
        have hx : x ∈ o := List.mem_of_mem_erase h1
        have hxe : x = e := element_eq_of_value_eq h.keysNodup hx he h2
        subst hxe
        exact absurd h1 (List.Nodup.not_mem_erase hno)
    · rw [mapLoad_mapDelete_ne _ hj, h.index j x]
      constructor
      · rintro ⟨h1, h2⟩
        have hxe : x ≠ e := fun h3 => hj (h3 ▸ h2.symm)
        exact ⟨(List.mem_erase_of_ne hxe).mpr h1, h2⟩
      · rintro ⟨h1, h2⟩
        exact ⟨List.mem_of_mem_erase h1, h2⟩
  · intro j
    rw [Remove, listKeys_erase h.keysNodup he, mem_keysWithout, mem_keysWithout, h.stored j]
  · exact keysWithout_nodup _ h.storeNodup
  · rw [mapKeys_mapDelete]
    exact keysWithout_nodup _ h.indexNodup

end GoMemCache

namespace GoMemCache

namespace LruMemoryCache

variable {V : Type}

/-! ## The plain cache keeps its invariant -/

theorem Inv.index_of_stored {mc : LruMemoryCache V} (h : mc.Inv) {k : String} {v : V}
    (hk : mapLoad mc.store k = some v) :
    ∃ e, mapLoad mc.keyToElement k = some e ∧ e ∈ mc.order ∧ e.Value = k := by
  have h1 : k ∈ mapKeys mc.store := by
    rw [← mapLoad_isSome_iff, hk]
    rfl
  exact Consistent.index_some_of_mem h ((h.stored k).mp h1)

theorem Inv.index_none_of_not_stored {mc : LruMemoryCache V} (h : mc.Inv) {k : String}
    (hk : mapLoad mc.store k = none) : mapLoad mc.keyToElement k = none := by
  cases hix : mapLoad mc.keyToElement k with
  | none => rfl
  | some e =>
    have h1 := (h.index k e).mp hix
    have h2 : k ∈ mapKeys mc.store := (h.stored k).mpr (h1.2 ▸ value_mem_listKeys h1.1)
    exact absurd h2 ((mapLoad_eq_none_iff _ _).mp hk)

theorem Inv.stored_of_index {mc : LruMemoryCache V} (h : mc.Inv) {k : String} {e : Element}
    (hk : mapLoad mc.keyToElement k = some e) : k ∈ mapKeys mc.store := by
  have h1 := (h.index k e).mp hk
  exact (h.stored k).mpr (h1.2 ▸ value_mem_listKeys h1.1)

theorem Inv_New (maxSize : Int) : (NewLruMemoryCache maxSize : LruMemoryCache V).Inv :=
  Consistent.empty

theorem Inv_evictOldest {mc : LruMemoryCache V} (h : mc.Inv) : mc.evictOldest.Inv := by
  unfold evictOldest
  split
  · rename_i oldest hb
    have he : oldest ∈ mc.order := List.mem_of_getLast?_eq_some hb
    have := Consistent.remove h he
    rw [← mapKeys_mapDelete] at this
    exact this
  · exact h

theorem Inv_removeKey {mc : LruMemoryCache V} (h : mc.Inv) (key : String) :
    (removeKey { mc with store := mapDelete mc.store key } key).Inv := by
  unfold removeKey
  split
  · rename_i elem hix
    have h1 := (h.index key elem).mp hix
    have := Consistent.remove h h1.1
    rw [← mapKeys_mapDelete, h1.2] at this
    exact this
  · rename_i hix
    have hix2 : mapLoad mc.keyToElement key = none := hix
    have h1 : key ∉ mapKeys mc.store := fun h2 =>
      Consistent.not_mem_of_index_none h hix2 ((h.stored key).mp h2)
    have h2 : mapDelete mc.store key = mc.store :=
      mapDelete_eq_self _ _ ((mapLoad_eq_none_iff _ _).mpr h1)
    simp only [Inv, h2]
    exact h

theorem Inv_Set {mc : LruMemoryCache V} (h : mc.Inv) (key : String) (value : V) :
    (mc.Set key value).Inv := by
  unfold Set
  split
  · rename_i elem hix
    have h1 := Consistent.store_present h (h.stored_of_index hix)
    rw [← mapKeys_mapStore mc.store key value] at h1
    exact Consistent.moveToFront h1 elem
  · rename_i hix
    have h1 := Consistent.pushFront h hix
    rw [← mapKeys_mapStore mc.store key value] at h1
    have h2 : Inv { mc with
        store := mapStore mc.store key value
        order := PushFront mc.order { id := mc.nextId, Value := key }
        keyToElement := mapStore mc.keyToElement key { id := mc.nextId, Value := key }
        nextId := mc.nextId + 1 } := h1
    simp only
    split
    · exact Inv_evictOldest h2
    · exact h2

theorem Inv_Get {mc : LruMemoryCache V} (h : mc.Inv) (key : String) : (mc.Get key).2.Inv := by
  unfold Get
  split
  · exact h
  · split
    · exact Consistent.moveToFront h _
    · exact h

theorem Inv_Delete {mc : LruMemoryCache V} (h : mc.Inv) (key : String) :
    (mc.Delete key).Inv := by
  unfold Delete
  split
  · exact Inv_removeKey h key
  · exact h

end LruMemoryCache

theorem Inv_apply {V : Type} {mc : LruMemoryCache V} (h : mc.Inv) (op : Op V) :
    (Op.apply mc op).Inv := by
  cases op with
  | set key value => exact LruMemoryCache.Inv_Set h key value
  | get key => exact LruMemoryCache.Inv_Get h key
  | delete key => exact LruMemoryCache.Inv_Delete h key

theorem Inv_runOps {V : Type} (ops : List (Op V)) {mc : LruMemoryCache V} (h : mc.Inv) :
    (runOps mc ops).Inv := by
  induction ops generalizing mc with
  | nil => exact h
  | cons op rest ih => exact ih (Inv_apply h op)

theorem Reachable.inv {V : Type} {mc : LruMemoryCache V} (h : Reachable mc) : mc.Inv := by
  obtain ⟨maxSize, ops, rfl⟩ := h
  exact Inv_runOps ops (LruMemoryCache.Inv_New maxSize)

theorem Reachable.apply {V : Type} {mc : LruMemoryCache V} (h : Reachable mc) (op : Op V) :
    Reachable (Op.apply mc op) := by
  obtain ⟨maxSize, ops, rfl⟩ := h
  exact ⟨maxSize, ops ++ [op], by simp [runOps, List.foldl_append]⟩

end GoMemCache

namespace GoMemCache

namespace LruMemoryCacheWithTtl

variable {V : Type}

/-! ## The TTL cache acts on the shared fields like the plain cache -/

theorem toPlain_evictOldest (mc : LruMemoryCacheWithTtl V) :
    mc.evictOldest.toPlain = mc.toPlain.evictOldest := by
  unfold evictOldest LruMemoryCache.evictOldest
  simp only [toPlain]
  split <;> rfl

theorem toPlain_removeKey (mc : LruMemoryCacheWithTtl V) (key : String) :
    (mc.removeKey key).toPlain = mc.toPlain.removeKey key := by
  unfold removeKey LruMemoryCache.removeKey
  simp only [toPlain]
  split <;> rfl

theorem toPlain_Set (mc : LruMemoryCacheWithTtl V) (now : Int) (key : String) (value : V) :
    (mc.Set now key value).toPlain
      = mc.toPlain.Set key { Value := value, Expiration := mc.getExpirationTime now } := by
  unfold Set LruMemoryCache.Set
  simp only [toPlain]
  split
  · rfl
  · split
    · exact toPlain_evictOldest _
    · rfl

theorem toPlain_Delete (mc : LruMemoryCacheWithTtl V) (key : String) :
    (mc.Delete key).toPlain = mc.toPlain.Delete key := by
  have h2 : mc.toPlain.store = mc.store := rfl
  unfold Delete LruMemoryCache.Delete
  rw [h2]
  cases mapLoad mc.store key with
  | none => rfl
  | some e => exact toPlain_removeKey _ key

theorem Get_of_none {mc : LruMemoryCacheWithTtl V} {key : String}
    (h : mapLoad mc.store key = none) (now : Int) : mc.Get now key = (none, mc) := by
  unfold Get
  rw [h]

theorem Get_of_expired {mc : LruMemoryCacheWithTtl V} {key : String} {entry : CacheEntry V}
    (h : mapLoad mc.store key = some entry) {now : Int} (hx : expired entry now) :
    mc.Get now key = (none, mc.Delete key) := by
  unfold Get Delete
  rw [h]
  exact if_pos (show entry.Expiration > 0 ∧ now > entry.Expiration from hx)

theorem Get_of_live {mc : LruMemoryCacheWithTtl V} {key : String} {entry : CacheEntry V}
    (h : mapLoad mc.store key = some entry) {now : Int} (hx : ¬ expired entry now) :
    (mc.Get now key).1 = some entry.Value ∧
      (mc.Get now key).2.toPlain = (mc.toPlain.Get key).2 ∧
      (mc.Get now key).2.ttl = mc.ttl := by
  have h2 : mapLoad mc.toPlain.store key = some entry := h
  unfold Get LruMemoryCache.Get
  rw [h, h2]
  simp only
  rw [if_neg (show ¬ (entry.Expiration > 0 ∧ now > entry.Expiration) from hx)]
  have h3 : mc.toPlain.keyToElement = mc.keyToElement := rfl
  rw [h3]
  cases mapLoad mc.keyToElement key with
  | none => exact ⟨rfl, rfl, rfl⟩
  | some e => exact ⟨rfl, rfl, rfl⟩

theorem Inv_toPlain (mc : LruMemoryCacheWithTtl V) : mc.toPlain.Inv ↔ mc.Inv :=
  Iff.rfl

theorem Inv_NewTtl (maxSize ttl : Int) :
    (NewLruMemoryCacheWithTtl maxSize ttl : LruMemoryCacheWithTtl V).Inv :=
  Consistent.empty

theorem Inv_SetTtl {mc : LruMemoryCacheWithTtl V} (h : mc.Inv) (now : Int) (key : String)
    (value : V) : (mc.Set now key value).Inv := by
  have h2 : mc.toPlain.Inv := h
  rw [← Inv_toPlain, toPlain_Set]
  exact LruMemoryCache.Inv_Set h2 key _

theorem Inv_DeleteTtl {mc : LruMemoryCacheWithTtl V} (h : mc.Inv) (key : String) :
    (mc.Delete key).Inv := by
  have h2 : mc.toPlain.Inv := h
  rw [← Inv_toPlain, toPlain_Delete]
  exact LruMemoryCache.Inv_Delete h2 key

theorem Inv_GetTtl {mc : LruMemoryCacheWithTtl V} (h : mc.Inv) (now : Int) (key : String) :
    (mc.Get now key).2.Inv := by
  cases hs : mapLoad mc.store key with
  | none =>
    rw [Get_of_none hs]
    exact h
  | some entry =>
    by_cases hx : expired entry now
    · rw [Get_of_expired hs hx]
      exact Inv_DeleteTtl h key
    · have h2 : mc.toPlain.Inv := h
      rw [← Inv_toPlain, (Get_of_live hs hx).2.1]
      exact LruMemoryCache.Inv_Get h2 key

end LruMemoryCacheWithTtl

theorem Inv_applyTtl {V : Type} {mc : LruMemoryCacheWithTtl V} (h : mc.Inv) (op : TtlOp V) :
    (TtlOp.apply mc op).Inv := by
  cases op with
  | set now key value => exact LruMemoryCacheWithTtl.Inv_SetTtl h now key value
  | get now key => exact LruMemoryCacheWithTtl.Inv_GetTtl h now key
  | delete now key => exact LruMemoryCacheWithTtl.Inv_DeleteTtl h key

theorem Inv_runTtlOps {V : Type} (ops : List (TtlOp V)) {mc : LruMemoryCacheWithTtl V}
    (h : mc.Inv) : (runTtlOps mc ops).Inv := by
  induction ops generalizing mc with
  | nil => exact h
  | cons op rest ih => exact ih (Inv_applyTtl h op)

theorem TtlReachable.invTtl {V : Type} {mc : LruMemoryCacheWithTtl V} (h : TtlReachable mc) :
    mc.Inv := by
  obtain ⟨maxSize, ttl, ops, rfl⟩ := h
  exact Inv_runTtlOps ops (LruMemoryCacheWithTtl.Inv_NewTtl maxSize ttl)

end GoMemCache

namespace GoMemCache

namespace LruMemoryCache

variable {V : Type}

/-! ## What each call of the plain cache does to a consistent state -/

theorem Get_fst (mc : LruMemoryCache V) (key : String) :
    (mc.Get key).1 = mapLoad mc.store key := by
  unfold Get
  split
  · rename_i h
    rw [h]
  · rename_i value h
    rw [h]
    split <;> rfl

theorem Get_snd_fields (mc : LruMemoryCache V) (key : String) :
    (mc.Get key).2.store = mc.store ∧ (mc.Get key).2.keyToElement = mc.keyToElement ∧
      (mc.Get key).2.maxSize = mc.maxSize ∧ (mc.Get key).2.nextId = mc.nextId := by
  unfold Get
  split
  · exact ⟨rfl, rfl, rfl, rfl⟩
  · split <;> exact ⟨rfl, rfl, rfl, rfl⟩

theorem Get_snd_order {mc : LruMemoryCache V} (h : mc.Inv) {key : String} {value : V}
    (hk : mapLoad mc.store key = some value) :
    listKeys (mc.Get key).2.order = key :: keysWithout (listKeys mc.order) key ∧
      (mc.Get key).2.order.length = mc.order.length := by
  obtain ⟨e, hix, he, hv⟩ := h.index_of_stored hk
  unfold Get
  rw [hk]
  simp only
  rw [hix]
  simp only
  rw [listKeys_MoveToFront h.keysNodup he, hv]
  exact ⟨rfl, (MoveToFront_perm he).length_eq.symm⟩

theorem Get_snd_of_miss {mc : LruMemoryCache V} {key : String}
    (hk : mapLoad mc.store key = none) : (mc.Get key).2 = mc := by
  unfold Get
  rw [hk]

theorem Set_of_present {mc : LruMemoryCache V} (h : mc.Inv) {key : String} {old : V}
    (hk : mapLoad mc.store key = some old) (value : V) :
    (mc.Set key value).store = mapStore mc.store key value ∧
      (mc.Set key value).keyToElement = mc.keyToElement ∧
      (mc.Set key value).maxSize = mc.maxSize ∧
      listKeys (mc.Set key value).order = key :: keysWithout (listKeys mc.order) key ∧
      (mc.Set key value).order.length = mc.order.length := by
  obtain ⟨e, hix, he, hv⟩ := h.index_of_stored hk
  unfold Set
  rw [hix]
  simp only
  rw [listKeys_MoveToFront h.keysNodup he, hv]
  exact ⟨by trivial, by trivial, by trivial, by trivial, (MoveToFront_perm he).length_eq.symm⟩

theorem Set_of_absent_room {mc : LruMemoryCache V} (h : mc.Inv) {key : String}
    (hk : mapLoad mc.store key = none) (value : V)
    (hroom : ¬ (mc.maxSize > 0 ∧ (mc.order.length : Int) + 1 > mc.maxSize)) :
    (mc.Set key value).store = mapStore mc.store key value ∧
      (mc.Set key value).keyToElement
        = mapStore mc.keyToElement key { id := mc.nextId, Value := key } ∧
      (mc.Set key value).maxSize = mc.maxSize ∧
      listKeys (mc.Set key value).order = key :: listKeys mc.order := by
  have hix := h.index_none_of_not_stored hk
  unfold Set
  rw [hix]
  simp only [PushFront, List.length_cons, Nat.cast_add, Nat.cast_one]
  rw [if_neg hroom]
  exact ⟨rfl, rfl, rfl, rfl⟩

theorem Set_of_absent_full {mc : LruMemoryCache V} (h : mc.Inv) {key : String}
    (hk : mapLoad mc.store key = none) (value : V)
    (hfull : mc.maxSize > 0 ∧ (mc.order.length : Int) + 1 > mc.maxSize) :
    ∃ oldest, Back mc.order = some oldest ∧ oldest.Value ≠ key ∧
      (mc.Set key value).store = mapDelete (mapStore mc.store key value) oldest.Value ∧
      (mc.Set key value).keyToElement
        = mapDelete (mapStore mc.keyToElement key { id := mc.nextId, Value := key })
            oldest.Value ∧
      (mc.Set key value).maxSize = mc.maxSize ∧
      listKeys (mc.Set key value).order = key :: (listKeys mc.order).dropLast := by
  have hix := h.index_none_of_not_stored hk
  have hne : mc.order ≠ [] := by
    intro h0
    rw [h0] at hfull
    simp at hfull
    omega
  obtain ⟨oldest, hold⟩ : ∃ oldest, mc.order.getLast? = some oldest := by
    cases hl : mc.order.getLast? with
    | none => exact absurd (List.getLast?_eq_none_iff.mp hl) hne
    | some e => exact ⟨e, rfl⟩
  have hmem : oldest ∈ mc.order := List.mem_of_getLast?_eq_some hold
  have hval : oldest.Value ≠ key := fun h2 =>
    Consistent.not_mem_of_index_none h hix (h2 ▸ value_mem_listKeys hmem)
  have hneq : ({ id := mc.nextId, Value := key } : Element) ≠ oldest := fun h2 =>
    hval (h2 ▸ rfl)
  have hback : Back (PushFront mc.order { id := mc.nextId, Value := key }) = some oldest := by
    obtain ⟨ys, hys⟩ := List.getLast?_eq_some_iff.mp hold
    exact List.getLast?_eq_some_iff.mpr ⟨{ id := mc.nextId, Value := key } :: ys, by
      simp [PushFront, hys]⟩
  refine ⟨oldest, hold, hval, ?_⟩
  unfold Set
  rw [hix]
  simp only
  have hcond : mc.maxSize > 0 ∧
      ((PushFront mc.order { id := mc.nextId, Value := key }).length : Int) > mc.maxSize := by
    simpa [PushFront] using hfull
  rw [if_pos hcond]
  unfold evictOldest
  simp only
  rw [hback]
  simp only
  refine ⟨by trivial, by trivial, by trivial, ?_⟩
  have hbeq : (({ id := mc.nextId, Value := key } : Element) == oldest) = false := by
    simpa using hneq
  rw [Remove, PushFront, List.erase_cons, hbeq]
  simp only [Bool.false_eq_true, if_false]
  rw [erase_getLast (order_nodup h.keysNodup) hold]
  simp [listKeys, List.map_dropLast]

theorem Delete_of_present {mc : LruMemoryCache V} (h : mc.Inv) {key : String} {old : V}
    (hk : mapLoad mc.store key = some old) :
    (mc.Delete key).store = mapDelete mc.store key ∧
      (mc.Delete key).keyToElement = mapDelete mc.keyToElement key ∧
      (mc.Delete key).maxSize = mc.maxSize ∧
      listKeys (mc.Delete key).order = keysWithout (listKeys mc.order) key := by
  obtain ⟨e, hix, he, hv⟩ := h.index_of_stored hk
  unfold Delete
  rw [hk]
  simp only
  unfold removeKey
  simp only
  rw [hix]
  simp only
  rw [Remove, listKeys_erase h.keysNodup he, hv]
  exact ⟨by trivial, by trivial, by trivial, by trivial⟩

theorem Delete_of_absent {mc : LruMemoryCache V} {key : String}
    (hk : mapLoad mc.store key = none) : mc.Delete key = mc := by
  unfold Delete
  rw [hk]

theorem Delete_store (mc : LruMemoryCache V) (key : String) :
    (mc.Delete key).store = mapDelete mc.store key := by
  unfold Delete
  split
  · unfold removeKey
    simp only
    split <;> rfl
  · rename_i hk
    exact (mapDelete_eq_self _ _ hk).symm

theorem Delete_idem (mc : LruMemoryCache V) (key : String) :
    (mc.Delete key).Delete key = mc.Delete key := by
  apply Delete_of_absent
  rw [Delete_store]
  exact mapLoad_mapDelete_self _ _

end LruMemoryCache

end GoMemCache

namespace GoMemCache

/-! ## The capacity bound -/

theorem length_MoveToFront (o : List Element) (e : Element) :
    (MoveToFront o e).length = o.length := by
  by_cases he : e ∈ o
  · exact (MoveToFront_perm he).length_eq.symm
  · simp [MoveToFront, he]

theorem length_Remove_le (o : List Element) (e : Element) : (Remove o e).length ≤ o.length :=
  (List.erase_sublist e o).length_le

namespace LruMemoryCache

variable {V : Type}

theorem evictOldest_length (mc : LruMemoryCache V) :
    mc.evictOldest.order.length = mc.order.length - 1 ∧
      mc.evictOldest.maxSize = mc.maxSize := by
  unfold evictOldest
  split
  · rename_i oldest hb
    have he : oldest ∈ mc.order := List.mem_of_getLast?_eq_some hb
    exact ⟨by simp [Remove, List.length_erase_of_mem he], rfl⟩
  · rename_i hb
    have h0 : mc.order = [] := List.getLast?_eq_none_iff.mp hb
    exact ⟨by simp [h0], rfl⟩

theorem removeKey_length (mc : LruMemoryCache V) (key : String) :
    (mc.removeKey key).order.length ≤ mc.order.length ∧
      (mc.removeKey key).maxSize = mc.maxSize := by
  unfold removeKey
  split
  · exact ⟨length_Remove_le _ _, rfl⟩
  · exact ⟨le_refl _, rfl⟩

theorem Bounded_Set {mc : LruMemoryCache V} (h : mc.Bounded) (key : String) (value : V) :
    (mc.Set key value).Bounded := by
  unfold Set
  split
  · intro hmax
    have := h hmax
    simpa [length_MoveToFront] using this
  · simp only
    split
    · rename_i hc
      intro hmax
      have h1 := evictOldest_length
        ({ mc with
            store := mapStore mc.store key value
            order := PushFront mc.order { id := mc.nextId, Value := key }
            keyToElement := mapStore mc.keyToElement key { id := mc.nextId, Value := key }
            nextId := mc.nextId + 1 } : LruMemoryCache V)
      rw [h1.2] at hmax
      have h2 := h hmax
      rw [h1.1, h1.2]
      simp only [PushFront, List.length_cons, Nat.add_sub_cancel]
      exact h2
    · rename_i hc
      intro hmax
      have hmax2 : 0 < mc.maxSize := hmax
      have h2 : ¬ ((mc.order.length : Int) + 1 > mc.maxSize) := by
        intro h3
        apply hc
        exact ⟨hmax2, by simpa [PushFront] using h3⟩
      show ((PushFront mc.order { id := mc.nextId, Value := key }).length : Int) ≤ mc.maxSize
      simp only [PushFront, List.length_cons, Nat.cast_add, Nat.cast_one]
      omega

theorem Bounded_Get {mc : LruMemoryCache V} (h : mc.Bounded) (key : String) :
    (mc.Get key).2.Bounded := by
  unfold Get
  split
  · exact h
  · split
    · intro hmax
      have := h hmax
      simpa [length_MoveToFront] using this
    · exact h

theorem Bounded_Delete {mc : LruMemoryCache V} (h : mc.Bounded) (key : String) :
    (mc.Delete key).Bounded := by
  unfold Delete
  split
  · intro hmax
    have h1 := removeKey_length ({ mc with store := mapDelete mc.store key }) key
    rw [h1.2] at hmax ⊢
    have h2 := h hmax
    have h3 : ((removeKey { mc with store := mapDelete mc.store key } key).order.length : Int)
        ≤ (mc.order.length : Int) := by exact_mod_cast h1.1
    exact le_trans h3 h2
  · exact h

theorem Inv.length_store {mc : LruMemoryCache V} (h : mc.Inv) :
    mc.store.length = mc.order.length := by
  have hp : (mapKeys mc.store).Perm (listKeys mc.order) :=
    (List.perm_ext_iff_of_nodup h.storeNodup h.keysNodup).mpr h.stored
  simpa [mapKeys, listKeys] using hp.length_eq

end LruMemoryCache

theorem Bounded_runOps {V : Type} (ops : List (Op V)) {mc : LruMemoryCache V}
    (h : mc.Bounded) : (runOps mc ops).Bounded := by
  induction ops generalizing mc with
  | nil => exact h
  | cons op rest ih =>
    apply ih
    cases op with
    | set key value => exact LruMemoryCache.Bounded_Set h key value
    | get key => exact LruMemoryCache.Bounded_Get h key
    | delete key => exact LruMemoryCache.Bounded_Delete h key

theorem maxSize_runOps {V : Type} (ops : List (Op V)) (mc : LruMemoryCache V) :
    (runOps mc ops).maxSize = mc.maxSize := by
  induction ops generalizing mc with
  | nil => rfl
  | cons op rest ih =>
    show (runOps (Op.apply mc op) rest).maxSize = mc.maxSize
    rw [ih]
    cases op with
    | set key value =>
      show (mc.Set key value).maxSize = mc.maxSize
      unfold LruMemoryCache.Set
      split
      · rfl
      · simp only
        split
        · exact (LruMemoryCache.evictOldest_length _).2
        · rfl
    | get key => exact (LruMemoryCache.Get_snd_fields mc key).2.2.1
    | delete key =>
      show (mc.Delete key).maxSize = mc.maxSize
      unfold LruMemoryCache.Delete
      split
      · exact (LruMemoryCache.removeKey_length _ key).2
      · rfl

theorem Bounded_applyTtl {V : Type} {mc : LruMemoryCacheWithTtl V} (h : mc.toPlain.Bounded)
    (op : TtlOp V) : (TtlOp.apply mc op).toPlain.Bounded := by
  cases op with
  | set now key value =>
    show (mc.Set now key value).toPlain.Bounded
    rw [LruMemoryCacheWithTtl.toPlain_Set]
    exact LruMemoryCache.Bounded_Set h key _
  | delete now key =>
    show (mc.Delete key).toPlain.Bounded
    rw [LruMemoryCacheWithTtl.toPlain_Delete]
    exact LruMemoryCache.Bounded_Delete h key
  | get now key =>
    show (mc.Get now key).2.toPlain.Bounded
    cases hs : mapLoad mc.store key with
    | none =>
      rw [LruMemoryCacheWithTtl.Get_of_none hs]
      exact h
    | some entry =>
      by_cases hx : LruMemoryCacheWithTtl.expired entry now
      · rw [LruMemoryCacheWithTtl.Get_of_expired hs hx, LruMemoryCacheWithTtl.toPlain_Delete]
        exact LruMemoryCache.Bounded_Delete h key
      · rw [(LruMemoryCacheWithTtl.Get_of_live hs hx).2.1]
        exact LruMemoryCache.Bounded_Get h key

theorem Bounded_runTtlOps {V : Type} (ops : List (TtlOp V)) {mc : LruMemoryCacheWithTtl V}
    (h : mc.toPlain.Bounded) : (runTtlOps mc ops).toPlain.Bounded := by
  induction ops generalizing mc with
  | nil => exact h
  | cons op rest ih => exact ih (Bounded_applyTtl h op)

theorem maxSize_applyTtl {V : Type} (mc : LruMemoryCacheWithTtl V) (op : TtlOp V) :
    (TtlOp.apply mc op).maxSize = mc.maxSize ∧ (TtlOp.apply mc op).ttl = mc.ttl := by
  cases op with
  | set now key value =>
    show (mc.Set now key value).maxSize = mc.maxSize ∧ (mc.Set now key value).ttl = mc.ttl
    unfold LruMemoryCacheWithTtl.Set
    split
    · exact ⟨rfl, rfl⟩
    · simp only
      split
      · unfold LruMemoryCacheWithTtl.evictOldest
        split <;> exact ⟨rfl, rfl⟩
      · exact ⟨rfl, rfl⟩
  | delete now key =>
    show (mc.Delete key).maxSize = mc.maxSize ∧ (mc.Delete key).ttl = mc.ttl
    unfold LruMemoryCacheWithTtl.Delete
    split
    · unfold LruMemoryCacheWithTtl.removeKey
      split <;> exact ⟨rfl, rfl⟩
    · exact ⟨rfl, rfl⟩
  | get now key =>
    show (mc.Get now key).2.maxSize = mc.maxSize ∧ (mc.Get now key).2.ttl = mc.ttl
    unfold LruMemoryCacheWithTtl.Get
    split
    · exact ⟨rfl, rfl⟩
    · split
      · unfold LruMemoryCacheWithTtl.removeKey
        split <;> exact ⟨rfl, rfl⟩
      · split <;> exact ⟨rfl, rfl⟩

theorem maxSize_runTtlOps {V : Type} (ops : List (TtlOp V)) (mc : LruMemoryCacheWithTtl V) :
    (runTtlOps mc ops).maxSize = mc.maxSize ∧ (runTtlOps mc ops).ttl = mc.ttl := by
  induction ops generalizing mc with
  | nil => exact ⟨rfl, rfl⟩
  | cons op rest ih =>
    show (runTtlOps (TtlOp.apply mc op) rest).maxSize = mc.maxSize ∧
      (runTtlOps (TtlOp.apply mc op) rest).ttl = mc.ttl
    rw [(ih _).1, (ih _).2]
    exact maxSize_applyTtl mc op

end GoMemCache

namespace GoMemCache

/-! ## Set of a new key on a full cache -/

theorem LruMemoryCache.Set_full_evicts {V : Type} {mc : LruMemoryCache V} (h : mc.Inv)
    (hmax : 0 < mc.maxSize) (hlen : (mc.order.length : Int) = mc.maxSize) {k : String}
    (hk : mapLoad mc.store k = none) (v : V) :
    ∃ lru, (listKeys mc.order).getLast? = some lru ∧ lru ≠ k ∧
      listKeys (mc.Set k v).order = k :: (listKeys mc.order).dropLast ∧
      mapLoad (mc.Set k v).store lru = none ∧
      mapLoad (mc.Set k v).keyToElement lru = none ∧
      lru ∉ listKeys (mc.Set k v).order ∧
      mapLoad (mc.Set k v).store k = some v ∧
      (∀ j, j ≠ lru → j ≠ k →
        mapLoad (mc.Set k v).store j = mapLoad mc.store j ∧
        mapLoad (mc.Set k v).keyToElement j = mapLoad mc.keyToElement j) := by
  obtain ⟨oldest, hback, hval, hst, hix, -, hkeys⟩ :=
    LruMemoryCache.Set_of_absent_full h hk v ⟨hmax, by omega⟩
  have hlast : (listKeys mc.order).getLast? = some oldest.Value := listKeys_getLast hback
  refine ⟨oldest.Value, hlast, hval, hkeys, ?_, ?_, ?_, ?_, ?_⟩
  · rw [hst]
    exact mapLoad_mapDelete_self _ _
  · rw [hix]
    exact mapLoad_mapDelete_self _ _
  · rw [hkeys]
    have hsplit := List.dropLast_append_getLast? oldest.Value hlast
    have hn := h.keysNodup
    rw [← hsplit] at hn
    have hdis := (List.nodup_append.mp hn).2.2
    intro hm
    rcases List.mem_cons.mp hm with h1 | h1
    · exact hval h1
    · exact hdis h1 (List.mem_singleton_self _)
  · rw [hst, mapLoad_mapDelete_ne _ (Ne.symm hval)]
    exact mapLoad_mapStore_self _ _ _
  · intro j hj1 hj2
    rw [hst, hix, mapLoad_mapDelete_ne _ hj1, mapLoad_mapDelete_ne _ hj1,
      mapLoad_mapStore_ne _ _ hj2, mapLoad_mapStore_ne _ _ hj2]
    exact ⟨rfl, rfl⟩

/-- C1: on a reachable state whose recency list holds exactly `maxSize > 0` keys, `Set k v`
of a key `k` that is not stored removes the back-most key `lru` of the list, and only that
key, from the value store, the key index and the list; `k` becomes the front with value `v`
(for the TTL cache, with the entry built at time `now`), and all other keys keep their
stored value, their index entry and their order. -/
theorem set_new_key_on_full_cache_evicts_lru {V : Type} (k : String) (v : V) :
    (∀ mc : LruMemoryCache V, Reachable mc → 0 < mc.maxSize →
      (mc.order.length : Int) = mc.maxSize → mapLoad mc.store k = none →
      ∃ lru, (listKeys mc.order).getLast? = some lru ∧ lru ≠ k ∧
        listKeys (mc.Set k v).order = k :: (listKeys mc.order).dropLast ∧
        mapLoad (mc.Set k v).store lru = none ∧
        mapLoad (mc.Set k v).keyToElement lru = none ∧
        lru ∉ listKeys (mc.Set k v).order ∧
        mapLoad (mc.Set k v).store k = some v ∧
        (∀ j, j ≠ lru → j ≠ k →
          mapLoad (mc.Set k v).store j = mapLoad mc.store j ∧
          mapLoad (mc.Set k v).keyToElement j = mapLoad mc.keyToElement j)) ∧
    (∀ (mc : LruMemoryCacheWithTtl V) (now : Int), TtlReachable mc → 0 < mc.maxSize →
      (mc.order.length : Int) = mc.maxSize → mapLoad mc.store k = none →
      ∃ lru, (listKeys mc.order).getLast? = some lru ∧ lru ≠ k ∧
        listKeys (mc.Set now k v).order = k :: (listKeys mc.order).dropLast ∧
        mapLoad (mc.Set now k v).store lru = none ∧
        mapLoad (mc.Set now k v).keyToElement lru = none ∧
        lru ∉ listKeys (mc.Set now k v).order ∧
        mapLoad (mc.Set now k v).store k
          = some { Value := v, Expiration := mc.getExpirationTime now } ∧
        (∀ j, j ≠ lru → j ≠ k →
          mapLoad (mc.Set now k v).store j = mapLoad mc.store j ∧
          mapLoad (mc.Set now k v).keyToElement j = mapLoad mc.keyToElement j)) := by
  constructor
  · intro mc hr hmax hlen hk
    exact LruMemoryCache.Set_full_evicts hr.inv hmax hlen hk v
  · intro mc now hr hmax hlen hk
    have hinv : mc.toPlain.Inv := hr.invTtl
    have h := LruMemoryCache.Set_full_evicts hinv hmax hlen hk
      ({ Value := v, Expiration := mc.getExpirationTime now } : CacheEntry V)
    rw [← LruMemoryCacheWithTtl.toPlain_Set] at h
    exact h

/-- C1 at a full plain cache of size 2 holding `a`, `b` and a full TTL cache holding the
same keys: `Set` of `c` evicts `a`. -/
theorem set_new_key_on_full_cache_evicts_lru_witness :
    (∃ lru, (listKeys (fullPlain.order)).getLast? = some lru ∧ lru ≠ "c" ∧
        listKeys (fullPlain.Set "c" 3).order = "c" :: (listKeys fullPlain.order).dropLast ∧
        mapLoad (fullPlain.Set "c" 3).store lru = none ∧
        mapLoad (fullPlain.Set "c" 3).keyToElement lru = none ∧
        lru ∉ listKeys (fullPlain.Set "c" 3).order ∧
        mapLoad (fullPlain.Set "c" 3).store "c" = some 3 ∧
        (∀ j, j ≠ lru → j ≠ "c" →
          mapLoad (fullPlain.Set "c" 3).store j = mapLoad fullPlain.store j ∧
          mapLoad (fullPlain.Set "c" 3).keyToElement j = mapLoad fullPlain.keyToElement j)) ∧
    (∃ lru, (listKeys (fullTtl.order)).getLast? = some lru ∧ lru ≠ "c" ∧
        listKeys (fullTtl.Set 7 "c" 3).order = "c" :: (listKeys fullTtl.order).dropLast ∧
        mapLoad (fullTtl.Set 7 "c" 3).store lru = none ∧
        mapLoad (fullTtl.Set 7 "c" 3).keyToElement lru = none ∧
        lru ∉ listKeys (fullTtl.Set 7 "c" 3).order ∧
        mapLoad (fullTtl.Set 7 "c" 3).store "c"
          = some { Value := 3, Expiration := fullTtl.getExpirationTime 7 } ∧
        (∀ j, j ≠ lru → j ≠ "c" →
          mapLoad (fullTtl.Set 7 "c" 3).store j = mapLoad fullTtl.store j ∧
          mapLoad (fullTtl.Set 7 "c" 3).keyToElement j = mapLoad fullTtl.keyToElement j)) :=
  ⟨(set_new_key_on_full_cache_evicts_lru "c" 3).1 fullPlain ⟨2, _, rfl⟩ (by decide)
      (by decide) (by decide),
    (set_new_key_on_full_cache_evicts_lru "c" 3).2 fullTtl 7 ⟨2, 10, _, rfl⟩ (by decide)
      (by decide) (by decide)⟩

end GoMemCache

namespace GoMemCache

/-- C2: with `maxSize > 0`, after any sequence of `Set`, `Get` and `Delete` calls on a new
cache (at any clock readings for the TTL cache), the recency list has at most `maxSize`
elements, and the value store holds as many keys as the list. -/
theorem list_length_le_maxSize {V : Type} (maxSize : Int) (hmax : 0 < maxSize) :
    (∀ ops : List (Op V),
      ((runOps (NewLruMemoryCache maxSize) ops).order.length : Int) ≤ maxSize ∧
      (runOps (NewLruMemoryCache maxSize) ops).store.length
        = (runOps (NewLruMemoryCache maxSize) ops).order.length) ∧
    (∀ (ttl : Int) (ops : List (TtlOp V)),
      ((runTtlOps (NewLruMemoryCacheWithTtl maxSize ttl) ops).order.length : Int) ≤ maxSize ∧
      (runTtlOps (NewLruMemoryCacheWithTtl maxSize ttl) ops).store.length
        = (runTtlOps (NewLruMemoryCacheWithTtl maxSize ttl) ops).order.length) := by
  constructor
  · intro ops
    have hb : (NewLruMemoryCache maxSize : LruMemoryCache V).Bounded := by
      intro _
      simpa [NewLruMemoryCache] using hmax.le
    have h1 := Bounded_runOps ops hb
    have h2 := maxSize_runOps ops (NewLruMemoryCache maxSize : LruMemoryCache V)
    have h3 : (runOps (NewLruMemoryCache maxSize : LruMemoryCache V) ops).maxSize = maxSize := h2
    refine ⟨?_, ?_⟩
    · have := h1 (by rw [h3]; exact hmax)
      rw [h3] at this
      exact this
    · exact (Inv_runOps ops (LruMemoryCache.Inv_New maxSize)).length_store
  · intro ttl ops
    have hb : (NewLruMemoryCacheWithTtl maxSize ttl : LruMemoryCacheWithTtl V).toPlain.Bounded := by
      intro _
      simpa [NewLruMemoryCacheWithTtl, LruMemoryCacheWithTtl.toPlain] using hmax.le
    have h1 := Bounded_runTtlOps ops hb
    have h2 := (maxSize_runTtlOps ops
      (NewLruMemoryCacheWithTtl maxSize ttl : LruMemoryCacheWithTtl V)).1
    have h3 : (runTtlOps (NewLruMemoryCacheWithTtl maxSize ttl : LruMemoryCacheWithTtl V)
        ops).toPlain.maxSize = maxSize := h2
    refine ⟨?_, ?_⟩
    · have := h1 (by rw [h3]; exact hmax)
      rw [h3] at this
      exact this
    · have hinv : (runTtlOps (NewLruMemoryCacheWithTtl maxSize ttl : LruMemoryCacheWithTtl V)
          ops).toPlain.Inv := Inv_runTtlOps ops (LruMemoryCacheWithTtl.Inv_NewTtl maxSize ttl)
      exact hinv.length_store

/-- C2 at capacity 2: five calls on the plain cache and five on the TTL cache. -/
theorem list_length_le_maxSize_witness :
    (0 : Int) < 2 ∧
    (((runOps (NewLruMemoryCache 2) [Op.set "a" 1, Op.set "b" 2, Op.get "a", Op.set "c" 3,
        Op.delete "b"]).order.length : Int) ≤ 2 ∧
      (runOps (NewLruMemoryCache 2) [Op.set "a" 1, Op.set "b" 2, Op.get "a", Op.set "c" 3,
        Op.delete "b"]).store.length
        = (runOps (NewLruMemoryCache 2) [Op.set "a" 1, Op.set "b" 2, Op.get "a", Op.set "c" 3,
        Op.delete "b"]).order.length) ∧
    (((runTtlOps (NewLruMemoryCacheWithTtl 2 10) [TtlOp.set 0 "a" 1, TtlOp.set 1 "b" 2,
        TtlOp.get 20 "a", TtlOp.set 21 "c" 3, TtlOp.set 22 "d" 4]).order.length : Int) ≤ 2 ∧
      (runTtlOps (NewLruMemoryCacheWithTtl 2 10) [TtlOp.set 0 "a" 1, TtlOp.set 1 "b" 2,
        TtlOp.get 20 "a", TtlOp.set 21 "c" 3, TtlOp.set 22 "d" 4]).store.length
        = (runTtlOps (NewLruMemoryCacheWithTtl 2 10) [TtlOp.set 0 "a" 1, TtlOp.set 1 "b" 2,
        TtlOp.get 20 "a", TtlOp.set 21 "c" 3, TtlOp.set 22 "d" 4]).order.length) :=
  ⟨by decide,
    (list_length_le_maxSize 2 (by decide)).1 [Op.set "a" 1, Op.set "b" 2, Op.get "a",
      Op.set "c" 3, Op.delete "b"],
    (list_length_le_maxSize 2 (by decide)).2 10 [TtlOp.set 0 "a" 1, TtlOp.set 1 "b" 2,
      TtlOp.get 20 "a", TtlOp.set 21 "c" 3, TtlOp.set 22 "d" 4]⟩

end GoMemCache

namespace GoMemCache

/-! ## Reads after writes -/

theorem LruMemoryCache.Set_store_self {V : Type} {mc : LruMemoryCache V} (h : mc.Inv)
    (k : String) (v : V) : mapLoad (mc.Set k v).store k = some v := by
  cases hk : mapLoad mc.store k with
  | some old =>
    rw [(LruMemoryCache.Set_of_present h hk v).1]
    exact mapLoad_mapStore_self _ _ _
  | none =>
    by_cases hfull : mc.maxSize > 0 ∧ (mc.order.length : Int) + 1 > mc.maxSize
    · obtain ⟨oldest, -, hval, hst, -⟩ := LruMemoryCache.Set_of_absent_full h hk v hfull
      rw [hst, mapLoad_mapDelete_ne _ (Ne.symm hval)]
      exact mapLoad_mapStore_self _ _ _
    · rw [(LruMemoryCache.Set_of_absent_room h hk v hfull).1]
      exact mapLoad_mapStore_self _ _ _

/-- C3: on every reachable state of the plain cache, whatever `maxSize` is, `Get k` right
after `Set k v` returns `(v, true)`: when `k` was absent, when its insertion evicts the
oldest key, and when `k` was present with another value. -/
theorem get_after_set_returns_value {V : Type} (mc : LruMemoryCache V) (k : String) (v : V)
    (hr : Reachable mc) : ((mc.Set k v).Get k).1 = some v := by
  rw [LruMemoryCache.Get_fst]
  exact LruMemoryCache.Set_store_self hr.inv k v

/-- C3 at a full cache: the new key `c` is read back although its `Set` evicts `a`. -/
theorem get_after_set_returns_value_witness :
    ((fullPlain.Set "c" 3).Get "c").1 = some 3 :=
  get_after_set_returns_value fullPlain "c" 3 ⟨2, _, rfl⟩

end GoMemCache

namespace GoMemCache

/-! ## A hit moves the key to the front -/

theorem LruMemoryCache.Get_hit_then_Set {V : Type} {mc : LruMemoryCache V} (h : mc.Inv)
    {k : String} {v : V} (hk : mapLoad mc.store k = some v) (k2 : String) (v2 : V)
    (hmax : 0 < mc.maxSize) (hlen : (mc.order.length : Int) = mc.maxSize)
    (hk2 : mapLoad mc.store k2 = none) :
    ∃ lru, (k :: keysWithout (listKeys mc.order) k).getLast? = some lru ∧ lru ≠ k2 ∧
      listKeys ((mc.Get k).2.Set k2 v2).order
        = k2 :: (k :: keysWithout (listKeys mc.order) k).dropLast ∧
      mapLoad ((mc.Get k).2.Set k2 v2).store lru = none ∧
      (∀ j, j ≠ lru → j ≠ k2 →
        mapLoad ((mc.Get k).2.Set k2 v2).store j = mapLoad mc.store j) := by
  have hf := LruMemoryCache.Get_snd_fields mc k
  have ho := LruMemoryCache.Get_snd_order h hk
  have hinv := LruMemoryCache.Inv_Get h k
  have hmax2 : 0 < (mc.Get k).2.maxSize := by rw [hf.2.2.1]; exact hmax
  have hlen2 : ((mc.Get k).2.order.length : Int) = (mc.Get k).2.maxSize := by
    rw [hf.2.2.1, ho.2]
    exact hlen
  have hk3 : mapLoad (mc.Get k).2.store k2 = none := by rw [hf.1]; exact hk2
  obtain ⟨lru, h1, h2, h3, h4, -, -, -, h8⟩ :=
    LruMemoryCache.Set_full_evicts hinv hmax2 hlen2 hk3 v2
  rw [ho.1] at h1 h3
  refine ⟨lru, h1, h2, h3, h4, ?_⟩
  intro j hj1 hj2
  rw [(h8 j hj1 hj2).1, hf.1]

theorem LruMemoryCacheWithTtl.Get_hit {V : Type} {mc : LruMemoryCacheWithTtl V} {now : Int}
    {k : String} {v : V} (h : (mc.Get now k).1 = some v) :
    ∃ entry, mapLoad mc.store k = some entry ∧ ¬ LruMemoryCacheWithTtl.expired entry now ∧
      entry.Value = v := by
  cases hs : mapLoad mc.store k with
  | none =>
    rw [LruMemoryCacheWithTtl.Get_of_none hs] at h
    exact Option.noConfusion h
  | some entry =>
    by_cases hx : LruMemoryCacheWithTtl.expired entry now
    · rw [LruMemoryCacheWithTtl.Get_of_expired hs hx] at h
      exact Option.noConfusion h
    · have h2 := (LruMemoryCacheWithTtl.Get_of_live hs hx).1
      rw [h2] at h
      exact ⟨entry, rfl, hx, Option.some.inj h⟩

theorem LruMemoryCacheWithTtl.Get_hit_spec {V : Type} {mc : LruMemoryCacheWithTtl V}
    (hinv : mc.Inv) {now : Int} {k : String} {v : V} (h : (mc.Get now k).1 = some v) :
    listKeys (mc.Get now k).2.order = k :: keysWithout (listKeys mc.order) k ∧
      (mc.Get now k).2.store = mc.store ∧
      (mc.Get now k).2.keyToElement = mc.keyToElement ∧
      (∀ (now2 : Int) (k2 : String) (v2 : V), 0 < mc.maxSize →
        (mc.order.length : Int) = mc.maxSize → mapLoad mc.store k2 = none →
        ∃ lru, (k :: keysWithout (listKeys mc.order) k).getLast? = some lru ∧ lru ≠ k2 ∧
          listKeys ((mc.Get now k).2.Set now2 k2 v2).order
            = k2 :: (k :: keysWithout (listKeys mc.order) k).dropLast ∧
          mapLoad ((mc.Get now k).2.Set now2 k2 v2).store lru = none ∧
          (∀ j, j ≠ lru → j ≠ k2 →
            mapLoad ((mc.Get now k).2.Set now2 k2 v2).store j = mapLoad mc.store j)) := by
  obtain ⟨entry, hs, hx, -⟩ := LruMemoryCacheWithTtl.Get_hit h
  have hp : (mc.Get now k).2.toPlain = (mc.toPlain.Get k).2 :=
    (LruMemoryCacheWithTtl.Get_of_live hs hx).2.1
  have hinv2 : mc.toPlain.Inv := hinv
  have hs2 : mapLoad mc.toPlain.store k = some entry := hs
  have hf := LruMemoryCache.Get_snd_fields mc.toPlain k
  rw [← hp] at hf
  have ho := (LruMemoryCache.Get_snd_order hinv2 hs2).1
  rw [← hp] at ho
  refine ⟨ho, hf.1, hf.2.1, ?_⟩
  intro now2 k2 v2 hmax hlen hk2
  have h3 := LruMemoryCache.Get_hit_then_Set hinv2 hs2 k2
    ({ Value := v2, Expiration := (mc.Get now k).2.getExpirationTime now2 } : CacheEntry V)
    hmax hlen hk2
  rw [← hp, ← LruMemoryCacheWithTtl.toPlain_Set] at h3
  exact h3

/-- C4: a `Get k` that hits on a reachable state moves `k` to the front of the recency
list, keeps the order of all other keys, and changes neither the value store nor the key
index; so on a full cache the next `Set` of a new key evicts the last key of the list as
it is after the access.  With `maxSize` 2, `Set k1`, `Set k2`, `Get k1`, `Set k3` evicts
`k2` and keeps `k1` (for the TTL cache, when the `Get k1` hits). -/
theorem get_hit_moves_key_to_front {V : Type} (k : String) (v : V) :
    (∀ mc : LruMemoryCache V, Reachable mc → (mc.Get k).1 = some v →
      listKeys (mc.Get k).2.order = k :: keysWithout (listKeys mc.order) k ∧
      (mc.Get k).2.store = mc.store ∧
      (mc.Get k).2.keyToElement = mc.keyToElement ∧
      (∀ (k2 : String) (v2 : V), 0 < mc.maxSize → (mc.order.length : Int) = mc.maxSize →
        mapLoad mc.store k2 = none →
        ∃ lru, (k :: keysWithout (listKeys mc.order) k).getLast? = some lru ∧ lru ≠ k2 ∧
          listKeys ((mc.Get k).2.Set k2 v2).order
            = k2 :: (k :: keysWithout (listKeys mc.order) k).dropLast ∧
          mapLoad ((mc.Get k).2.Set k2 v2).store lru = none ∧
          (∀ j, j ≠ lru → j ≠ k2 →
            mapLoad ((mc.Get k).2.Set k2 v2).store j = mapLoad mc.store j))) ∧
    (∀ (mc : LruMemoryCacheWithTtl V) (now : Int), TtlReachable mc →
      (mc.Get now k).1 = some v →
      listKeys (mc.Get now k).2.order = k :: keysWithout (listKeys mc.order) k ∧
      (mc.Get now k).2.store = mc.store ∧
      (mc.Get now k).2.keyToElement = mc.keyToElement ∧
      (∀ (now2 : Int) (k2 : String) (v2 : V), 0 < mc.maxSize →
        (mc.order.length : Int) = mc.maxSize → mapLoad mc.store k2 = none →
        ∃ lru, (k :: keysWithout (listKeys mc.order) k).getLast? = some lru ∧ lru ≠ k2 ∧
          listKeys ((mc.Get now k).2.Set now2 k2 v2).order
            = k2 :: (k :: keysWithout (listKeys mc.order) k).dropLast ∧
          mapLoad ((mc.Get now k).2.Set now2 k2 v2).store lru = none ∧
          (∀ j, j ≠ lru → j ≠ k2 →
            mapLoad ((mc.Get now k).2.Set now2 k2 v2).store j = mapLoad mc.store j))) ∧
    (∀ (k2 k3 : String) (v2 v3 : V), k ≠ k2 → k ≠ k3 → k2 ≠ k3 →
      listKeys (runOps (NewLruMemoryCache 2)
        [Op.set k v, Op.set k2 v2, Op.get k, Op.set k3 v3]).order = [k3, k] ∧
      mapLoad (runOps (NewLruMemoryCache 2)
        [Op.set k v, Op.set k2 v2, Op.get k, Op.set k3 v3]).store k2 = none ∧
      mapLoad (runOps (NewLruMemoryCache 2)
        [Op.set k v, Op.set k2 v2, Op.get k, Op.set k3 v3]).store k = some v) ∧
    (∀ (ttl t1 t2 t3 t4 : Int) (k2 k3 : String) (v2 v3 : V), k ≠ k2 → k ≠ k3 → k2 ≠ k3 →
      ((runTtlOps (NewLruMemoryCacheWithTtl 2 ttl)
        [TtlOp.set t1 k v, TtlOp.set t2 k2 v2]).Get t3 k).1 = some v →
      listKeys (runTtlOps (NewLruMemoryCacheWithTtl 2 ttl)
        [TtlOp.set t1 k v, TtlOp.set t2 k2 v2, TtlOp.get t3 k, TtlOp.set t4 k3 v3]).order
          = [k3, k] ∧
      mapLoad (runTtlOps (NewLruMemoryCacheWithTtl 2 ttl)
        [TtlOp.set t1 k v, TtlOp.set t2 k2 v2, TtlOp.get t3 k, TtlOp.set t4 k3 v3]).store k2
          = none ∧
      (mapLoad (runTtlOps (NewLruMemoryCacheWithTtl 2 ttl)
        [TtlOp.set t1 k v, TtlOp.set t2 k2 v2, TtlOp.get t3 k, TtlOp.set t4 k3 v3]).store
          k).map CacheEntry.Value = some v) := by
  refine ⟨?_, ?_, ?_, ?_⟩
  · intro mc hr hhit
    rw [LruMemoryCache.Get_fst] at hhit
    have hf := LruMemoryCache.Get_snd_fields mc k
    refine ⟨(LruMemoryCache.Get_snd_order hr.inv hhit).1, hf.1, hf.2.1, ?_⟩
    intro k2 v2 hmax hlen hk2
    exact LruMemoryCache.Get_hit_then_Set hr.inv hhit k2 v2 hmax hlen hk2
  · intro mc now hr hhit
    exact LruMemoryCacheWithTtl.Get_hit_spec hr.invTtl hhit
  · intro k2 k3 v2 v3 h12 h13 h23
    have h21 : ¬ k2 = k := fun h => h12 h.symm
    have h31 : ¬ k3 = k := fun h => h13 h.symm
    have h32 : ¬ k3 = k2 := fun h => h23 h.symm
    simp [runOps, Op.apply, LruMemoryCache.Set, LruMemoryCache.Get, NewLruMemoryCache,
      LruMemoryCache.evictOldest, mapLoad, mapStore, mapDelete, PushFront, MoveToFront,
      Remove, Back, listKeys, h12, h13, h23, h21, h31, h32]
  · intro ttl t1 t2 t3 t4 k2 k3 v2 v3 h12 h13 h23 hhit
    have h21 : ¬ k2 = k := fun h => h12 h.symm
    have h31 : ¬ k3 = k := fun h => h13 h.symm
    have h32 : ¬ k3 = k2 := fun h => h23 h.symm
    have hr : TtlReachable (runTtlOps (NewLruMemoryCacheWithTtl 2 ttl)
        [TtlOp.set t1 k v, TtlOp.set t2 k2 v2]) := ⟨2, ttl, _, rfl⟩
    have hspec := (LruMemoryCacheWithTtl.Get_hit_spec hr.invTtl hhit).2.2.2 t4 k3 v3
      (by simp [(maxSize_runTtlOps _ _).1, NewLruMemoryCacheWithTtl])
      (by
        simp [runTtlOps, TtlOp.apply, LruMemoryCacheWithTtl.Set, NewLruMemoryCacheWithTtl,
          mapLoad, mapStore, mapDelete, PushFront, h12, h21])
      (by
        simp [runTtlOps, TtlOp.apply, LruMemoryCacheWithTtl.Set, NewLruMemoryCacheWithTtl,
          mapLoad, mapStore, mapDelete, PushFront, h12, h21, h13, h23])
    have hkeys : listKeys (runTtlOps (NewLruMemoryCacheWithTtl 2 ttl)
        [TtlOp.set t1 k v, TtlOp.set t2 k2 v2]).order = [k2, k] := by
      simp [runTtlOps, TtlOp.apply, LruMemoryCacheWithTtl.Set, NewLruMemoryCacheWithTtl,
        mapLoad, mapStore, mapDelete, PushFront, listKeys, h12, h21]
    have hstore : (mapLoad (runTtlOps (NewLruMemoryCacheWithTtl 2 ttl)
        [TtlOp.set t1 k v, TtlOp.set t2 k2 v2]).store k).map CacheEntry.Value = some v := by
      simp [runTtlOps, TtlOp.apply, LruMemoryCacheWithTtl.Set, NewLruMemoryCacheWithTtl,
        mapLoad, mapStore, mapDelete, PushFront, h12, h21]
    rw [hkeys] at hspec
    obtain ⟨lru, hl1, hl2, hl3, hl4, hl5⟩ := hspec
    have hlru : lru = k2 := by
      simp [keysWithout, h21] at hl1
      exact hl1.symm
    subst hlru
    refine ⟨?_, hl4, ?_⟩
    · have : listKeys ((((runTtlOps (NewLruMemoryCacheWithTtl 2 ttl)
          [TtlOp.set t1 k v, TtlOp.set t2 lru v2]).Get t3 k).2).Set t4 k3 v3).order
          = [k3, k] := by
        rw [hl3]
        simp [keysWithout, h21]
      exact this
    · have := hl5 k h12 h13
      have h5 : mapLoad ((((runTtlOps (NewLruMemoryCacheWithTtl 2 ttl)
          [TtlOp.set t1 k v, TtlOp.set t2 lru v2]).Get t3 k).2).Set t4 k3 v3).store k
          = mapLoad (runTtlOps (NewLruMemoryCacheWithTtl 2 ttl)
            [TtlOp.set t1 k v, TtlOp.set t2 lru v2]).store k := this
      have h6 : mapLoad (runTtlOps (NewLruMemoryCacheWithTtl 2 ttl)
          [TtlOp.set t1 k v, TtlOp.set t2 lru v2, TtlOp.get t3 k, TtlOp.set t4 k3 v3]).store k
          = mapLoad (runTtlOps (NewLruMemoryCacheWithTtl 2 ttl)
            [TtlOp.set t1 k v, TtlOp.set t2 lru v2]).store k := h5
      rw [h6]
      exact hstore

/-- C4 at the full caches of capacity 2: `Get` of `a` hits and moves `a` in front of `b`, and
in the scenario with keys `key1`, `key2`, `key3` the key `key2` is evicted. -/
theorem get_hit_moves_key_to_front_witness :
    (listKeys (fullPlain.Get "a").2.order = "a" :: keysWithout (listKeys fullPlain.order) "a" ∧
      (fullPlain.Get "a").2.store = fullPlain.store) ∧
    (listKeys (fullTtl.Get 3 "a").2.order = "a" :: keysWithout (listKeys fullTtl.order) "a" ∧
      (fullTtl.Get 3 "a").2.store = fullTtl.store) ∧
    (listKeys (runOps (NewLruMemoryCache 2)
        [Op.set "a" 1, Op.set "key2" 2, Op.get "a", Op.set "key3" 3]).order = ["key3", "a"] ∧
      mapLoad (runOps (NewLruMemoryCache 2)
        [Op.set "a" 1, Op.set "key2" 2, Op.get "a", Op.set "key3" 3]).store "key2" = none) ∧
    (listKeys (runTtlOps (NewLruMemoryCacheWithTtl 2 10)
        [TtlOp.set 1 "a" 1, TtlOp.set 2 "key2" 2, TtlOp.get 3 "a",
          TtlOp.set 4 "key3" 3]).order = ["key3", "a"] ∧
      mapLoad (runTtlOps (NewLruMemoryCacheWithTtl 2 10)
        [TtlOp.set 1 "a" 1, TtlOp.set 2 "key2" 2, TtlOp.get 3 "a",
          TtlOp.set 4 "key3" 3]).store "key2" = none) :=
  ⟨⟨((get_hit_moves_key_to_front "a" 1).1 fullPlain ⟨2, _, rfl⟩ (by decide)).1,
      ((get_hit_moves_key_to_front "a" 1).1 fullPlain ⟨2, _, rfl⟩ (by decide)).2.1⟩,
    ⟨((get_hit_moves_key_to_front "a" 1).2.1 fullTtl 3 ⟨2, 10, _, rfl⟩ (by decide)).1,
      ((get_hit_moves_key_to_front "a" 1).2.1 fullTtl 3 ⟨2, 10, _, rfl⟩ (by decide)).2.1⟩,
    ⟨((get_hit_moves_key_to_front "a" 1).2.2.1 "key2" "key3" 2 3 (by decide) (by decide)
        (by decide)).1,
      ((get_hit_moves_key_to_front "a" 1).2.2.1 "key2" "key3" 2 3 (by decide) (by decide)
        (by decide)).2.1⟩,
    ⟨((get_hit_moves_key_to_front "a" 1).2.2.2 10 1 2 3 4 "key2" "key3" 2 3 (by decide)
        (by decide) (by decide) (by decide)).1,
      ((get_hit_moves_key_to_front "a" 1).2.2.2 10 1 2 3 4 "key2" "key3" 2 3 (by decide)
        (by decide) (by decide) (by decide)).2.1⟩⟩

end GoMemCache

namespace GoMemCache

/-! ## Set of a stored key -/

theorem LruMemoryCache.Set_present_spec {V : Type} {mc : LruMemoryCache V} (h : mc.Inv)
    {k : String} (hk : (mapLoad mc.store k).isSome) (v : V) :
    mapLoad (mc.Set k v).store k = some v ∧
      listKeys (mc.Set k v).order = k :: keysWithout (listKeys mc.order) k ∧
      (mc.Set k v).order.length = mc.order.length ∧
      (mc.Set k v).store.length = mc.store.length ∧
      (mc.Set k v).keyToElement = mc.keyToElement ∧
      (∀ j, j ≠ k → mapLoad (mc.Set k v).store j = mapLoad mc.store j) ∧
      (∀ j, j ∈ listKeys (mc.Set k v).order ↔ j ∈ listKeys mc.order) := by
  obtain ⟨old, hold⟩ := Option.isSome_iff_exists.mp hk
  obtain ⟨hst, hix, -, hkeys, hlen⟩ := LruMemoryCache.Set_of_present h hold v
  have hmem : k ∈ listKeys mc.order :=
    (h.stored k).mp ((mapLoad_isSome_iff _ _).mp hk)
  refine ⟨?_, hkeys, hlen, ?_, hix, ?_, ?_⟩
  · rw [hst]
    exact mapLoad_mapStore_self _ _ _
  · rw [(LruMemoryCache.Inv_Set h k v).length_store, h.length_store, hlen]
  · intro j hj
    rw [hst]
    exact mapLoad_mapStore_ne _ _ hj
  · intro j
    rw [hkeys]
    by_cases hj : j = k
    · subst hj
      simp [hmem]
    · simp [mem_keysWithout, hj]

/-- C5: on a reachable state, `Set k v` of a key that is already stored binds `k` to `v`
(for the TTL cache, to the entry with value `v` and the expiration computed at `now`),
moves `k` to the front of the recency list and keeps the order of the other keys; the list
and the store keep their sizes, the key index and every other stored value are unchanged,
and the list holds the same keys as before, so nothing is evicted, full cache or not. -/
theorem set_present_key_overwrites_in_place {V : Type} (k : String) (v : V) :
    (∀ mc : LruMemoryCache V, Reachable mc → (mapLoad mc.store k).isSome →
      mapLoad (mc.Set k v).store k = some v ∧
      listKeys (mc.Set k v).order = k :: keysWithout (listKeys mc.order) k ∧
      (mc.Set k v).order.length = mc.order.length ∧
      (mc.Set k v).store.length = mc.store.length ∧
      (mc.Set k v).keyToElement = mc.keyToElement ∧
      (∀ j, j ≠ k → mapLoad (mc.Set k v).store j = mapLoad mc.store j) ∧
      (∀ j, j ∈ listKeys (mc.Set k v).order ↔ j ∈ listKeys mc.order)) ∧
    (∀ (mc : LruMemoryCacheWithTtl V) (now : Int), TtlReachable mc →
      (mapLoad mc.store k).isSome →
      mapLoad (mc.Set now k v).store k
        = some { Value := v, Expiration := mc.getExpirationTime now } ∧
      listKeys (mc.Set now k v).order = k :: keysWithout (listKeys mc.order) k ∧
      (mc.Set now k v).order.length = mc.order.length ∧
      (mc.Set now k v).store.length = mc.store.length ∧
      (mc.Set now k v).keyToElement = mc.keyToElement ∧
      (∀ j, j ≠ k → mapLoad (mc.Set now k v).store j = mapLoad mc.store j) ∧
      (∀ j, j ∈ listKeys (mc.Set now k v).order ↔ j ∈ listKeys mc.order)) := by
  constructor
  · intro mc hr hk
    exact LruMemoryCache.Set_present_spec hr.inv hk v
  · intro mc now hr hk
    have hinv : mc.toPlain.Inv := hr.invTtl
    have hk2 : (mapLoad mc.toPlain.store k).isSome := hk
    have h := LruMemoryCache.Set_present_spec hinv hk2
      ({ Value := v, Expiration := mc.getExpirationTime now } : CacheEntry V)
    rw [← LruMemoryCacheWithTtl.toPlain_Set] at h
    exact h

/-- C5 at the full caches of capacity 2: overwriting the oldest key `a` keeps both keys. -/
theorem set_present_key_overwrites_in_place_witness :
    (mapLoad (fullPlain.Set "a" 7).store "a" = some 7 ∧
      listKeys (fullPlain.Set "a" 7).order = "a" :: keysWithout (listKeys fullPlain.order) "a" ∧
      (fullPlain.Set "a" 7).order.length = fullPlain.order.length) ∧
    (mapLoad (fullTtl.Set 5 "a" 7).store "a"
        = some { Value := 7, Expiration := fullTtl.getExpirationTime 5 } ∧
      listKeys (fullTtl.Set 5 "a" 7).order = "a" :: keysWithout (listKeys fullTtl.order) "a" ∧
      (fullTtl.Set 5 "a" 7).order.length = fullTtl.order.length) :=
  ⟨⟨((set_present_key_overwrites_in_place "a" 7).1 fullPlain ⟨2, _, rfl⟩ (by decide)).1,
      ((set_present_key_overwrites_in_place "a" 7).1 fullPlain ⟨2, _, rfl⟩ (by decide)).2.1,
      ((set_present_key_overwrites_in_place "a" 7).1 fullPlain ⟨2, _, rfl⟩ (by decide)).2.2.1⟩,
    ⟨((set_present_key_overwrites_in_place "a" 7).2 fullTtl 5 ⟨2, 10, _, rfl⟩ (by decide)).1,
      ((set_present_key_overwrites_in_place "a" 7).2 fullTtl 5 ⟨2, 10, _, rfl⟩ (by decide)).2.1,
      ((set_present_key_overwrites_in_place "a" 7).2 fullTtl 5 ⟨2, 10, _, rfl⟩
        (by decide)).2.2.1⟩⟩

end GoMemCache

namespace GoMemCache

/-! ## Delete -/

theorem LruMemoryCache.Delete_present_spec {V : Type} {mc : LruMemoryCache V} (h : mc.Inv)
    {k : String} (hk : (mapLoad mc.store k).isSome) :
    mapLoad (mc.Delete k).store k = none ∧
      mapLoad (mc.Delete k).keyToElement k = none ∧
      k ∉ listKeys (mc.Delete k).order ∧
      listKeys (mc.Delete k).order = keysWithout (listKeys mc.order) k ∧
      (∀ j, j ≠ k → mapLoad (mc.Delete k).store j = mapLoad mc.store j ∧
        mapLoad (mc.Delete k).keyToElement j = mapLoad mc.keyToElement j) := by
  obtain ⟨old, hold⟩ := Option.isSome_iff_exists.mp hk
  obtain ⟨hst, hix, -, hkeys⟩ := LruMemoryCache.Delete_of_present h hold
  refine ⟨?_, ?_, ?_, hkeys, ?_⟩
  · rw [hst]
    exact mapLoad_mapDelete_self _ _
  · rw [hix]
    exact mapLoad_mapDelete_self _ _
  · rw [hkeys]
    simp [mem_keysWithout]
  · intro j hj
    rw [hst, hix]
    exact ⟨mapLoad_mapDelete_ne _ hj, mapLoad_mapDelete_ne _ hj⟩

theorem LruMemoryCacheWithTtl.Get_fst_congr {V : Type} {a b : LruMemoryCacheWithTtl V}
    {k : String} (h : mapLoad a.store k = mapLoad b.store k) (now : Int) :
    (a.Get now k).1 = (b.Get now k).1 := by
  cases hb : mapLoad b.store k with
  | none =>
    rw [hb] at h
    rw [LruMemoryCacheWithTtl.Get_of_none h, LruMemoryCacheWithTtl.Get_of_none hb]
  | some entry =>
    rw [hb] at h
    by_cases hx : LruMemoryCacheWithTtl.expired entry now
    · rw [LruMemoryCacheWithTtl.Get_of_expired h hx, LruMemoryCacheWithTtl.Get_of_expired hb hx]
    · rw [(LruMemoryCacheWithTtl.Get_of_live h hx).1, (LruMemoryCacheWithTtl.Get_of_live hb hx).1]

/-- C6: on a reachable state, `Delete k` of a stored key removes `k` from the value store,
the key index and the recency list, so `Get k` misses afterwards; every other key keeps its
stored value and index entry and is read by `Get` exactly as before, and the recency list
is the old one without `k`. -/
theorem delete_present_key_removes_it {V : Type} (k : String) :
    (∀ mc : LruMemoryCache V, Reachable mc → (mapLoad mc.store k).isSome →
      mapLoad (mc.Delete k).store k = none ∧
      mapLoad (mc.Delete k).keyToElement k = none ∧
      k ∉ listKeys (mc.Delete k).order ∧
      ((mc.Delete k).Get k).1 = none ∧
      listKeys (mc.Delete k).order = keysWithout (listKeys mc.order) k ∧
      (∀ j, j ≠ k → ((mc.Delete k).Get j).1 = (mc.Get j).1 ∧
        mapLoad (mc.Delete k).store j = mapLoad mc.store j ∧
        mapLoad (mc.Delete k).keyToElement j = mapLoad mc.keyToElement j)) ∧
    (∀ mc : LruMemoryCacheWithTtl V, TtlReachable mc → (mapLoad mc.store k).isSome →
      mapLoad (mc.Delete k).store k = none ∧
      mapLoad (mc.Delete k).keyToElement k = none ∧
      k ∉ listKeys (mc.Delete k).order ∧
      (∀ now : Int, ((mc.Delete k).Get now k).1 = none) ∧
      listKeys (mc.Delete k).order = keysWithout (listKeys mc.order) k ∧
      (∀ j, j ≠ k → (∀ now : Int, ((mc.Delete k).Get now j).1 = (mc.Get now j).1) ∧
        mapLoad (mc.Delete k).store j = mapLoad mc.store j ∧
        mapLoad (mc.Delete k).keyToElement j = mapLoad mc.keyToElement j)) := by
  constructor
  · intro mc hr hk
    obtain ⟨h1, h2, h3, h4, h5⟩ := LruMemoryCache.Delete_present_spec hr.inv hk
    refine ⟨h1, h2, h3, ?_, h4, ?_⟩
    · rw [LruMemoryCache.Get_fst]
      exact h1
    · intro j hj
      rw [LruMemoryCache.Get_fst, LruMemoryCache.Get_fst]
      exact ⟨(h5 j hj).1, (h5 j hj).1, (h5 j hj).2⟩
  · intro mc hr hk
    have hinv : mc.toPlain.Inv := hr.invTtl
    have hk2 : (mapLoad mc.toPlain.store k).isSome := hk
    have h := LruMemoryCache.Delete_present_spec hinv hk2
    rw [← LruMemoryCacheWithTtl.toPlain_Delete] at h
    obtain ⟨h1, h2, h3, h4, h5⟩ := h
    have h1b : mapLoad (mc.Delete k).store k = none := h1
    refine ⟨h1, h2, h3, ?_, h4, ?_⟩
    · intro now
      rw [LruMemoryCacheWithTtl.Get_of_none h1b]
    · intro j hj
      have h6 : mapLoad (mc.Delete k).store j = mapLoad mc.store j := (h5 j hj).1
      exact ⟨fun now => LruMemoryCacheWithTtl.Get_fst_congr h6 now, h6, (h5 j hj).2⟩

/-- C6 at the full caches of capacity 2: deleting `a` leaves `b` readable. -/
theorem delete_present_key_removes_it_witness :
    (((fullPlain.Delete "a").Get "a").1 = none ∧
      listKeys (fullPlain.Delete "a").order = keysWithout (listKeys fullPlain.order) "a") ∧
    ((∀ now : Int, ((fullTtl.Delete "a").Get now "a").1 = none) ∧
      listKeys (fullTtl.Delete "a").order = keysWithout (listKeys fullTtl.order) "a") :=
  ⟨⟨((delete_present_key_removes_it "a").1 fullPlain ⟨2, _, rfl⟩ (by decide)).2.2.2.1,
      ((delete_present_key_removes_it "a").1 fullPlain ⟨2, _, rfl⟩ (by decide)).2.2.2.2.1⟩,
    ⟨((delete_present_key_removes_it "a").2 fullTtl ⟨2, 10, _, rfl⟩ (by decide)).2.2.2.1,
      ((delete_present_key_removes_it "a").2 fullTtl ⟨2, 10, _, rfl⟩ (by decide)).2.2.2.2.1⟩⟩

/-! ## Delete of a key that is not stored -/

theorem LruMemoryCacheWithTtl.Delete_of_absentTtl {V : Type} {mc : LruMemoryCacheWithTtl V}
    {key : String} (hk : mapLoad mc.store key = none) : mc.Delete key = mc := by
  unfold LruMemoryCacheWithTtl.Delete
  rw [hk]

theorem LruMemoryCacheWithTtl.Delete_storeTtl {V : Type} (mc : LruMemoryCacheWithTtl V)
    (key : String) : (mc.Delete key).store = mapDelete mc.store key := by
  have h := congrArg LruMemoryCache.store (LruMemoryCacheWithTtl.toPlain_Delete mc key)
  rw [LruMemoryCache.Delete_store] at h
  exact h

/-- C7: `Delete k` of a key that is not stored returns the state it was given, with the same
value store, recency list and key index; and for every state and key a second `Delete k`
changes nothing after the first. -/
theorem delete_absent_key_is_noop {V : Type} (k : String) :
    (∀ mc : LruMemoryCache V, mapLoad mc.store k = none → mc.Delete k = mc) ∧
    (∀ mc : LruMemoryCache V, (mc.Delete k).Delete k = mc.Delete k) ∧
    (∀ mc : LruMemoryCacheWithTtl V, mapLoad mc.store k = none → mc.Delete k = mc) ∧
    (∀ mc : LruMemoryCacheWithTtl V, (mc.Delete k).Delete k = mc.Delete k) := by
  refine ⟨?_, ?_, ?_, ?_⟩
  · intro mc hk
    exact LruMemoryCache.Delete_of_absent hk
  · intro mc
    exact LruMemoryCache.Delete_idem mc k
  · intro mc hk
    exact LruMemoryCacheWithTtl.Delete_of_absentTtl hk
  · intro mc
    apply LruMemoryCacheWithTtl.Delete_of_absentTtl
    rw [LruMemoryCacheWithTtl.Delete_storeTtl]
    exact mapLoad_mapDelete_self _ _

/-- C7 at the full caches of capacity 2: `Delete` of the absent key `z` changes nothing. -/
theorem delete_absent_key_is_noop_witness :
    fullPlain.Delete "z" = fullPlain ∧ fullTtl.Delete "z" = fullTtl :=
  ⟨(delete_absent_key_is_noop "z").1 fullPlain (by decide),
    (delete_absent_key_is_noop "z").2.2.1 fullTtl (by decide)⟩

end GoMemCache

namespace GoMemCache

/-! ## Three-way consistency -/

theorem Consistent.three_way {sk : List String} {ix : List (String × Element)}
    {o : List Element} {n : Nat} (h : Consistent sk ix o n) :
    (∀ k, k ∈ sk ↔ k ∈ listKeys o) ∧
      (∀ k, k ∈ listKeys o ↔ (mapLoad ix k).isSome) ∧
      (∀ k e, mapLoad ix k = some e ↔ (e ∈ o ∧ e.Value = k)) ∧
      (listKeys o).Nodup := by
  refine ⟨h.stored, ?_, h.index, h.keysNodup⟩
  intro k
  constructor
  · intro hk
    obtain ⟨e, he, -⟩ := h.index_some_of_mem hk
    rw [he]
    rfl
  · intro hk
    obtain ⟨e, he⟩ := Option.isSome_iff_exists.mp hk
    have h1 := (h.index k e).mp he
    exact h1.2 ▸ value_mem_listKeys h1.1

/-- C8: after any sequence of `Set`, `Get` and `Delete` calls on a new cache, a key is bound
in the value store iff it occurs in the recency list iff it is bound in the key index, the
index binds it to the list element that carries it, and no key occurs twice in the list;
for the plain cache `Get k` hits exactly for the keys of the list. -/
theorem store_list_index_agree {V : Type} :
    (∀ mc : LruMemoryCache V, Reachable mc →
      (∀ k, (mapLoad mc.store k).isSome ↔ k ∈ listKeys mc.order) ∧
      (∀ k, k ∈ listKeys mc.order ↔ (mapLoad mc.keyToElement k).isSome) ∧
      (∀ k e, mapLoad mc.keyToElement k = some e ↔ (e ∈ mc.order ∧ e.Value = k)) ∧
      (listKeys mc.order).Nodup ∧
      (∀ k, ((mc.Get k).1).isSome ↔ k ∈ listKeys mc.order)) ∧
    (∀ mc : LruMemoryCacheWithTtl V, TtlReachable mc →
      (∀ k, (mapLoad mc.store k).isSome ↔ k ∈ listKeys mc.order) ∧
      (∀ k, k ∈ listKeys mc.order ↔ (mapLoad mc.keyToElement k).isSome) ∧
      (∀ k e, mapLoad mc.keyToElement k = some e ↔ (e ∈ mc.order ∧ e.Value = k)) ∧
      (listKeys mc.order).Nodup) := by
  constructor
  · intro mc hr
    obtain ⟨h1, h2, h3, h4⟩ := Consistent.three_way hr.inv
    have h5 : ∀ k, (mapLoad mc.store k).isSome ↔ k ∈ listKeys mc.order := fun k =>
      (mapLoad_isSome_iff _ _).trans (h1 k)
    refine ⟨h5, h2, h3, h4, ?_⟩
    intro k
    rw [LruMemoryCache.Get_fst]
    exact h5 k
  · intro mc hr
    obtain ⟨h1, h2, h3, h4⟩ := Consistent.three_way hr.invTtl
    exact ⟨fun k => (mapLoad_isSome_iff _ _).trans (h1 k), h2, h3, h4⟩

/-- C8 at the caches of capacity 2 holding `a` and `b`, for the key `a`. -/
theorem store_list_index_agree_witness :
    (((mapLoad fullPlain.store "a").isSome ↔ "a" ∈ listKeys fullPlain.order) ∧
      ("a" ∈ listKeys fullPlain.order ↔ (mapLoad fullPlain.keyToElement "a").isSome) ∧
      (listKeys fullPlain.order).Nodup ∧
      (((fullPlain.Get "a").1).isSome ↔ "a" ∈ listKeys fullPlain.order)) ∧
    (((mapLoad fullTtl.store "a").isSome ↔ "a" ∈ listKeys fullTtl.order) ∧
      ("a" ∈ listKeys fullTtl.order ↔ (mapLoad fullTtl.keyToElement "a").isSome) ∧
      (listKeys fullTtl.order).Nodup) :=
  ⟨⟨(store_list_index_agree.1 fullPlain ⟨2, _, rfl⟩).1 "a",
      (store_list_index_agree.1 fullPlain ⟨2, _, rfl⟩).2.1 "a",
      (store_list_index_agree.1 fullPlain ⟨2, _, rfl⟩).2.2.2.1,
      (store_list_index_agree.1 fullPlain ⟨2, _, rfl⟩).2.2.2.2 "a"⟩,
    ⟨(store_list_index_agree.2 fullTtl ⟨2, 10, _, rfl⟩).1 "a",
      (store_list_index_agree.2 fullTtl ⟨2, 10, _, rfl⟩).2.1 "a",
      (store_list_index_agree.2 fullTtl ⟨2, 10, _, rfl⟩).2.2.2⟩⟩

end GoMemCache

namespace GoMemCache

/-! ## Expiration -/

theorem LruMemoryCache.Set_store_other {V : Type} (mc : LruMemoryCache V) {j k : String}
    (hjk : k ≠ j) (v : V) :
    mapLoad (mc.Set j v).store k = none ∨
      mapLoad (mc.Set j v).store k = mapLoad mc.store k := by
  unfold LruMemoryCache.Set
  split
  · right
    exact mapLoad_mapStore_ne _ _ hjk
  · simp only
    split
    · unfold LruMemoryCache.evictOldest
      simp only
      split
      · rename_i oldest _
        by_cases ho : k = oldest.Value
        · left
          rw [ho]
          exact mapLoad_mapDelete_self _ _
        · right
          show mapLoad (mapDelete (mapStore mc.store j v) oldest.Value) k = mapLoad mc.store k
          rw [mapLoad_mapDelete_ne _ ho]
          exact mapLoad_mapStore_ne _ _ hjk
      · right
        exact mapLoad_mapStore_ne _ _ hjk
    · right
      exact mapLoad_mapStore_ne _ _ hjk

theorem mapLoad_mapDelete_cases {β : Type} (m : List (String × β)) (j k : String) :
    mapLoad (mapDelete m j) k = none ∨ mapLoad (mapDelete m j) k = mapLoad m k := by
  by_cases h : k = j
  · left
    rw [h]
    exact mapLoad_mapDelete_self _ _
  · right
    exact mapLoad_mapDelete_ne _ h

theorem TtlOp.store_other {V : Type} (mc : LruMemoryCacheWithTtl V) (k : String)
    (op : TtlOp V) (hop : ∀ t2 v2, op ≠ TtlOp.set t2 k v2) :
    mapLoad (TtlOp.apply mc op).store k = none ∨
      mapLoad (TtlOp.apply mc op).store k = mapLoad mc.store k := by
  cases op with
  | set now j v =>
    have hjk : k ≠ j := fun h => hop now v (h ▸ rfl)
    have h := LruMemoryCache.Set_store_other mc.toPlain hjk
      ({ Value := v, Expiration := mc.getExpirationTime now } : CacheEntry V)
    rw [← LruMemoryCacheWithTtl.toPlain_Set] at h
    exact h
  | delete now j =>
    show mapLoad (mc.Delete j).store k = none ∨ mapLoad (mc.Delete j).store k = mapLoad mc.store k
    rw [LruMemoryCacheWithTtl.Delete_storeTtl]
    exact mapLoad_mapDelete_cases _ _ _
  | get now j =>
    show mapLoad (mc.Get now j).2.store k = none ∨
      mapLoad (mc.Get now j).2.store k = mapLoad mc.store k
    cases hs : mapLoad mc.store j with
    | none =>
      rw [LruMemoryCacheWithTtl.Get_of_none hs]
      exact Or.inr rfl
    | some entry =>
      by_cases hx : LruMemoryCacheWithTtl.expired entry now
      · rw [LruMemoryCacheWithTtl.Get_of_expired hs hx, LruMemoryCacheWithTtl.Delete_storeTtl]
        exact mapLoad_mapDelete_cases _ _ _
      · have h := congrArg LruMemoryCache.store (LruMemoryCacheWithTtl.Get_of_live hs hx).2.1
        rw [(LruMemoryCache.Get_snd_fields mc.toPlain j).1] at h
        have h2 : (mc.Get now j).2.store = mc.store := h
        rw [h2]
        exact Or.inr rfl

theorem runTtlOps_store_other {V : Type} (k : String) (mid : List (TtlOp V))
    (hmid : ∀ op ∈ mid, ∀ t2 v2, op ≠ TtlOp.set t2 k v2) (mc : LruMemoryCacheWithTtl V) :
    mapLoad (runTtlOps mc mid).store k = none ∨
      mapLoad (runTtlOps mc mid).store k = mapLoad mc.store k := by
  induction mid generalizing mc with
  | nil => exact Or.inr rfl
  | cons op rest ih =>
    have h1 := ih (fun o ho => hmid o (List.mem_cons_of_mem _ ho)) (TtlOp.apply mc op)
    have h2 := TtlOp.store_other mc k op (hmid op (List.mem_cons_self _ _))
    show mapLoad (runTtlOps (TtlOp.apply mc op) rest).store k = none ∨
      mapLoad (runTtlOps (TtlOp.apply mc op) rest).store k = mapLoad mc.store k
    rcases h1 with h1 | h1
    · exact Or.inl h1
    · rcases h2 with h2 | h2
      · exact Or.inl (h1.trans h2)
      · exact Or.inr (h1.trans h2)

theorem runTtlOps_append {V : Type} (mc : LruMemoryCacheWithTtl V) (pre : List (TtlOp V))
    (op : TtlOp V) (mid : List (TtlOp V)) :
    runTtlOps mc (pre ++ op :: mid) = runTtlOps (TtlOp.apply (runTtlOps mc pre) op) mid := by
  simp [runTtlOps, List.foldl_append]

theorem wrapInt64_of_range {x : Int} (h1 : -9223372036854775808 ≤ x)
    (h2 : x < 9223372036854775808) : wrapInt64 x = x := by
  unfold wrapInt64
  rw [Int.emod_eq_of_lt (by omega) (by omega)]
  omega

theorem getExpirationTime_of_pos {V : Type} {mc : LruMemoryCacheWithTtl V}
    (h : 0 < mc.ttl) (now : Int) : mc.getExpirationTime now = wrapInt64 (now + mc.ttl) := by
  unfold LruMemoryCacheWithTtl.getExpirationTime
  rw [if_pos h]

theorem getExpirationTime_of_range {V : Type} {mc : LruMemoryCacheWithTtl V}
    (h : 0 < mc.ttl) {now : Int} (h1 : 0 ≤ now) (h2 : now + mc.ttl < 9223372036854775808) :
    mc.getExpirationTime now = now + mc.ttl := by
  rw [getExpirationTime_of_pos h, wrapInt64_of_range (by omega) h2]

/-- C9: with `ttl > 0`, if the last `Set` of `k` in a run happened at the clock reading `t`,
then `Get k` at any clock reading `now > t + ttl` returns not-found, whatever calls other
than a `Set` of `k` (reads of `k`, evictions, calls on other keys, `Delete`) came in between
and whatever their clock readings, sorted or not; and a `Get` that returns a value found a
stored entry that is not expired at that time. -/
theorem get_after_ttl_misses {V : Type} (maxSize ttl : Int) (httl : 0 < ttl)
    (pre mid : List (TtlOp V)) (t now : Int) (k : String) (v : V) (ht : ClockReading t)
    (hclock : ClockReading now)
    (hmid : ∀ op ∈ mid, ∀ t2 v2, op ≠ TtlOp.set t2 k v2) (hnow : t + ttl < now) :
    ((runTtlOps (NewLruMemoryCacheWithTtl maxSize ttl)
        (pre ++ TtlOp.set t k v :: mid)).Get now k).1 = none ∧
    (∀ (mc : LruMemoryCacheWithTtl V) (now2 : Int) (k2 : String) (v2 : V),
      (mc.Get now2 k2).1 = some v2 →
      ∃ entry, mapLoad mc.store k2 = some entry ∧ entry.Value = v2 ∧
        ¬ (entry.Expiration > 0 ∧ now2 > entry.Expiration)) := by
  have hpos : 0 < t + ttl := by
    have := ht.1
    omega
  constructor
  · rw [runTtlOps_append]
    have hinv : (runTtlOps (NewLruMemoryCacheWithTtl maxSize ttl : LruMemoryCacheWithTtl V)
        pre).toPlain.Inv := Inv_runTtlOps pre (LruMemoryCacheWithTtl.Inv_NewTtl maxSize ttl)
    have httl2 : (runTtlOps (NewLruMemoryCacheWithTtl maxSize ttl : LruMemoryCacheWithTtl V)
        pre).ttl = ttl := (maxSize_runTtlOps pre _).2
    have hexp : (runTtlOps (NewLruMemoryCacheWithTtl maxSize ttl : LruMemoryCacheWithTtl V)
        pre).getExpirationTime t = t + ttl := by
      have h0 : 0 < (runTtlOps (NewLruMemoryCacheWithTtl maxSize ttl : LruMemoryCacheWithTtl V)
          pre).ttl := by rw [httl2]; exact httl
      rw [getExpirationTime_of_range h0 ht.1 (by rw [httl2]; have := hclock.2; omega), httl2]
    have hset := LruMemoryCache.Set_store_self hinv k
      ({ Value := v, Expiration := t + ttl } : CacheEntry V)
    rw [← hexp, ← LruMemoryCacheWithTtl.toPlain_Set, hexp] at hset
    have hset2 : mapLoad (TtlOp.apply (runTtlOps (NewLruMemoryCacheWithTtl maxSize ttl) pre)
        (TtlOp.set t k v)).store k = some { Value := v, Expiration := t + ttl } := hset
    rcases runTtlOps_store_other k mid hmid
      (TtlOp.apply (runTtlOps (NewLruMemoryCacheWithTtl maxSize ttl) pre)
        (TtlOp.set t k v)) with h | h
    · rw [LruMemoryCacheWithTtl.Get_of_none h]
    · rw [hset2] at h
      have hx : LruMemoryCacheWithTtl.expired
          ({ Value := v, Expiration := t + ttl } : CacheEntry V) now := ⟨hpos, hnow⟩
      rw [LruMemoryCacheWithTtl.Get_of_expired h hx]
  · intro mc now2 k2 v2 hhit
    obtain ⟨entry, h1, h2, h3⟩ := LruMemoryCacheWithTtl.Get_hit hhit
    exact ⟨entry, h1, h3, h2⟩

/-- C9 on a run with ttl 10: `Set a` at time 1, then a read of `a`, a `Set` of another key
and a `Delete`, then `Get a` at time 12 > 1 + 10. -/
theorem get_after_ttl_misses_witness :
    (0 : Int) < 10 ∧ ClockReading 1 ∧ ClockReading 12 ∧ (1 : Int) + 10 < 12 ∧
    ((runTtlOps (NewLruMemoryCacheWithTtl 2 10)
        ([TtlOp.set 0 "b" 5] ++ TtlOp.set 1 "a" 1 ::
          [TtlOp.get 2 "a", TtlOp.set 3 "c" 3, TtlOp.delete 4 "z"])).Get 12 "a").1 = none :=
  ⟨by decide, ⟨by decide, by decide⟩, ⟨by decide, by decide⟩, by decide,
    (get_after_ttl_misses 2 10 (by decide) [TtlOp.set 0 "b" 5]
      [TtlOp.get 2 "a", TtlOp.set 3 "c" 3, TtlOp.delete 4 "z"] 1 12 "a" 1
      ⟨by decide, by decide⟩ ⟨by decide, by decide⟩
      (by
        intro op hop t2 v2 h
        subst h
        simp at hop)
      (by decide)).1⟩

end GoMemCache

namespace GoMemCache

/-! ## Lazy removal of an expired entry -/

/-- C10, states that contradict the claim as stated. The entry of `a`, written at clock
reading -15 with ttl 10, has the expiration -5, which is non-zero and earlier than the time
0, yet `Get` at time 0 returns its value, because the test of `Get` asks for a positive
expiration. The state is consistent. The same happens with clock readings after the epoch:
with the ttl 2^63 - 1 the `Set` at the clock reading 1700000000000000000 stores the
expiration -7523372036854775809, and `Get` at 1700000000000000005 returns the value. -/
theorem get_negative_expiration_counterexample :
    (runTtlOps (NewLruMemoryCacheWithTtl 2 10) [TtlOp.set (-15) "a" (1 : Nat)]).Inv ∧
    mapLoad (runTtlOps (NewLruMemoryCacheWithTtl 2 10) [TtlOp.set (-15) "a" (1 : Nat)]).store
      "a" = some { Value := 1, Expiration := -5 } ∧
    (-5 : Int) ≠ 0 ∧ (-5 : Int) < 0 ∧
    ((runTtlOps (NewLruMemoryCacheWithTtl 2 10) [TtlOp.set (-15) "a" (1 : Nat)]).Get 0 "a").1
      = some 1 ∧
    (runTtlOps (NewLruMemoryCacheWithTtl 3 9223372036854775807)
      [TtlOp.set 1700000000000000000 "a" (1 : Nat)]).Inv ∧
    mapLoad (runTtlOps (NewLruMemoryCacheWithTtl 3 9223372036854775807)
      [TtlOp.set 1700000000000000000 "a" (1 : Nat)]).store "a"
      = some { Value := 1, Expiration := -7523372036854775809 } ∧
    (-7523372036854775809 : Int) ≠ 0 ∧
    (-7523372036854775809 : Int) < 1700000000000000005 ∧
    ((runTtlOps (NewLruMemoryCacheWithTtl 3 9223372036854775807)
      [TtlOp.set 1700000000000000000 "a" (1 : Nat)]).Get 1700000000000000005 "a").1
      = some 1 :=
  ⟨Inv_runTtlOps _ (LruMemoryCacheWithTtl.Inv_NewTtl 2 10), by decide, by decide, by decide,
    by decide, Inv_runTtlOps _ (LruMemoryCacheWithTtl.Inv_NewTtl 3 9223372036854775807),
    by decide, by decide, by decide, by decide⟩

/-- C10, amended: on a state of the TTL cache that satisfies the consistency invariant, when
`k` is stored with an expiration that is positive and strictly earlier than `now`, `Get k`
at time `now` returns not-found and removes `k` from the value store, the key index and the
recency list; every other key keeps its entry and its index entry, and the recency list is
the old one without `k`. -/
theorem get_expired_removes_key {V : Type} (mc : LruMemoryCacheWithTtl V) (now : Int)
    (k : String) (entry : CacheEntry V) (hinv : mc.Inv)
    (hs : mapLoad mc.store k = some entry) (hpos : 0 < entry.Expiration)
    (hlt : entry.Expiration < now) :
    (mc.Get now k).1 = none ∧
      mapLoad (mc.Get now k).2.store k = none ∧
      mapLoad (mc.Get now k).2.keyToElement k = none ∧
      k ∉ listKeys (mc.Get now k).2.order ∧
      listKeys (mc.Get now k).2.order = keysWithout (listKeys mc.order) k ∧
      (∀ j, j ≠ k → mapLoad (mc.Get now k).2.store j = mapLoad mc.store j ∧
        mapLoad (mc.Get now k).2.keyToElement j = mapLoad mc.keyToElement j) := by
  have hx : LruMemoryCacheWithTtl.expired entry now := ⟨hpos, hlt⟩
  rw [LruMemoryCacheWithTtl.Get_of_expired hs hx]
  have hinv2 : mc.toPlain.Inv := hinv
  have hk2 : (mapLoad mc.toPlain.store k).isSome := by
    have h3 : mapLoad mc.toPlain.store k = some entry := hs
    rw [h3]
    rfl
  have h := LruMemoryCache.Delete_present_spec hinv2 hk2
  rw [← LruMemoryCacheWithTtl.toPlain_Delete] at h
  exact ⟨rfl, h⟩

/-- C10, amended, at the TTL cache of capacity 2 and ttl 10 holding `a` (written at time 1)
and `b`: at time 12 the entry of `a`, which expires at 11, is removed by `Get`. -/
theorem get_expired_removes_key_witness :
    fullTtl.Inv ∧ mapLoad fullTtl.store "a" = some { Value := 1, Expiration := 11 } ∧
    (0 : Int) < 11 ∧ (11 : Int) < 12 ∧
    (fullTtl.Get 12 "a").1 = none ∧
    mapLoad (fullTtl.Get 12 "a").2.store "a" = none ∧
    listKeys (fullTtl.Get 12 "a").2.order = keysWithout (listKeys fullTtl.order) "a" :=
  ⟨Inv_runTtlOps _ (LruMemoryCacheWithTtl.Inv_NewTtl 2 10), by decide, by decide, by decide,
    (get_expired_removes_key fullTtl 12 "a" { Value := 1, Expiration := 11 }
      (Inv_runTtlOps _ (LruMemoryCacheWithTtl.Inv_NewTtl 2 10)) (by decide) (by decide)
      (by decide)).1,
    (get_expired_removes_key fullTtl 12 "a" { Value := 1, Expiration := 11 }
      (Inv_runTtlOps _ (LruMemoryCacheWithTtl.Inv_NewTtl 2 10)) (by decide) (by decide)
      (by decide)).2.1,
    (get_expired_removes_key fullTtl 12 "a" { Value := 1, Expiration := 11 }
      (Inv_runTtlOps _ (LruMemoryCacheWithTtl.Inv_NewTtl 2 10)) (by decide) (by decide)
      (by decide)).2.2.2.2.1⟩

end GoMemCache

namespace GoMemCache

/-! ## A cache without TTL: every expiration is the sentinel 0 -/

theorem mapLoad_mem {β : Type} {m : List (String × β)} {k : String} {b : β}
    (h : mapLoad m k = some b) : (k, b) ∈ m := by
  induction m with
  | nil => exact Option.noConfusion h
  | cons p rest ih =>
    obtain ⟨k2, b2⟩ := p
    by_cases hk : k2 = k
    · simp only [mapLoad, if_pos hk] at h
      cases h
      rw [hk]
      exact List.mem_cons_self _ _
    · simp only [mapLoad, if_neg hk] at h
      exact List.mem_cons_of_mem _ (ih h)

theorem mem_of_mem_mapDelete {β : Type} {m : List (String × β)} {k : String}
    {p : String × β} (h : p ∈ mapDelete m k) : p ∈ m :=
  List.mem_of_mem_filter h

theorem mem_mapStore {β : Type} {m : List (String × β)} {k : String} {b : β}
    {p : String × β} (h : p ∈ mapStore m k b) : p = (k, b) ∨ p ∈ m := by
  rcases List.mem_cons.mp h with h1 | h1
  · exact Or.inl h1
  · exact Or.inr (mem_of_mem_mapDelete h1)

theorem LruMemoryCache.mem_store_Set {V : Type} (mc : LruMemoryCache V) (k : String) (v : V)
    {p : String × V} (h : p ∈ (mc.Set k v).store) : p = (k, v) ∨ p ∈ mc.store := by
  unfold LruMemoryCache.Set at h
  split at h
  · exact mem_mapStore h
  · simp only at h
    split at h
    · unfold LruMemoryCache.evictOldest at h
      simp only at h
      split at h
      · exact mem_mapStore (mem_of_mem_mapDelete h)
      · exact mem_mapStore h
    · exact mem_mapStore h

theorem TtlOp.mem_store_apply {V : Type} (mc : LruMemoryCacheWithTtl V) (op : TtlOp V)
    {p : String × CacheEntry V} (h : p ∈ (TtlOp.apply mc op).store) :
    p ∈ mc.store ∨ ∃ now v, p.2 = { Value := v, Expiration := mc.getExpirationTime now } := by
  cases op with
  | set now k v =>
    have h2 : p ∈ ((mc.Set now k v).toPlain).store := h
    rw [LruMemoryCacheWithTtl.toPlain_Set] at h2
    rcases LruMemoryCache.mem_store_Set _ _ _ h2 with h3 | h3
    · exact Or.inr ⟨now, v, by rw [h3]⟩
    · exact Or.inl h3
  | delete now k =>
    have h2 : p ∈ (mc.Delete k).store := h
    rw [LruMemoryCacheWithTtl.Delete_storeTtl] at h2
    exact Or.inl (mem_of_mem_mapDelete h2)
  | get now k =>
    have h2 : p ∈ (mc.Get now k).2.store := h
    cases hs : mapLoad mc.store k with
    | none =>
      rw [LruMemoryCacheWithTtl.Get_of_none hs] at h2
      exact Or.inl h2
    | some entry =>
      by_cases hx : LruMemoryCacheWithTtl.expired entry now
      · rw [LruMemoryCacheWithTtl.Get_of_expired hs hx,
          LruMemoryCacheWithTtl.Delete_storeTtl] at h2
        exact Or.inl (mem_of_mem_mapDelete h2)
      · have h3 := congrArg LruMemoryCache.store (LruMemoryCacheWithTtl.Get_of_live hs hx).2.1
        rw [(LruMemoryCache.Get_snd_fields mc.toPlain k).1] at h3
        have h4 : (mc.Get now k).2.store = mc.store := h3
        rw [h4] at h2
        exact Or.inl h2

theorem getExpirationTime_of_nonpos {V : Type} {mc : LruMemoryCacheWithTtl V}
    (h : mc.ttl ≤ 0) (now : Int) : mc.getExpirationTime now = 0 := by
  unfold LruMemoryCacheWithTtl.getExpirationTime
  rw [if_neg (not_lt.mpr h)]

theorem runTtlOps_expiration_zero {V : Type} (ops : List (TtlOp V))
    {mc : LruMemoryCacheWithTtl V} (httl : mc.ttl ≤ 0)
    (h : ∀ p ∈ mc.store, p.2.Expiration = 0) :
    ∀ p ∈ (runTtlOps mc ops).store, p.2.Expiration = 0 := by
  induction ops generalizing mc with
  | nil => exact h
  | cons op rest ih =>
    apply ih
    · rw [(maxSize_applyTtl mc op).2]
      exact httl
    · intro p hp
      rcases TtlOp.mem_store_apply mc op hp with h1 | ⟨now, v, h1⟩
      · exact h p h1
      · rw [h1]
        exact getExpirationTime_of_nonpos httl now

theorem LruMemoryCacheWithTtl.Get_of_sentinel {V : Type} {mc : LruMemoryCacheWithTtl V}
    {k : String} {entry : CacheEntry V} (hs : mapLoad mc.store k = some entry)
    (h0 : entry.Expiration ≤ 0) (now : Int) : (mc.Get now k).1 = some entry.Value := by
  have hx : ¬ LruMemoryCacheWithTtl.expired entry now := fun hx => absurd hx.1 (not_lt.mpr h0)
  exact (LruMemoryCacheWithTtl.Get_of_live hs hx).1

/-- C11: in a TTL cache created with `ttl <= 0`, whatever `maxSize` is, after any sequence of
calls every `Set` stores the expiration 0, `Get k` at any time after `Set k v` with no call
in between returns `(v, true)`, every stored entry has expiration 0, and a `Get` of a stored
key returns its value at every clock reading: entries never expire. -/
theorem nonpositive_ttl_never_expires {V : Type} (maxSize ttl : Int) (httl : ttl ≤ 0)
    (ops : List (TtlOp V)) :
    (∀ (now : Int) (k : String) (v : V),
      mapLoad ((runTtlOps (NewLruMemoryCacheWithTtl maxSize ttl) ops).Set now k v).store k
        = some { Value := v, Expiration := 0 } ∧
      ∀ now2 : Int,
        (((runTtlOps (NewLruMemoryCacheWithTtl maxSize ttl) ops).Set now k v).Get now2 k).1
          = some v) ∧
    (∀ (k : String) (entry : CacheEntry V),
      mapLoad (runTtlOps (NewLruMemoryCacheWithTtl maxSize ttl) ops).store k = some entry →
      entry.Expiration = 0 ∧
      ∀ now : Int,
        ((runTtlOps (NewLruMemoryCacheWithTtl maxSize ttl) ops).Get now k).1
          = some entry.Value) := by
  have httl2 : (runTtlOps (NewLruMemoryCacheWithTtl maxSize ttl : LruMemoryCacheWithTtl V)
      ops).ttl ≤ 0 := by
    rw [(maxSize_runTtlOps ops _).2]
    exact httl
  constructor
  · intro now k v
    have hinv : (runTtlOps (NewLruMemoryCacheWithTtl maxSize ttl : LruMemoryCacheWithTtl V)
        ops).toPlain.Inv := Inv_runTtlOps ops (LruMemoryCacheWithTtl.Inv_NewTtl maxSize ttl)
    have hset := LruMemoryCache.Set_store_self hinv k
      ({ Value := v, Expiration := 0 } : CacheEntry V)
    rw [← getExpirationTime_of_nonpos httl2 now, ← LruMemoryCacheWithTtl.toPlain_Set,
      getExpirationTime_of_nonpos httl2 now] at hset
    have hset2 : mapLoad ((runTtlOps (NewLruMemoryCacheWithTtl maxSize ttl) ops).Set now k
        v).store k = some { Value := v, Expiration := 0 } := hset
    refine ⟨hset2, ?_⟩
    intro now2
    exact LruMemoryCacheWithTtl.Get_of_sentinel hset2 (le_refl _) now2
  · intro k entry hs
    have hz := runTtlOps_expiration_zero ops
      (show (NewLruMemoryCacheWithTtl maxSize ttl : LruMemoryCacheWithTtl V).ttl ≤ 0 from httl)
      (by intro p hp; simp [NewLruMemoryCacheWithTtl] at hp) (k, entry) (mapLoad_mem hs)
    refine ⟨hz, ?_⟩
    intro now
    exact LruMemoryCacheWithTtl.Get_of_sentinel hs (le_of_eq hz) now

/-- C11 on a cache with `maxSize` 3 and `ttl` 0: `a` is set at time 5 and read at time
1000000. -/
theorem nonpositive_ttl_never_expires_witness :
    (0 : Int) ≤ 0 ∧
    mapLoad ((runTtlOps (NewLruMemoryCacheWithTtl 3 0) [TtlOp.set 1 "b" 2]).Set 5 "a" 1).store
      "a" = some { Value := 1, Expiration := 0 } ∧
    (((runTtlOps (NewLruMemoryCacheWithTtl 3 0) [TtlOp.set 1 "b" 2]).Set 5 "a" 1).Get
      1000000 "a").1 = some 1 :=
  ⟨by decide,
    ((nonpositive_ttl_never_expires 3 0 (by decide) [TtlOp.set 1 "b" 2]).1 5 "a" 1).1,
    ((nonpositive_ttl_never_expires 3 0 (by decide) [TtlOp.set 1 "b" 2]).1 5 "a" 1).2
      1000000⟩

end GoMemCache

namespace GoMemCache

/-! ## Writes reset the expiration, reads do not -/

theorem LruMemoryCacheWithTtl.Set_store_selfTtl {V : Type} {mc : LruMemoryCacheWithTtl V}
    (hinv : mc.Inv) (now : Int) (k : String) (v : V) :
    mapLoad (mc.Set now k v).store k
      = some { Value := v, Expiration := mc.getExpirationTime now } := by
  have hinv2 : mc.toPlain.Inv := hinv
  have h := LruMemoryCache.Set_store_self hinv2 k
    ({ Value := v, Expiration := mc.getExpirationTime now } : CacheEntry V)
  rw [← LruMemoryCacheWithTtl.toPlain_Set] at h
  exact h

theorem LruMemoryCacheWithTtl.Get_live_store {V : Type} {mc : LruMemoryCacheWithTtl V}
    {k : String} {entry : CacheEntry V} (hs : mapLoad mc.store k = some entry) {now : Int}
    (hx : ¬ LruMemoryCacheWithTtl.expired entry now) : (mc.Get now k).2.store = mc.store := by
  have h := congrArg LruMemoryCache.store (LruMemoryCacheWithTtl.Get_of_live hs hx).2.1
  rw [(LruMemoryCache.Get_snd_fields mc.toPlain k).1] at h
  exact h

/-- When `now + ttl` is below 2^63: in a reachable state of a TTL cache with `ttl > 0`,
`Set k v` at the clock reading `t` of a key that is already stored binds `k` to the entry
with value `v` and expiration `t + ttl`, whatever the old entry was (expired and unread or
not), without changing the number of stored entries, and a `Get k` right after it at any
time `now <= t + ttl` returns `(v, true)`. -/
theorem set_present_resets_expiration {V : Type} (mc : LruMemoryCacheWithTtl V) (t : Int)
    (k : String) (v : V) (hr : TtlReachable mc) (httl : 0 < mc.ttl)
    (hk : (mapLoad mc.store k).isSome) (ht : ClockReading t)
    (hrange : t + mc.ttl < 9223372036854775808) :
    mapLoad (mc.Set t k v).store k = some { Value := v, Expiration := t + mc.ttl } ∧
    (mc.Set t k v).store.length = mc.store.length ∧
    ∀ now : Int, now ≤ t + mc.ttl → ((mc.Set t k v).Get now k).1 = some v := by
  have hset := LruMemoryCacheWithTtl.Set_store_selfTtl hr.invTtl t k v
  rw [getExpirationTime_of_range httl ht.1 hrange] at hset
  have hinv : mc.toPlain.Inv := hr.invTtl
  have hk2 : (mapLoad mc.toPlain.store k).isSome := hk
  have hlen := (LruMemoryCache.Set_present_spec hinv hk2
    ({ Value := v, Expiration := mc.getExpirationTime t } : CacheEntry V)).2.2.2.1
  rw [← LruMemoryCacheWithTtl.toPlain_Set] at hlen
  refine ⟨hset, hlen, ?_⟩
  intro now hnow
  have hx : ¬ LruMemoryCacheWithTtl.expired
      ({ Value := v, Expiration := t + mc.ttl } : CacheEntry V) now := by
    intro hx
    exact absurd hx.2 (not_lt.mpr hnow)
  exact (LruMemoryCacheWithTtl.Get_of_live hset hx).1

/-- The TTL cache with ttl 10 holding `a` with expiration 11: at time 50 the entry of `a`
has expired unread; `Set` at 50 stores expiration 60 and `Get` at 60 hits. -/
theorem set_present_resets_expiration_witness :
    (0 : Int) < fullTtl.ttl ∧ (mapLoad fullTtl.store "a").isSome ∧ ClockReading 50 ∧
    (50 : Int) + fullTtl.ttl < 9223372036854775808 ∧
    mapLoad (fullTtl.Set 50 "a" 7).store "a"
      = some { Value := 7, Expiration := 50 + fullTtl.ttl } ∧
    ((fullTtl.Set 50 "a" 7).Get 60 "a").1 = some 7 :=
  ⟨by decide, by decide, ⟨by decide, by decide⟩, by decide,
    (set_present_resets_expiration fullTtl 50 "a" 7 ⟨2, 10, _, rfl⟩ (by decide)
      (by decide) ⟨by decide, by decide⟩ (by decide)).1,
    (set_present_resets_expiration fullTtl 50 "a" 7 ⟨2, 10, _, rfl⟩ (by decide)
      (by decide) ⟨by decide, by decide⟩ (by decide)).2.2 60 (by decide)⟩

/-- C12, the code at an input where the claim fails: a TTL cache created with the largest
`time.Duration`, 2^63 - 1 nanoseconds, holds `a`, set at the clock reading
1700000000000000000. `Set a` at the clock reading `t` = 1700000000000000001 computes
`t + ttl` = 10923372036854775808 as an int64 and stores the expiration
-7523372036854775808, not `t + ttl`. The entry is then never treated as expired: `Get a`
hits at every clock reading. -/
theorem set_present_expiration_overflows :
    (0 : Int) < 9223372036854775807 ∧ ClockReading 1700000000000000001 ∧
    (mapLoad (runTtlOps (NewLruMemoryCacheWithTtl 3 9223372036854775807)
      [TtlOp.set 1700000000000000000 "a" (1 : Nat)]).store "a").isSome = true ∧
    mapLoad ((runTtlOps (NewLruMemoryCacheWithTtl 3 9223372036854775807)
      [TtlOp.set 1700000000000000000 "a" (1 : Nat)]).Set 1700000000000000001 "a" 2).store "a"
      = some { Value := 2, Expiration := -7523372036854775808 } ∧
    (-7523372036854775808 : Int) ≠ 1700000000000000001 + 9223372036854775807 ∧
    (∀ now : Int,
      (((runTtlOps (NewLruMemoryCacheWithTtl 3 9223372036854775807)
        [TtlOp.set 1700000000000000000 "a" (1 : Nat)]).Set 1700000000000000001 "a" 2).Get now
          "a").1 = some 2) := by
  have hstore : mapLoad ((runTtlOps (NewLruMemoryCacheWithTtl 3 9223372036854775807)
      [TtlOp.set 1700000000000000000 "a" (1 : Nat)]).Set 1700000000000000001 "a" 2).store "a"
      = some { Value := 2, Expiration := -7523372036854775808 } := by decide
  refine ⟨by decide, ⟨by decide, by decide⟩, by decide, hstore, by decide, ?_⟩
  intro now
  exact LruMemoryCacheWithTtl.Get_of_sentinel hstore (by decide) now

/-- C13: in a reachable state of a TTL cache with `ttl > 0`, a `Get k` that hits leaves the
value store, hence the value and the expiration of `k`, and the key index unchanged and
only moves `k` to the front of the recency list; so after `Set k v` at the clock reading
`t0` and a `Get k` at `t1 <= t0 + ttl`, which hits, a `Get k` at any clock reading
`now > t0 + ttl` returns not-found, also when `now <= t1 + ttl`. -/
theorem get_hit_does_not_extend_lifetime {V : Type} (mc : LruMemoryCacheWithTtl V)
    (k : String) (v : V) (hr : TtlReachable mc) (httl : 0 < mc.ttl) :
    (∀ now : Int, (mc.Get now k).1 = some v →
      (mc.Get now k).2.store = mc.store ∧
      (mc.Get now k).2.keyToElement = mc.keyToElement ∧
      listKeys (mc.Get now k).2.order = k :: keysWithout (listKeys mc.order) k) ∧
    (∀ t0 t1 now : Int, ClockReading t0 → ClockReading now → t1 ≤ t0 + mc.ttl →
      t0 + mc.ttl < now →
      ((mc.Set t0 k v).Get t1 k).1 = some v ∧
      mapLoad ((mc.Set t0 k v).Get t1 k).2.store k
        = some { Value := v, Expiration := t0 + mc.ttl } ∧
      (((mc.Set t0 k v).Get t1 k).2.Get now k).1 = none) := by
  constructor
  · intro now hhit
    have h := LruMemoryCacheWithTtl.Get_hit_spec hr.invTtl hhit
    exact ⟨h.2.1, h.2.2.1, h.1⟩
  · intro t0 t1 now ht0 hclock ht1 hnow
    have hpos : 0 < t0 + mc.ttl := by
      have := ht0.1
      omega
    have hset := LruMemoryCacheWithTtl.Set_store_selfTtl hr.invTtl t0 k v
    rw [getExpirationTime_of_range httl ht0.1 (by have := hclock.2; omega)] at hset
    have hlive : ¬ LruMemoryCacheWithTtl.expired
        ({ Value := v, Expiration := t0 + mc.ttl } : CacheEntry V) t1 := by
      intro hx
      exact absurd hx.2 (not_lt.mpr ht1)
    have hstore := LruMemoryCacheWithTtl.Get_live_store hset hlive
    have hafter : mapLoad ((mc.Set t0 k v).Get t1 k).2.store k
        = some { Value := v, Expiration := t0 + mc.ttl } := by
      rw [hstore]
      exact hset
    have hx : LruMemoryCacheWithTtl.expired
        ({ Value := v, Expiration := t0 + mc.ttl } : CacheEntry V) now := ⟨hpos, hnow⟩
    refine ⟨(LruMemoryCacheWithTtl.Get_of_live hset hlive).1, hafter, ?_⟩
    rw [LruMemoryCacheWithTtl.Get_of_expired hafter hx]

/-- C13 on a new TTL cache with ttl 10: `Set a` at time 1, a hit at time 8, and a miss at
time 12, which is later than 1 + 10 and not later than 8 + 10. -/
theorem get_hit_does_not_extend_lifetime_witness :
    (0 : Int) < (NewLruMemoryCacheWithTtl 2 10 : LruMemoryCacheWithTtl Nat).ttl ∧
    ClockReading 1 ∧ ClockReading 12 ∧ (8 : Int) ≤ 1 + 10 ∧ (1 : Int) + 10 < 12 ∧
    (12 : Int) ≤ 8 + 10 ∧
    (((NewLruMemoryCacheWithTtl 2 10 : LruMemoryCacheWithTtl Nat).Set 1 "a" 1).Get 8 "a").1
      = some 1 ∧
    ((((NewLruMemoryCacheWithTtl 2 10 : LruMemoryCacheWithTtl Nat).Set 1 "a" 1).Get 8
      "a").2.Get 12 "a").1 = none :=
  ⟨by decide, ⟨by decide, by decide⟩, ⟨by decide, by decide⟩, by decide, by decide, by decide,
    ((get_hit_does_not_extend_lifetime (NewLruMemoryCacheWithTtl 2 10) "a" 1 ⟨2, 10, [], rfl⟩
      (by decide)).2 1 8 12 ⟨by decide, by decide⟩ ⟨by decide, by decide⟩ (by decide)
      (by decide)).1,
    ((get_hit_does_not_extend_lifetime (NewLruMemoryCacheWithTtl 2 10) "a" 1 ⟨2, 10, [], rfl⟩
      (by decide)).2 1 8 12 ⟨by decide, by decide⟩ ⟨by decide, by decide⟩ (by decide)
      (by decide)).2.2⟩

end GoMemCache

namespace GoMemCache

/-! ## The calls do not look into the stored values -/

theorem mapLoad_map {β γ : Type} (g : β → γ) (m : List (String × β)) (k : String) :
    mapLoad (m.map (fun p => (p.1, g p.2))) k = (mapLoad m k).map g := by
  induction m with
  | nil => rfl
  | cons p rest ih =>
    obtain ⟨k2, b⟩ := p
    by_cases hk : k2 = k
    · simp [mapLoad, hk]
    · simp only [List.map_cons, mapLoad, if_neg hk]
      exact ih

theorem mapDelete_map {β γ : Type} (g : β → γ) (m : List (String × β)) (k : String) :
    mapDelete (m.map (fun p => (p.1, g p.2))) k
      = (mapDelete m k).map (fun p => (p.1, g p.2)) := by
  induction m with
  | nil => rfl
  | cons p rest ih =>
    obtain ⟨k2, b⟩ := p
    simp only [mapDelete] at ih
    by_cases hk : k2 = k
    · simp [mapDelete, hk, ih]
    · simp [mapDelete, hk, ih]

theorem mapStore_map {β γ : Type} (g : β → γ) (m : List (String × β)) (k : String) (b : β) :
    mapStore (m.map (fun p => (p.1, g p.2))) k (g b)
      = (mapStore m k b).map (fun p => (p.1, g p.2)) := by
  simp [mapStore, mapDelete_map]

namespace LruMemoryCache

variable {V W : Type}

theorem mapValues_evictOldest (g : V → W) (mc : LruMemoryCache V) :
    (mc.evictOldest).mapValues g = (mc.mapValues g).evictOldest := by
  unfold evictOldest
  simp only [mapValues]
  cases Back mc.order with
  | none => rfl
  | some oldest => simp [mapDelete_map]

theorem mapValues_removeKey (g : V → W) (mc : LruMemoryCache V) (key : String) :
    (mc.removeKey key).mapValues g = (mc.mapValues g).removeKey key := by
  unfold removeKey
  simp only [mapValues]
  cases mapLoad mc.keyToElement key with
  | none => rfl
  | some elem => rfl

theorem mapValues_Set (g : V → W) (mc : LruMemoryCache V) (key : String) (value : V) :
    (mc.Set key value).mapValues g = (mc.mapValues g).Set key (g value) := by
  unfold Set
  have hix : (mc.mapValues g).keyToElement = mc.keyToElement := rfl
  rw [hix]
  cases mapLoad mc.keyToElement key with
  | some elem =>
    simp only [mapValues]
    rw [mapStore_map]
  | none =>
    simp only
    have hm : (mc.mapValues g).maxSize = mc.maxSize := rfl
    have ho : (mc.mapValues g).order = mc.order := rfl
    have hn : (mc.mapValues g).nextId = mc.nextId := rfl
    rw [hm, ho, hn]
    by_cases hc : mc.maxSize > 0 ∧
        ((PushFront mc.order { id := mc.nextId, Value := key }).length : Int) > mc.maxSize
    · rw [if_pos hc, if_pos hc, mapValues_evictOldest]
      simp only [mapValues]
      rw [mapStore_map]
    · rw [if_neg hc, if_neg hc]
      simp only [mapValues]
      rw [mapStore_map]

theorem mapValues_Delete (g : V → W) (mc : LruMemoryCache V) (key : String) :
    (mc.Delete key).mapValues g = (mc.mapValues g).Delete key := by
  unfold Delete
  have hs : (mc.mapValues g).store = mc.store.map (fun p => (p.1, g p.2)) := rfl
  rw [hs, mapLoad_map]
  cases mapLoad mc.store key with
  | none => rfl
  | some old =>
    simp only [Option.map_some']
    rw [mapValues_removeKey]
    simp only [mapValues]
    rw [mapDelete_map]

theorem mapValues_Get (g : V → W) (mc : LruMemoryCache V) (key : String) :
    ((mc.mapValues g).Get key).1 = ((mc.Get key).1).map g ∧
      ((mc.mapValues g).Get key).2 = (mc.Get key).2.mapValues g := by
  unfold Get
  have hs : (mc.mapValues g).store = mc.store.map (fun p => (p.1, g p.2)) := rfl
  have hix : (mc.mapValues g).keyToElement = mc.keyToElement := rfl
  rw [hs, mapLoad_map, hix]
  cases mapLoad mc.store key with
  | none => exact ⟨rfl, rfl⟩
  | some old =>
    simp only [Option.map_some']
    cases mapLoad mc.keyToElement key with
    | none => exact ⟨rfl, rfl⟩
    | some elem => exact ⟨rfl, rfl⟩

end LruMemoryCache

namespace LruMemoryCacheWithTtl

variable {V : Type}

theorem values_Set (mc : LruMemoryCacheWithTtl V) (now : Int) (key : String) (value : V) :
    (mc.Set now key value).values = mc.values.Set key value := by
  unfold values
  rw [toPlain_Set, LruMemoryCache.mapValues_Set]

theorem values_Delete (mc : LruMemoryCacheWithTtl V) (key : String) :
    (mc.Delete key).values = mc.values.Delete key := by
  unfold values
  rw [toPlain_Delete, LruMemoryCache.mapValues_Delete]

theorem values_Get {mc : LruMemoryCacheWithTtl V} (hz : ∀ p ∈ mc.store, p.2.Expiration = 0)
    (now : Int) (key : String) :
    (mc.Get now key).1 = (mc.values.Get key).1 ∧
      (mc.Get now key).2.values = (mc.values.Get key).2 := by
  have hp := LruMemoryCache.mapValues_Get CacheEntry.Value mc.toPlain key
  cases hs : mapLoad mc.store key with
  | none =>
    have hs2 : mapLoad mc.toPlain.store key = none := hs
    rw [Get_of_none hs]
    unfold values
    rw [hp.1, hp.2, LruMemoryCache.Get_fst, hs2, LruMemoryCache.Get_snd_of_miss hs2]
    exact ⟨rfl, rfl⟩
  | some entry =>
    have hs2 : mapLoad mc.toPlain.store key = some entry := hs
    have h0 : entry.Expiration = 0 := hz (key, entry) (mapLoad_mem hs)
    have hx : ¬ expired entry now := fun hx => absurd hx.1 (by rw [h0]; exact lt_irrefl 0)
    obtain ⟨h1, h2, -⟩ := Get_of_live hs hx
    unfold values
    rw [hp.1, hp.2, LruMemoryCache.Get_fst, hs2, h1, h2]
    exact ⟨rfl, rfl⟩

end LruMemoryCacheWithTtl

theorem values_runTtlOps {V : Type} (ops : List (TtlOp V)) {mc : LruMemoryCacheWithTtl V}
    (httl : mc.ttl ≤ 0) (hz : ∀ p ∈ mc.store, p.2.Expiration = 0) :
    (runTtlOps mc ops).values = runOps mc.values (ops.map TtlOp.toOp) := by
  induction ops generalizing mc with
  | nil => rfl
  | cons op rest ih =>
    have httl2 : (TtlOp.apply mc op).ttl ≤ 0 := by
      rw [(maxSize_applyTtl mc op).2]
      exact httl
    have hz2 : ∀ p ∈ (TtlOp.apply mc op).store, p.2.Expiration = 0 :=
      runTtlOps_expiration_zero [op] httl hz
    have hstep : (TtlOp.apply mc op).values = Op.apply mc.values (TtlOp.toOp op) := by
      cases op with
      | set now key value => exact LruMemoryCacheWithTtl.values_Set mc now key value
      | get now key => exact (LruMemoryCacheWithTtl.values_Get hz now key).2
      | delete now key => exact LruMemoryCacheWithTtl.values_Delete mc key
    show (runTtlOps (TtlOp.apply mc op) rest).values
      = runOps (Op.apply mc.values (TtlOp.toOp op)) (rest.map TtlOp.toOp)
    rw [ih httl2 hz2, hstep]

/-- C16: for every `maxSize`, every `ttl <= 0` and every sequence of calls at arbitrary
clock readings, the TTL cache and the plain cache that receives the same calls agree after
the sequence, hence after every step: same recency list, same key index, same keys bound
to the same values in the store, and every `Get` at any time returns the same result in
both. -/
theorem ttl_cache_without_ttl_equals_plain_cache {V : Type} (maxSize ttl : Int)
    (httl : ttl ≤ 0) (ops : List (TtlOp V)) :
    (runTtlOps (NewLruMemoryCacheWithTtl maxSize ttl) ops).order
      = (runOps (NewLruMemoryCache maxSize) (ops.map TtlOp.toOp)).order ∧
    (runTtlOps (NewLruMemoryCacheWithTtl maxSize ttl) ops).keyToElement
      = (runOps (NewLruMemoryCache maxSize) (ops.map TtlOp.toOp)).keyToElement ∧
    (runTtlOps (NewLruMemoryCacheWithTtl maxSize ttl) ops).store.map
        (fun p => (p.1, p.2.Value))
      = (runOps (NewLruMemoryCache maxSize) (ops.map TtlOp.toOp)).store ∧
    (∀ k : String,
      (mapLoad (runTtlOps (NewLruMemoryCacheWithTtl maxSize ttl) ops).store k).map
          CacheEntry.Value
        = mapLoad (runOps (NewLruMemoryCache maxSize) (ops.map TtlOp.toOp)).store k) ∧
    (∀ (now : Int) (k : String),
      ((runTtlOps (NewLruMemoryCacheWithTtl maxSize ttl) ops).Get now k).1
        = ((runOps (NewLruMemoryCache maxSize) (ops.map TtlOp.toOp)).Get k).1) := by
  have hz0 : ∀ p ∈ (NewLruMemoryCacheWithTtl maxSize ttl : LruMemoryCacheWithTtl V).store,
      p.2.Expiration = 0 := by
    intro p hp
    simp [NewLruMemoryCacheWithTtl] at hp
  have httl0 : (NewLruMemoryCacheWithTtl maxSize ttl : LruMemoryCacheWithTtl V).ttl ≤ 0 := httl
  have hrun := values_runTtlOps ops httl0 hz0
  have hnew : (NewLruMemoryCacheWithTtl maxSize ttl : LruMemoryCacheWithTtl V).values
      = NewLruMemoryCache maxSize := rfl
  rw [hnew] at hrun
  have hz := runTtlOps_expiration_zero ops httl0 hz0
  refine ⟨?_, ?_, ?_, ?_, ?_⟩
  · exact congrArg LruMemoryCache.order hrun
  · exact congrArg LruMemoryCache.keyToElement hrun
  · exact congrArg LruMemoryCache.store hrun
  · intro k
    rw [← hrun]
    exact (mapLoad_map CacheEntry.Value _ k).symm
  · intro now k
    rw [← hrun]
    exact (LruMemoryCacheWithTtl.values_Get hz now k).1

/-- C16 with `maxSize` 2 and `ttl` 0 on five calls: the read of `a` at time 1000 gives the
same result in both caches. -/
theorem ttl_cache_without_ttl_equals_plain_cache_witness :
    (0 : Int) ≤ 0 ∧
    (runTtlOps (NewLruMemoryCacheWithTtl 2 0) [TtlOp.set 0 "a" 1, TtlOp.set 5 "b" 2,
        TtlOp.get 900 "a", TtlOp.set 901 "c" 3, TtlOp.delete 902 "c"]).order
      = (runOps (NewLruMemoryCache 2) ([TtlOp.set 0 "a" 1, TtlOp.set 5 "b" 2,
        TtlOp.get 900 "a", TtlOp.set 901 "c" 3, TtlOp.delete 902 "c"].map TtlOp.toOp)).order ∧
    ((runTtlOps (NewLruMemoryCacheWithTtl 2 0) [TtlOp.set 0 "a" 1, TtlOp.set 5 "b" 2,
        TtlOp.get 900 "a", TtlOp.set 901 "c" 3, TtlOp.delete 902 "c"]).Get 1000 "a").1
      = ((runOps (NewLruMemoryCache 2) ([TtlOp.set 0 "a" 1, TtlOp.set 5 "b" 2,
        TtlOp.get 900 "a", TtlOp.set 901 "c" 3, TtlOp.delete 902 "c"].map TtlOp.toOp)).Get
        "a").1 :=
  ⟨by decide,
    (ttl_cache_without_ttl_equals_plain_cache 2 0 (by decide) [TtlOp.set 0 "a" 1,
      TtlOp.set 5 "b" 2, TtlOp.get 900 "a", TtlOp.set 901 "c" 3, TtlOp.delete 902 "c"]).1,
    (ttl_cache_without_ttl_equals_plain_cache 2 0 (by decide) [TtlOp.set 0 "a" 1,
      TtlOp.set 5 "b" 2, TtlOp.get 900 "a", TtlOp.set 901 "c" 3,
      TtlOp.delete 902 "c"]).2.2.2.2 1000 "a"⟩

end GoMemCache

namespace GoMemCache

/-! ## Scenarios -/

/-- C17, the scenario as stated fails: on a new plain cache with `maxSize` 3, after
`Set a`, `Set b`, `Set c`, `Set d` with no `Get` in between, `Get b` hits and `Get a`
returns not-found. -/
theorem four_sets_keep_second_key_counterexample :
    ((runOps (NewLruMemoryCache 3)
      [Op.set "a" 1, Op.set "b" 2, Op.set "c" 3, Op.set "d" 4]).Get "b").1 = some 2 ∧
    ((runOps (NewLruMemoryCache 3)
      [Op.set "a" 1, Op.set "b" 2, Op.set "c" 3, Op.set "d" 4]).Get "a").1 = none := by
  decide

/-- C17, amended: on a new plain cache with `maxSize` 3, after `Set a`, `Set b`, `Set c`,
`Set d` with no `Get` in between, the recency list is `d, c, b`: `Get a` returns not-found
(`a` was evicted as oldest) and `Get b`, `Get c`, `Get d` hit with their values. With a
`Get a` between `Set c` and `Set d`, as in the test of the repository, `b` is the key that
is evicted and `a`, `c`, `d` hit. -/
theorem four_sets_evict_first_key :
    listKeys (runOps (NewLruMemoryCache 3)
      [Op.set "a" 1, Op.set "b" 2, Op.set "c" 3, Op.set "d" 4]).order = ["d", "c", "b"] ∧
    ((runOps (NewLruMemoryCache 3)
      [Op.set "a" 1, Op.set "b" 2, Op.set "c" 3, Op.set "d" 4]).Get "a").1 = none ∧
    ((runOps (NewLruMemoryCache 3)
      [Op.set "a" 1, Op.set "b" 2, Op.set "c" 3, Op.set "d" 4]).Get "b").1 = some 2 ∧
    ((runOps (NewLruMemoryCache 3)
      [Op.set "a" 1, Op.set "b" 2, Op.set "c" 3, Op.set "d" 4]).Get "c").1 = some 3 ∧
    ((runOps (NewLruMemoryCache 3)
      [Op.set "a" 1, Op.set "b" 2, Op.set "c" 3, Op.set "d" 4]).Get "d").1 = some 4 ∧
    ((runOps (NewLruMemoryCache 3)
      [Op.set "a" 1, Op.set "b" 2, Op.set "c" 3, Op.get "a", Op.set "d" 4]).Get "b").1
        = none ∧
    ((runOps (NewLruMemoryCache 3)
      [Op.set "a" 1, Op.set "b" 2, Op.set "c" 3, Op.get "a", Op.set "d" 4]).Get "a").1
        = some 1 ∧
    ((runOps (NewLruMemoryCache 3)
      [Op.set "a" 1, Op.set "b" 2, Op.set "c" 3, Op.get "a", Op.set "d" 4]).Get "c").1
        = some 3 ∧
    ((runOps (NewLruMemoryCache 3)
      [Op.set "a" 1, Op.set "b" 2, Op.set "c" 3, Op.get "a", Op.set "d" 4]).Get "d").1
        = some 4 := by
  decide

/-- C19: `Set` of the TTL cache acts on the keys, the recency list and the key index as the
plain `Set` acts on the state with the expirations dropped, so the eviction does not depend
on any expiration; and with `maxSize` 2 and `ttl` 10, after `Set e` at time 0, `Set l` at
time 1 and `Get e` at time 2, the `Set n` at time 11 evicts `l`, whose entry (expiration 11)
is not expired at time 11, while `e`, whose entry (expiration 10) is expired, stays in the
value store, the recency list and the key index. -/
theorem expired_entries_count_toward_maxSize {V : Type} :
    (∀ (mc : LruMemoryCacheWithTtl V) (now : Int) (k : String) (v : V),
      (mc.Set now k v).values = mc.values.Set k v) ∧
    mapLoad (runTtlOps (NewLruMemoryCacheWithTtl 2 10)
      [TtlOp.set 0 "e" 1, TtlOp.set 1 "l" 2, TtlOp.get 2 "e"]).store "l"
        = some { Value := 2, Expiration := 11 } ∧
    ¬ ((11 : Int) > 0 ∧ (11 : Int) > 11) ∧
    mapLoad (runTtlOps (NewLruMemoryCacheWithTtl 2 10)
      [TtlOp.set 0 "e" 1, TtlOp.set 1 "l" 2, TtlOp.get 2 "e"]).store "e"
        = some { Value := 1, Expiration := 10 } ∧
    ((10 : Int) > 0 ∧ (11 : Int) > 10) ∧
    mapLoad (runTtlOps (NewLruMemoryCacheWithTtl 2 10)
      [TtlOp.set 0 "e" 1, TtlOp.set 1 "l" 2, TtlOp.get 2 "e", TtlOp.set 11 "n" 3]).store "l"
        = none ∧
    mapLoad (runTtlOps (NewLruMemoryCacheWithTtl 2 10)
      [TtlOp.set 0 "e" 1, TtlOp.set 1 "l" 2, TtlOp.get 2 "e", TtlOp.set 11 "n" 3]).store "e"
        = some { Value := 1, Expiration := 10 } ∧
    listKeys (runTtlOps (NewLruMemoryCacheWithTtl 2 10)
      [TtlOp.set 0 "e" 1, TtlOp.set 1 "l" 2, TtlOp.get 2 "e", TtlOp.set 11 "n" 3]).order
        = ["n", "e"] ∧
    (mapLoad (runTtlOps (NewLruMemoryCacheWithTtl 2 10)
      [TtlOp.set 0 "e" 1, TtlOp.set 1 "l" 2, TtlOp.get 2 "e",
        TtlOp.set 11 "n" 3]).keyToElement "e").isSome = true := by
  refine ⟨?_, by decide, by decide, by decide, by decide, by decide, by decide, by decide,
    by decide⟩
  intro mc now k v
  exact LruMemoryCacheWithTtl.values_Set mc now k v

end GoMemCache

namespace GoMemCache

/-! ## The unbounded cache -/

theorem LruMemoryCache.Set_unbounded {V : Type} {mc : LruMemoryCache V} (h : mc.Inv)
    (hmax : mc.maxSize ≤ 0) (k : String) (v : V) :
    (mc.Set k v).store = mapStore mc.store k v ∧
      listKeys (mc.Set k v).order = k :: keysWithout (listKeys mc.order) k := by
  cases hk : mapLoad mc.store k with
  | some old =>
    obtain ⟨h1, -, -, h4, -⟩ := LruMemoryCache.Set_of_present h hk v
    exact ⟨h1, h4⟩
  | none =>
    have hroom : ¬ (mc.maxSize > 0 ∧ (mc.order.length : Int) + 1 > mc.maxSize) :=
      fun hc => absurd hc.1 (not_lt.mpr hmax)
    obtain ⟨h1, -, -, h4⟩ := LruMemoryCache.Set_of_absent_room h hk v hroom
    have hnot : k ∉ listKeys mc.order :=
      Consistent.not_mem_of_index_none h (h.index_none_of_not_stored hk)
    rw [keysWithout_eq_self hnot]
    exact ⟨h1, h4⟩

theorem Op.store_kept_unbounded {V : Type} {mc : LruMemoryCache V} (h : mc.Inv)
    (hmax : mc.maxSize ≤ 0) (k : String) (op : Op V)
    (hop : op ≠ Op.delete k ∧ ∀ v2, op ≠ Op.set k v2) :
    mapLoad (Op.apply mc op).store k = mapLoad mc.store k := by
  cases op with
  | set j v2 =>
    have hjk : k ≠ j := fun hjk => hop.2 v2 (hjk ▸ rfl)
    show mapLoad (mc.Set j v2).store k = mapLoad mc.store k
    rw [(LruMemoryCache.Set_unbounded h hmax j v2).1]
    exact mapLoad_mapStore_ne _ _ hjk
  | get j =>
    show mapLoad (mc.Get j).2.store k = mapLoad mc.store k
    rw [(LruMemoryCache.Get_snd_fields mc j).1]
  | delete j =>
    have hjk : k ≠ j := fun hjk => hop.1 (hjk ▸ rfl)
    show mapLoad (mc.Delete j).store k = mapLoad mc.store k
    rw [LruMemoryCache.Delete_store]
    exact mapLoad_mapDelete_ne _ hjk

theorem runOps_store_kept_unbounded {V : Type} (k : String) (post : List (Op V))
    (hpost : ∀ op ∈ post, op ≠ Op.delete k ∧ ∀ v2, op ≠ Op.set k v2)
    {mc : LruMemoryCache V} (h : mc.Inv) (hmax : mc.maxSize ≤ 0) :
    mapLoad (runOps mc post).store k = mapLoad mc.store k := by
  induction post generalizing mc with
  | nil => rfl
  | cons op rest ih =>
    have h1 := Op.store_kept_unbounded h hmax k op (hpost op (List.mem_cons_self _ _))
    have hmax2 : (Op.apply mc op).maxSize ≤ 0 := by
      have := maxSize_runOps [op] mc
      rw [show (Op.apply mc op).maxSize = mc.maxSize from this]
      exact hmax
    have h2 := ih (fun o ho => hpost o (List.mem_cons_of_mem _ ho)) (Inv_apply h op) hmax2
    show mapLoad (runOps (Op.apply mc op) rest).store k = mapLoad mc.store k
    rw [h2, h1]

theorem runOps_append {V : Type} (mc : LruMemoryCache V) (pre : List (Op V)) (op : Op V)
    (post : List (Op V)) :
    runOps mc (pre ++ op :: post) = runOps (Op.apply (runOps mc pre) op) post := by
  simp [runOps, List.foldl_append]

/-- C15: in a plain cache created with `maxSize <= 0`, `Set` never evicts: after any
sequence of calls a `Set` keeps every key of the recency list and binds its key by a plain
store; and a key that was set to `v` and neither set again nor deleted by the calls that
follow is found by `Get` with the value `v`, whatever calls came before and after. -/
theorem unbounded_cache_never_evicts {V : Type} (maxSize : Int) (hmax : maxSize ≤ 0)
    (pre post : List (Op V)) (k : String) (v : V)
    (hpost : ∀ op ∈ post, op ≠ Op.delete k ∧ ∀ v2, op ≠ Op.set k v2) :
    ((runOps (NewLruMemoryCache maxSize) (pre ++ Op.set k v :: post)).Get k).1 = some v ∧
    (∀ (k2 : String) (v2 : V),
      ((runOps (NewLruMemoryCache maxSize) pre).Set k2 v2).store
        = mapStore (runOps (NewLruMemoryCache maxSize) pre).store k2 v2 ∧
      listKeys ((runOps (NewLruMemoryCache maxSize) pre).Set k2 v2).order
        = k2 :: keysWithout (listKeys (runOps (NewLruMemoryCache maxSize) pre).order) k2 ∧
      ∀ j, j ∈ listKeys (runOps (NewLruMemoryCache maxSize) pre).order →
        j ∈ listKeys ((runOps (NewLruMemoryCache maxSize) pre).Set k2 v2).order) := by
  have hinv : (runOps (NewLruMemoryCache maxSize : LruMemoryCache V) pre).Inv :=
    Inv_runOps pre (LruMemoryCache.Inv_New maxSize)
  have hmax1 : (runOps (NewLruMemoryCache maxSize : LruMemoryCache V) pre).maxSize ≤ 0 := by
    rw [maxSize_runOps]
    exact hmax
  constructor
  · rw [runOps_append, LruMemoryCache.Get_fst]
    have hinv2 : (Op.apply (runOps (NewLruMemoryCache maxSize : LruMemoryCache V) pre)
        (Op.set k v)).Inv := Inv_apply hinv _
    have hmax2 : (Op.apply (runOps (NewLruMemoryCache maxSize : LruMemoryCache V) pre)
        (Op.set k v)).maxSize ≤ 0 := by
      have := maxSize_runOps [Op.set k v] (runOps (NewLruMemoryCache maxSize) pre)
      rw [show (Op.apply (runOps (NewLruMemoryCache maxSize : LruMemoryCache V) pre)
        (Op.set k v)).maxSize = (runOps (NewLruMemoryCache maxSize) pre).maxSize from this]
      exact hmax1
    rw [runOps_store_kept_unbounded k post hpost hinv2 hmax2]
    exact LruMemoryCache.Set_store_self hinv k v
  · intro k2 v2
    obtain ⟨h1, h2⟩ := LruMemoryCache.Set_unbounded hinv hmax1 k2 v2
    refine ⟨h1, h2, ?_⟩
    intro j hj
    rw [h2]
    by_cases hjk : j = k2
    · rw [hjk]
      exact List.mem_cons_self _ _
    · exact List.mem_cons_of_mem _ (mem_keysWithout.mpr ⟨hj, hjk⟩)

/-- C15 with `maxSize` 0 and with `maxSize` -1: `a` is set, five other calls follow, and
`Get a` returns its value. -/
theorem unbounded_cache_never_evicts_witness :
    (0 : Int) ≤ 0 ∧ (-1 : Int) ≤ 0 ∧
    ((runOps (NewLruMemoryCache 0) ([Op.set "a" 0, Op.delete "a"] ++ Op.set "a" 1 ::
      [Op.set "b" 2, Op.set "c" 3, Op.get "b", Op.delete "c", Op.set "d" 4])).Get "a").1
        = some 1 ∧
    ((runOps (NewLruMemoryCache (-1)) ([Op.set "a" 0, Op.delete "a"] ++ Op.set "a" 1 ::
      [Op.set "b" 2, Op.set "c" 3, Op.get "b", Op.delete "c", Op.set "d" 4])).Get "a").1
        = some 1 :=
  ⟨by decide, by decide,
    (unbounded_cache_never_evicts 0 (by decide) [Op.set "a" 0, Op.delete "a"]
      [Op.set "b" 2, Op.set "c" 3, Op.get "b", Op.delete "c", Op.set "d" 4] "a" 1
      (by
        intro op hop
        simp only [List.mem_cons, List.mem_singleton, List.not_mem_nil, or_false] at hop
        rcases hop with h | h | h | h | h <;> subst h <;> simp)).1,
    (unbounded_cache_never_evicts (-1) (by decide) [Op.set "a" 0, Op.delete "a"]
      [Op.set "b" 2, Op.set "c" 3, Op.get "b", Op.delete "c", Op.set "d" 4] "a" 1
      (by
        intro op hop
        simp only [List.mem_cons, List.mem_singleton, List.not_mem_nil, or_false] at hop
        rcases hop with h | h | h | h | h <;> subst h <;> simp)).1⟩

end GoMemCache

namespace GoMemCache

/-! ## Lists of keys: taking out a key, truncating, dropping the last key -/

theorem keysWithout_cons_self (l : List String) (k : String) :
    keysWithout (k :: l) k = keysWithout l k := by
  simp [keysWithout]

theorem keysWithout_cons_ne {l : List String} {a k : String} (h : a ≠ k) :
    keysWithout (a :: l) k = a :: keysWithout l k := by
  simp [keysWithout, h]

theorem keysWithout_sublist (l : List String) (k : String) : (keysWithout l k).Sublist l :=
  List.filter_sublist l

theorem length_keysWithout_of_mem {l : List String} (hn : l.Nodup) {k : String}
    (hk : k ∈ l) : (keysWithout l k).length + 1 = l.length := by
  induction l with
  | nil => simp at hk
  | cons a rest ih =>
    have hn2 := (List.nodup_cons.mp hn).2
    have ha := (List.nodup_cons.mp hn).1
    by_cases hak : a = k
    · subst hak
      rw [keysWithout_cons_self, keysWithout_eq_self ha]
      rfl
    · have hk2 : k ∈ rest := by
        rcases List.mem_cons.mp hk with h | h
        · exact absurd h.symm hak
        · exact h
      rw [keysWithout_cons_ne hak, List.length_cons, List.length_cons, ih hn2 hk2]

theorem keysWithout_take_of_mem {l : List String} (hn : l.Nodup) {k : String} (m : Nat)
    (hk : k ∈ l.take (m + 1)) : keysWithout (l.take (m + 1)) k = (keysWithout l k).take m := by
  induction l generalizing m with
  | nil => simp at hk
  | cons a rest ih =>
    have hn2 := (List.nodup_cons.mp hn).2
    have ha := (List.nodup_cons.mp hn).1
    rw [List.take_succ_cons] at hk ⊢
    by_cases hak : a = k
    · subst hak
      have h1 : a ∉ rest.take m := fun h => ha (List.mem_of_mem_take h)
      rw [keysWithout_cons_self, keysWithout_cons_self, keysWithout_eq_self h1,
        keysWithout_eq_self ha]
    · have hk2 : k ∈ rest.take m := by
        rcases List.mem_cons.mp hk with h | h
        · exact absurd h.symm hak
        · exact h
      cases m with
      | zero => simp at hk2
      | succ m2 =>
        rw [keysWithout_cons_ne hak, keysWithout_cons_ne hak, List.take_succ_cons,
          ih hn2 m2 hk2]

theorem take_keysWithout_of_not_mem {l : List String} {k : String} (n : Nat)
    (hk : k ∉ l.take n) : (keysWithout l k).take n = l.take n := by
  induction l generalizing n with
  | nil => simp [keysWithout]
  | cons a rest ih =>
    cases n with
    | zero => simp
    | succ m =>
      rw [List.take_succ_cons] at hk
      have hak : a ≠ k := fun h => hk (h ▸ List.mem_cons_self _ _)
      have hk2 : k ∉ rest.take m := fun h => hk (List.mem_cons_of_mem _ h)
      rw [keysWithout_cons_ne hak, List.take_succ_cons, List.take_succ_cons, ih m hk2]

theorem capAt_of_le {n : Nat} {l : List String} (h : l.length ≤ n) : capAt n l = l := by
  unfold capAt
  rw [if_neg (not_lt.mpr h)]

theorem capAt_of_gt {n : Nat} {l : List String} (h : l.length > n) :
    capAt n l = l.dropLast := by
  unfold capAt
  rw [if_pos h]

/-- Moving `k` to the front of the first `n` keys and cutting back to `n` keys gives the
first `n` keys of the whole list with `k` moved to the front. -/
theorem capAt_moveToFront_take {l : List String} (hn : l.Nodup) (k : String) {n : Nat}
    (hpos : 0 < n) :
    capAt n (k :: keysWithout (l.take n) k) = (k :: keysWithout l k).take n := by
  obtain ⟨m, rfl⟩ : ∃ m, n = m + 1 := ⟨n - 1, by omega⟩
  rw [List.take_succ_cons]
  by_cases hk : k ∈ l.take (m + 1)
  · rw [keysWithout_take_of_mem hn m hk]
    apply capAt_of_le
    simp only [List.length_cons, List.length_take]
    omega
  · rw [keysWithout_eq_self hk]
    have hk2 : k ∉ l.take m := fun h =>
      hk ((List.take_sublist_take_left l (Nat.le_succ m)).subset h)
    rw [take_keysWithout_of_not_mem m hk2]
    by_cases hlen : l.length ≤ m
    · rw [List.take_of_length_le (le_trans hlen (Nat.le_succ m)), List.take_of_length_le hlen]
      apply capAt_of_le
      simp only [List.length_cons]
      omega
    · have hlen2 : m + 1 ≤ l.length := by omega
      rw [capAt_of_gt (by simp only [List.length_cons, List.length_take]; omega)]
      have hne : l.take (m + 1) ≠ [] := by
        intro h0
        have := congrArg List.length h0
        simp only [List.length_take, List.length_nil] at this
        omega
      rw [List.dropLast_cons_of_ne_nil hne, List.dropLast_eq_take, List.take_take,
        List.length_take]
      congr 2
      omega

theorem sublist_dropLast {α : Type} {a b : List α} (h : a.Sublist b) :
    a.dropLast.Sublist b.dropLast := by
  induction h with
  | slnil => exact List.Sublist.slnil
  | @cons a2 b2 x hab ih =>
    cases b2 with
    | nil =>
      have : a2 = [] := List.sublist_nil.mp hab
      subst this
      exact List.nil_sublist _
    | cons y ys =>
      rw [List.dropLast_cons_of_ne_nil (List.cons_ne_nil y ys)]
      exact List.Sublist.cons x ih
  | @cons₂ a2 b2 x hab ih =>
    cases a2 with
    | nil => exact List.nil_sublist _
    | cons z zs =>
      have hb : b2 ≠ [] := by
        intro h0
        subst h0
        exact absurd (List.sublist_nil.mp hab) (List.cons_ne_nil z zs)
      rw [List.dropLast_cons_of_ne_nil (List.cons_ne_nil z zs), List.dropLast_cons_of_ne_nil hb]
      exact List.Sublist.cons₂ x ih

theorem dedup_concat (l : List String) (k : String) :
    (l ++ [k]).dedup = (l.dedup).filter (fun j => !decide (j = k)) ++ [k] := by
  induction l with
  | nil => simp
  | cons a rest ih =>
    by_cases hak : a = k
    · subst hak
      have h1 : a ∈ rest ++ [a] := by simp
      rw [List.cons_append, List.dedup_cons_of_mem h1, ih]
      by_cases h2 : a ∈ rest
      · rw [List.dedup_cons_of_mem h2]
      · rw [List.dedup_cons_of_not_mem h2]
        simp
    · by_cases h2 : a ∈ rest
      · have h1 : a ∈ rest ++ [k] := by simp [h2]
        rw [List.cons_append, List.dedup_cons_of_mem h1, List.dedup_cons_of_mem h2, ih]
      · have h1 : a ∉ rest ++ [k] := by simp [h2, hak]
        rw [List.cons_append, List.dedup_cons_of_not_mem h1, List.dedup_cons_of_not_mem h2, ih]
        simp [hak]

theorem recencySpec_concat (keys : List String) (k : String) :
    recencySpec (keys ++ [k]) = k :: keysWithout (recencySpec keys) k := by
  unfold recencySpec keysWithout
  rw [dedup_concat, List.reverse_append, List.filter_reverse]
  rfl

theorem recencySpec_nodup (keys : List String) : (recencySpec keys).Nodup :=
  List.nodup_reverse.mpr (List.nodup_dedup keys)

end GoMemCache

namespace GoMemCache

/-! ## The recency list after each call, as a function of the list before -/

namespace LruMemoryCache

variable {V : Type}

theorem length_listKeys (o : List Element) : (listKeys o).length = o.length := by
  simp [listKeys]

theorem Inv.mem_listKeys_of_stored {mc : LruMemoryCache V} (h : mc.Inv) {k : String} {v : V}
    (hk : mapLoad mc.store k = some v) : k ∈ listKeys mc.order := by
  have h1 : k ∈ mapKeys mc.store := by
    rw [← mapLoad_isSome_iff, hk]
    rfl
  exact (h.stored k).mp h1

theorem Inv.not_mem_listKeys_of_not_stored {mc : LruMemoryCache V} (h : mc.Inv) {k : String}
    (hk : mapLoad mc.store k = none) : k ∉ listKeys mc.order :=
  Consistent.not_mem_of_index_none h (h.index_none_of_not_stored hk)

theorem Inv.stored_of_mem_listKeys {mc : LruMemoryCache V} (h : mc.Inv) {k : String}
    (hk : k ∈ listKeys mc.order) : ∃ v, mapLoad mc.store k = some v := by
  cases hs : mapLoad mc.store k with
  | none => exact absurd hk (h.not_mem_listKeys_of_not_stored hs)
  | some v => exact ⟨v, rfl⟩

theorem keys_Set {mc : LruMemoryCache V} (h : mc.Inv) (hb : mc.Bounded)
    (hmax : 0 < mc.maxSize) (k : String) (v : V) :
    listKeys (mc.Set k v).order
      = capAt mc.maxSize.toNat (k :: keysWithout (listKeys mc.order) k) := by
  have hN : (mc.maxSize.toNat : Int) = mc.maxSize := Int.toNat_of_nonneg hmax.le
  have hlen := hb hmax
  cases hk : mapLoad mc.store k with
  | some old =>
    rw [(Set_of_present h hk v).2.2.2.1]
    symm
    apply capAt_of_le
    have h1 := length_keysWithout_of_mem h.keysNodup (h.mem_listKeys_of_stored hk)
    rw [List.length_cons, h1, length_listKeys]
    omega
  | none =>
    have hnot := h.not_mem_listKeys_of_not_stored hk
    rw [keysWithout_eq_self hnot]
    by_cases hfull : mc.maxSize > 0 ∧ (mc.order.length : Int) + 1 > mc.maxSize
    · obtain ⟨oldest, hback, -, -, -, -, hkeys⟩ := Set_of_absent_full h hk v hfull
      rw [hkeys]
      have hne : listKeys mc.order ≠ [] := by
        intro h0
        have h1 := listKeys_getLast hback
        rw [h0] at h1
        exact Option.noConfusion h1
      rw [capAt_of_gt (by
        rw [List.length_cons, length_listKeys]
        omega), List.dropLast_cons_of_ne_nil hne]
    · rw [(Set_of_absent_room h hk v hfull).2.2.2]
      symm
      apply capAt_of_le
      rw [List.length_cons, length_listKeys]
      have : ¬ ((mc.order.length : Int) + 1 > mc.maxSize) := fun h2 => hfull ⟨hmax, h2⟩
      omega

theorem keys_Get {mc : LruMemoryCache V} (h : mc.Inv) (k : String) :
    listKeys (mc.Get k).2.order
      = if k ∈ listKeys mc.order then k :: keysWithout (listKeys mc.order) k
        else listKeys mc.order := by
  cases hk : mapLoad mc.store k with
  | some v =>
    rw [if_pos (h.mem_listKeys_of_stored hk)]
    exact (Get_snd_order h hk).1
  | none =>
    rw [if_neg (h.not_mem_listKeys_of_not_stored hk), Get_snd_of_miss hk]

theorem keys_Delete {mc : LruMemoryCache V} (h : mc.Inv) (k : String) :
    listKeys (mc.Delete k).order = keysWithout (listKeys mc.order) k := by
  cases hk : mapLoad mc.store k with
  | some v => exact (Delete_of_present h hk).2.2.2
  | none =>
    rw [Delete_of_absent hk, keysWithout_eq_self (h.not_mem_listKeys_of_not_stored hk)]

theorem Set_store_of_mem {mc : LruMemoryCache V} (h : mc.Inv) {k j : String} (v : V)
    (hj : j ∈ listKeys (mc.Set k v).order) (hjk : j ≠ k) :
    mapLoad (mc.Set k v).store j = mapLoad mc.store j ∧ j ∈ listKeys mc.order := by
  obtain ⟨w, hw⟩ := (Inv_Set h k v).stored_of_mem_listKeys hj
  rcases Set_store_other mc hjk v with h1 | h1
  · rw [h1] at hw
    exact Option.noConfusion hw
  · rw [h1] at hw
    exact ⟨h1, h.mem_listKeys_of_stored hw⟩

end LruMemoryCache

/-! ## A sequence of Set calls -/

theorem runOps_setOps_concat {V : Type} (mc : LruMemoryCache V) (sets : List (String × V))
    (p : String × V) :
    runOps mc (setOps (sets ++ [p])) = (runOps mc (setOps sets)).Set p.1 p.2 := by
  simp [runOps, setOps, List.foldl_append, Op.apply]

theorem Bounded_New {V : Type} (maxSize : Int) :
    (NewLruMemoryCache maxSize : LruMemoryCache V).Bounded := by
  intro hmax
  simpa [NewLruMemoryCache] using hmax.le

theorem lastValueSpec_concat {V : Type} (sets : List (String × V)) (k : String) (v : V)
    (j : String) :
    lastValueSpec (sets ++ [(k, v)]) j = if k = j then some v else lastValueSpec sets j := by
  unfold lastValueSpec
  rw [List.reverse_append]
  rfl

theorem setOps_order_and_values {V : Type} (maxSize : Int) (sets : List (String × V)) :
    listKeys (runOps (NewLruMemoryCache maxSize) (setOps sets)).order
        = truncateSpec maxSize (recencySpec (sets.map Prod.fst)) ∧
      ∀ k ∈ listKeys (runOps (NewLruMemoryCache maxSize) (setOps sets)).order,
        mapLoad (runOps (NewLruMemoryCache maxSize) (setOps sets)).store k
          = lastValueSpec sets k := by
  induction sets using List.reverseRecOn with
  | nil =>
    constructor
    · unfold truncateSpec recencySpec
      split
      · simp [runOps, setOps, NewLruMemoryCache, listKeys]
      · rfl
    · intro k hk
      simp [runOps, setOps, NewLruMemoryCache, listKeys] at hk
  | append_singleton sets p ih =>
    obtain ⟨k, v⟩ := p
    have hinv : (runOps (NewLruMemoryCache maxSize : LruMemoryCache V) (setOps sets)).Inv :=
      Inv_runOps _ (LruMemoryCache.Inv_New maxSize)
    have hb : (runOps (NewLruMemoryCache maxSize : LruMemoryCache V)
        (setOps sets)).Bounded := Bounded_runOps _ (Bounded_New maxSize)
    have hm : (runOps (NewLruMemoryCache maxSize : LruMemoryCache V)
        (setOps sets)).maxSize = maxSize := maxSize_runOps _ _
    rw [runOps_setOps_concat]
    constructor
    · rw [List.map_append, List.map_singleton, recencySpec_concat]
      by_cases hmax : maxSize > 0
      · have hmax2 : 0 < (runOps (NewLruMemoryCache maxSize : LruMemoryCache V)
            (setOps sets)).maxSize := by rw [hm]; exact hmax
        have hN : 0 < maxSize.toNat := by omega
        rw [LruMemoryCache.keys_Set hinv hb hmax2, hm, ih.1]
        unfold truncateSpec
        rw [if_pos hmax, if_pos hmax]
        exact capAt_moveToFront_take (recencySpec_nodup _) k hN
      · have hmax2 : (runOps (NewLruMemoryCache maxSize : LruMemoryCache V)
            (setOps sets)).maxSize ≤ 0 := by rw [hm]; exact not_lt.mp hmax
        rw [(LruMemoryCache.Set_unbounded hinv hmax2 k v).2, ih.1]
        unfold truncateSpec
        rw [if_neg hmax, if_neg hmax]
    · intro j hj
      rw [lastValueSpec_concat]
      by_cases hjk : k = j
      · subst hjk
        rw [if_pos rfl]
        exact LruMemoryCache.Set_store_self hinv k v
      · rw [if_neg hjk]
        obtain ⟨h1, h2⟩ := LruMemoryCache.Set_store_of_mem hinv v hj (Ne.symm hjk)
        rw [h1]
        exact ih.2 j h2

/-- C14: for every `maxSize` and every sequence of `Set` calls on a new plain cache, keys
repeated or not, the recency list read from front to back is the list of the distinct keys
ordered by their last `Set`, most recent first, cut to its first `maxSize` keys when
`maxSize > 0` and uncut otherwise; every key of the list is stored with the value of its
last `Set`; and when `maxSize > 0` the store holds min(number of distinct keys, `maxSize`)
keys. -/
theorem sets_only_recency_order {V : Type} (maxSize : Int) (sets : List (String × V)) :
    listKeys (runOps (NewLruMemoryCache maxSize) (setOps sets)).order
      = truncateSpec maxSize (recencySpec (sets.map Prod.fst)) ∧
    (∀ k ∈ listKeys (runOps (NewLruMemoryCache maxSize) (setOps sets)).order,
      mapLoad (runOps (NewLruMemoryCache maxSize) (setOps sets)).store k
        = lastValueSpec sets k) ∧
    (0 < maxSize →
      (runOps (NewLruMemoryCache maxSize) (setOps sets)).store.length
        = min ((sets.map Prod.fst).dedup.length) maxSize.toNat) ∧
    (maxSize ≤ 0 →
      (runOps (NewLruMemoryCache maxSize) (setOps sets)).store.length
        = (sets.map Prod.fst).dedup.length) := by
  obtain ⟨h1, h2⟩ := setOps_order_and_values maxSize sets
  have hinv : (runOps (NewLruMemoryCache maxSize : LruMemoryCache V) (setOps sets)).Inv :=
    Inv_runOps _ (LruMemoryCache.Inv_New maxSize)
  have hlen : (runOps (NewLruMemoryCache maxSize : LruMemoryCache V) (setOps sets)).store.length
      = (truncateSpec maxSize (recencySpec (sets.map Prod.fst))).length := by
    rw [hinv.length_store, ← LruMemoryCache.length_listKeys, h1]
  refine ⟨h1, h2, ?_, ?_⟩
  · intro hmax
    rw [hlen]
    unfold truncateSpec recencySpec
    rw [if_pos hmax, List.length_take, List.length_reverse, min_comm]
  · intro hmax
    rw [hlen]
    unfold truncateSpec recencySpec
    rw [if_neg (not_lt.mpr hmax), List.length_reverse]

/-- C14 on six `Set` calls with repeated keys, for `maxSize` 2. -/
theorem sets_only_recency_order_witness :
    listKeys (runOps (NewLruMemoryCache 2)
      (setOps [("a", 1), ("b", 2), ("a", 3), ("c", 4), ("b", 5), ("d", 6)])).order
        = ["d", "b"] ∧
    (runOps (NewLruMemoryCache 2)
      (setOps [("a", 1), ("b", 2), ("a", 3), ("c", 4), ("b", 5), ("d", 6)])).store.length
        = 2 :=
  ⟨(sets_only_recency_order 2 [("a", 1), ("b", 2), ("a", 3), ("c", 4), ("b", 5),
      ("d", 6)]).1.trans (by decide),
    ((sets_only_recency_order 2 [("a", 1), ("b", 2), ("a", 3), ("c", 4), ("b", 5),
      ("d", 6)]).2.2.1 (by decide)).trans (by decide)⟩

end GoMemCache

namespace GoMemCache

/-! ## Two capacities: the key lists stay nested -/

theorem length_moveToFront {l : List String} (hn : l.Nodup) (k : String) :
    (k :: keysWithout l k).length = if k ∈ l then l.length else l.length + 1 := by
  by_cases hk : k ∈ l
  · rw [if_pos hk, List.length_cons, length_keysWithout_of_mem hn hk]
  · rw [if_neg hk, keysWithout_eq_self hk, List.length_cons]

theorem keysWithout_sublist_keysWithout {a b : List String} (h : a.Sublist b) (k : String) :
    (keysWithout a k).Sublist (keysWithout b k) :=
  List.Sublist.filter _ h

theorem length_keysWithout_le (l : List String) (k : String) :
    (keysWithout l k).length ≤ l.length :=
  (keysWithout_sublist l k).length_le

theorem nested_set {a b : List String} (hab : a.Sublist b) (hb : b.Nodup)
    (hlen : b.length ≤ a.length + 1) {n : Nat} (ha : a.length ≤ n) (k : String) :
    (capAt n (k :: keysWithout a k)).Sublist (capAt (n + 1) (k :: keysWithout b k)) ∧
      (capAt (n + 1) (k :: keysWithout b k)).length
        ≤ (capAt n (k :: keysWithout a k)).length + 1 := by
  have han : a.Nodup := List.Nodup.sublist hab hb
  have hsub : (k :: keysWithout a k).Sublist (k :: keysWithout b k) :=
    List.Sublist.cons₂ k (keysWithout_sublist_keysWithout hab k)
  have hla := length_moveToFront han k
  have hlb := length_moveToFront hb k
  have himp : k ∈ a → k ∈ b := fun h => hab.subset h
  have hla2 : (k :: keysWithout a k).length ≤ n + 1 := by
    rw [hla]; split <;> omega
  have hlb2 : (k :: keysWithout b k).length ≤ (k :: keysWithout a k).length + 1 := by
    rw [hla, hlb]
    by_cases h1 : k ∈ a
    · rw [if_pos h1, if_pos (himp h1)]
      exact hlen
    · rw [if_neg h1]
      split <;> omega
  by_cases hca : (k :: keysWithout a k).length > n
  · by_cases hcb : (k :: keysWithout b k).length > n + 1
    · rw [capAt_of_gt hca, capAt_of_gt hcb]
      refine ⟨sublist_dropLast hsub, ?_⟩
      rw [List.length_dropLast, List.length_dropLast]
      omega
    · rw [capAt_of_gt hca, capAt_of_le (not_lt.mp hcb)]
      refine ⟨(List.dropLast_sublist _).trans hsub, ?_⟩
      rw [List.length_dropLast]
      omega
  · by_cases hcb : (k :: keysWithout b k).length > n + 1
    · omega
    · rw [capAt_of_le (not_lt.mp hca), capAt_of_le (not_lt.mp hcb)]
      exact ⟨hsub, hlb2⟩

theorem nested_get {a b : List String} (hab : a.Sublist b) (hb : b.Nodup)
    (hlen : b.length ≤ a.length + 1) (k : String) :
    (if k ∈ a then k :: keysWithout a k else a).Sublist
        (if k ∈ b then k :: keysWithout b k else b) ∧
      (if k ∈ b then k :: keysWithout b k else b).length
        ≤ (if k ∈ a then k :: keysWithout a k else a).length + 1 := by
  have han : a.Nodup := List.Nodup.sublist hab hb
  have hla := length_moveToFront han k
  have hlb := length_moveToFront hb k
  by_cases h1 : k ∈ a
  · have h2 : k ∈ b := hab.subset h1
    rw [if_pos h1, if_pos h2] at *
    refine ⟨List.Sublist.cons₂ k (keysWithout_sublist_keysWithout hab k), ?_⟩
    rw [hla, hlb]
    exact hlen
  · rw [if_neg h1] at *
    by_cases h2 : k ∈ b
    · rw [if_pos h2] at *
      refine ⟨?_, ?_⟩
      · have h3 := keysWithout_sublist_keysWithout hab k
        rw [keysWithout_eq_self h1] at h3
        exact List.Sublist.cons k h3
      · rw [hlb]
        exact hlen
    · rw [if_neg h2] at *
      exact ⟨hab, hlen⟩

theorem nested_delete {a b : List String} (hab : a.Sublist b) (hb : b.Nodup)
    (hlen : b.length ≤ a.length + 1) (k : String) :
    (keysWithout a k).Sublist (keysWithout b k) ∧
      (keysWithout b k).length ≤ (keysWithout a k).length + 1 := by
  have han : a.Nodup := List.Nodup.sublist hab hb
  refine ⟨keysWithout_sublist_keysWithout hab k, ?_⟩
  by_cases h1 : k ∈ a
  · have h2 : k ∈ b := hab.subset h1
    have h3 := length_keysWithout_of_mem han h1
    have h4 := length_keysWithout_of_mem hb h2
    omega
  · rw [keysWithout_eq_self h1]
    have := length_keysWithout_le b k
    omega

theorem Bounded_apply {V : Type} {mc : LruMemoryCache V} (h : mc.Bounded) (op : Op V) :
    (Op.apply mc op).Bounded :=
  Bounded_runOps [op] h

theorem maxSize_apply {V : Type} (mc : LruMemoryCache V) (op : Op V) :
    (Op.apply mc op).maxSize = mc.maxSize :=
  maxSize_runOps [op] mc

theorem Nested.new {V : Type} (n : Int) :
    Nested n (NewLruMemoryCache n : LruMemoryCache V) (NewLruMemoryCache (n + 1)) where
  invS := LruMemoryCache.Inv_New n
  invL := LruMemoryCache.Inv_New (n + 1)
  boundS := Bounded_New n
  boundL := Bounded_New (n + 1)
  maxS := rfl
  maxL := rfl
  sub := List.Sublist.slnil
  vals := by
    intro k hk
    simp [NewLruMemoryCache, listKeys] at hk
  len := by simp [NewLruMemoryCache, listKeys]

theorem Nested.step {V : Type} {n : Int} (hn : 1 ≤ n) {s l : LruMemoryCache V}
    (h : Nested n s l) (op : Op V) : Nested n (Op.apply s op) (Op.apply l op) := by
  have hS : 0 < s.maxSize := by rw [h.maxS]; omega
  have hL : 0 < l.maxSize := by rw [h.maxL]; omega
  have hNS : (s.maxSize.toNat : Int) = n := by rw [h.maxS]; exact Int.toNat_of_nonneg (by omega)
  have hNL : l.maxSize.toNat = s.maxSize.toNat + 1 := by
    rw [h.maxS, h.maxL]
    omega
  have hlS : (listKeys s.order).length ≤ s.maxSize.toNat := by
    have := h.boundS hS
    rw [LruMemoryCache.length_listKeys]
    rw [h.maxS] at this
    omega
  have hkeys : (listKeys (Op.apply s op).order).Sublist (listKeys (Op.apply l op).order) ∧
      (listKeys (Op.apply l op).order).length
        ≤ (listKeys (Op.apply s op).order).length + 1 := by
    cases op with
    | set k v =>
      show (listKeys (s.Set k v).order).Sublist (listKeys (l.Set k v).order) ∧
        (listKeys (l.Set k v).order).length ≤ (listKeys (s.Set k v).order).length + 1
      rw [LruMemoryCache.keys_Set h.invS h.boundS hS, LruMemoryCache.keys_Set h.invL h.boundL hL,
        hNL]
      exact nested_set h.sub h.invL.keysNodup h.len hlS k
    | get k =>
      show (listKeys (s.Get k).2.order).Sublist (listKeys (l.Get k).2.order) ∧
        (listKeys (l.Get k).2.order).length ≤ (listKeys (s.Get k).2.order).length + 1
      rw [LruMemoryCache.keys_Get h.invS, LruMemoryCache.keys_Get h.invL]
      exact nested_get h.sub h.invL.keysNodup h.len k
    | delete k =>
      show (listKeys (s.Delete k).order).Sublist (listKeys (l.Delete k).order) ∧
        (listKeys (l.Delete k).order).length ≤ (listKeys (s.Delete k).order).length + 1
      rw [LruMemoryCache.keys_Delete h.invS, LruMemoryCache.keys_Delete h.invL]
      exact nested_delete h.sub h.invL.keysNodup h.len k
  refine ⟨Inv_apply h.invS op, Inv_apply h.invL op, Bounded_apply h.boundS op,
    Bounded_apply h.boundL op, ?_, ?_, hkeys.1, ?_, hkeys.2⟩
  · rw [maxSize_apply]
    exact h.maxS
  · rw [maxSize_apply]
    exact h.maxL
  · intro j hj
    have hjL : j ∈ listKeys (Op.apply l op).order := hkeys.1.subset hj
    cases op with
    | set k v =>
      by_cases hjk : j = k
      · subst hjk
        exact (LruMemoryCache.Set_store_self h.invS j v).trans
          (LruMemoryCache.Set_store_self h.invL j v).symm
      · obtain ⟨h1, h2⟩ := LruMemoryCache.Set_store_of_mem h.invS v hj hjk
        obtain ⟨h3, -⟩ := LruMemoryCache.Set_store_of_mem h.invL v hjL hjk
        show mapLoad (s.Set k v).store j = mapLoad (l.Set k v).store j
        rw [h1, h3]
        exact h.vals j h2
    | get k =>
      have hj2 : j ∈ listKeys (s.Get k).2.order := hj
      show mapLoad (s.Get k).2.store j = mapLoad (l.Get k).2.store j
      rw [(LruMemoryCache.Get_snd_fields s k).1, (LruMemoryCache.Get_snd_fields l k).1]
      apply h.vals
      rw [LruMemoryCache.keys_Get h.invS] at hj2
      by_cases hk : k ∈ listKeys s.order
      · rw [if_pos hk] at hj2
        rcases List.mem_cons.mp hj2 with h1 | h1
        · rw [h1]
          exact hk
        · exact (mem_keysWithout.mp h1).1
      · rw [if_neg hk] at hj2
        exact hj2
    | delete k =>
      have hj2 : j ∈ listKeys (s.Delete k).order := hj
      rw [LruMemoryCache.keys_Delete h.invS] at hj2
      obtain ⟨h1, h2⟩ := mem_keysWithout.mp hj2
      show mapLoad (s.Delete k).store j = mapLoad (l.Delete k).store j
      rw [LruMemoryCache.Delete_store, LruMemoryCache.Delete_store,
        mapLoad_mapDelete_ne _ h2, mapLoad_mapDelete_ne _ h2]
      exact h.vals j h1

theorem Nested.run {V : Type} {n : Int} (hn : 1 ≤ n) (ops : List (Op V))
    {s l : LruMemoryCache V} (h : Nested n s l) : Nested n (runOps s ops) (runOps l ops) := by
  induction ops generalizing s l with
  | nil => exact h
  | cons op rest ih => exact ih (h.step hn op)

/-- C20: for every `n >= 1` and every sequence of `Set`, `Get` and `Delete` calls applied to
a new plain cache with `maxSize` `n` and to one with `maxSize` `n + 1`, after the sequence,
hence after every step, every key stored in the smaller cache is stored in the larger one
with the same value, the keys of the smaller cache occur in the same order in the recency
list of the larger one, and every `Get` that hits in the smaller cache hits in the larger
one with the same value. -/
theorem larger_cache_keeps_hits {V : Type} (n : Int) (hn : 1 ≤ n) (ops : List (Op V)) :
    (∀ (k : String) (v : V),
      mapLoad (runOps (NewLruMemoryCache n) ops).store k = some v →
      mapLoad (runOps (NewLruMemoryCache (n + 1)) ops).store k = some v) ∧
    (∀ (k : String) (v : V),
      ((runOps (NewLruMemoryCache n) ops).Get k).1 = some v →
      ((runOps (NewLruMemoryCache (n + 1)) ops).Get k).1 = some v) ∧
    (listKeys (runOps (NewLruMemoryCache n) ops).order).Sublist
      (listKeys (runOps (NewLruMemoryCache (n + 1)) ops).order) := by
  have h := Nested.run hn ops (Nested.new n : Nested n (NewLruMemoryCache n : LruMemoryCache V)
    (NewLruMemoryCache (n + 1)))
  have hstore : ∀ (k : String) (v : V),
      mapLoad (runOps (NewLruMemoryCache n) ops).store k = some v →
      mapLoad (runOps (NewLruMemoryCache (n + 1)) ops).store k = some v := by
    intro k v hk
    rw [← h.vals k (h.invS.mem_listKeys_of_stored hk)]
    exact hk
  refine ⟨hstore, ?_, h.sub⟩
  intro k v hk
  rw [LruMemoryCache.Get_fst] at hk ⊢
  exact hstore k v hk

/-- C20 for capacities 2 and 3 on a sequence with a miss in the smaller cache that is a hit
in the larger one: `b` is stored in both caches with the same value. -/
theorem larger_cache_keeps_hits_witness :
    (1 : Int) ≤ 2 ∧
    ((runOps (NewLruMemoryCache 2) [Op.set "c" 1, Op.set "b" 2, Op.set "a" 3, Op.get "c",
      Op.delete "a", Op.set "d" 4, Op.get "c"]).Get "b").1 = some 2 ∧
    ((runOps (NewLruMemoryCache (2 + 1)) [Op.set "c" 1, Op.set "b" 2, Op.set "a" 3,
      Op.get "c", Op.delete "a", Op.set "d" 4, Op.get "c"]).Get "b").1 = some 2 :=
  ⟨by decide, by decide,
    (larger_cache_keeps_hits 2 (by decide) [Op.set "c" 1, Op.set "b" 2, Op.set "a" 3,
      Op.get "c", Op.delete "a", Op.set "d" 4, Op.get "c"]).2.1 "b" 2 (by decide)⟩

end GoMemCache
